import Mathlib

/-!
# Aero-OS kernel: process table and scheduler

A shallow embedding of the process table and scheduler of `src/kernel/kernel.c`
(`struct Process`, `init_scheduler`, `create_idle_thread`, `create_user_process`,
`schedule`).  The C objects are kept apart as in the source: the static
`idle_process`, the array `processes[16]`, and the file-scope variables
`process_list`, `current_process`, `next_pid`, `process_count`.  A `struct Process*`
is a `Ptr` (or `none` for `NULL`); the linked list lives in the `next` fields, so
that aliasing and cyclic lists behave as they do in C.  Loops that walk `next`
pointers take a bound on the number of loop iterations and return `none` when the
bound is exhausted.
-/

namespace AeroOS

/-- The C `enum ProcessState`, constructors in the order of the enumeration. -/
inductive ProcessState where
  | PROCESS_READY
  | PROCESS_RUNNING
  | PROCESS_BLOCKED
  | PROCESS_TERMINATED
  deriving DecidableEq, Repr

/-- A non-null `struct Process*`: the address of the static `idle_process` of
`create_idle_thread`, or the address of `processes[i]`. -/
inductive Ptr where
  | idle
  | slot (i : Nat)
  deriving DecidableEq, Repr

/-- The C `struct Process`.  `name` is the 32-byte buffer `char name[32]`. -/
structure Process where
  pid : Nat
  name : List Char
  state : ProcessState
  esp : Nat
  ebp : Nat
  eip : Nat
  page_dir : Nat
  next : Option Ptr
  deriving DecidableEq, Repr

/-- The NUL character. -/
def NUL : Char := Char.ofNat 0

/-- A zero-initialised `struct Process` (static storage): every integer 0, the name
all NUL, the state the enumerator with value 0, `next` the null pointer. -/
def Process.zero : Process :=
  { pid := 0, name := List.replicate 32 NUL, state := ProcessState.PROCESS_READY,
    esp := 0, ebp := 0, eip := 0, page_dir := 0, next := none }

/-- The file-scope and function-static objects of the scheduler part of `kernel.c`. -/
structure Kernel where
  idle_process : Process
  processes : List Process
  process_count : Nat
  process_list : Option Ptr
  current_process : Option Ptr
  next_pid : Nat
  deriving DecidableEq, Repr

/-- Addresses of the two symbols whose value is stored into control blocks:
`(uint32_t)idle_thread` and `(uint32_t)page_directory`. -/
structure Symbols where
  idle_thread : Nat
  page_directory : Nat
  deriving DecidableEq, Repr

/-- The statics as the loader leaves them: everything zero except `next_pid = 1`. -/
def Kernel.boot : Kernel :=
  { idle_process := Process.zero, processes := List.replicate 16 Process.zero,
    process_count := 0, process_list := none, current_process := none, next_pid := 1 }

/-- Reading `*p`. -/
def Kernel.deref (s : Kernel) : Ptr → Process
  | Ptr.idle => s.idle_process
  | Ptr.slot i => s.processes.getD i Process.zero

/-- Writing `*p = v`. -/
def Kernel.store (s : Kernel) (p : Ptr) (v : Process) : Kernel :=
  match p with
  | Ptr.idle => { s with idle_process := v }
  | Ptr.slot i => { s with processes := s.processes.set i v }

/-- The C `init_scheduler`: resets the list head and the current process only. -/
def init_scheduler (s : Kernel) : Kernel :=
  { s with process_list := none, current_process := none }

/-- The loop `while (proc->next != NULL) proc = proc->next;` of the two creation
functions, started at `p`; `fuel` bounds the number of iterations. -/
def find_tail (s : Kernel) : Nat → Ptr → Option Ptr
  | fuel, p =>
    match (s.deref p).next with
    | none => some p
    | some q =>
      match fuel with
      | 0 => none
      | fuel + 1 => find_tail s fuel q

/-- The block "Add to process list" shared by both creation functions: `proc`
becomes the head of an empty list, else the `next` of the last entry. -/
def add_to_list (fuel : Nat) (s : Kernel) (proc : Ptr) : Option Kernel :=
  match s.process_list with
  | none => some { s with process_list := some proc }
  | some head =>
    match find_tail s fuel head with
    | none => none
    | some p => some (s.store p { s.deref p with next := some proc })

/-- The copy loop of `create_idle_thread`: `name[i] = src[i]; if (name[i] == 0) break;`
for `i` below 32; the second argument counts the iterations that remain. -/
def idle_name_copy (src : List Char) : Nat → Nat → List Char → List Char
  | 0, _, buf => buf
  | k + 1, i, buf =>
    let buf1 := buf.set i (src.getD i NUL)
    if src.getD i NUL = NUL then buf1 else idle_name_copy src k (i + 1) buf1

/-- The C `create_idle_thread`. -/
def create_idle_thread (fuel : Nat) (sym : Symbols) (s : Kernel) : Option Kernel :=
  let idle := s.idle_process
  let idle1 : Process :=
    { idle with
      pid := 0
      name := idle_name_copy "idle_thread".toList 32 0 idle.name
      state := ProcessState.PROCESS_READY
      eip := sym.idle_thread
      page_dir := sym.page_directory
      next := none }
  add_to_list fuel { s with idle_process := idle1 } Ptr.idle

/-- The copy loop of `create_user_process`:
`for (i = 0; i < 31 && name[i] != 0; i++) proc->name[i] = name[i];`
returning the final `i` and the buffer; the second argument counts the iterations
that remain before `i` reaches 31.  The argument string reads as NUL past its end. -/
def user_name_copy (src : List Char) : Nat → Nat → List Char → Nat × List Char
  | 0, i, buf => (i, buf)
  | k + 1, i, buf =>
    if src.getD i NUL = NUL then (i, buf)
    else user_name_copy src k (i + 1) (buf.set i (src.getD i NUL))

/-- The part of `create_user_process` between the capacity check and the block "Add to
process list": `proc = &processes[process_count++]`, `proc->pid = next_pid++`, the name
copy, and the assignments to `state`, `page_dir`, `next` and `eip` (both branches of
the test on the name store the address of `idle_thread`). -/
def prepare_slot (sym : Symbols) (s : Kernel) (name : List Char) : Kernel :=
  let proc := Ptr.slot s.process_count
  let s1 := { s with process_count := s.process_count + 1 }
  let s2 := { s1 with next_pid := (s1.next_pid + 1) % 2 ^ 32 }
  let old := s2.deref proc
  let copied := user_name_copy name 31 0 old.name
  let i := copied.1
  let nm := copied.2.set i NUL
  let entry :=
    if 4 ≤ i ∧ nm.getD 0 NUL = 'i' ∧ nm.getD 1 NUL = 'n' ∧ nm.getD 2 NUL = 'i'
        ∧ nm.getD 3 NUL = 't'
    then sym.idle_thread else sym.idle_thread
  s2.store proc
    { old with
      pid := s.next_pid
      name := nm
      state := ProcessState.PROCESS_READY
      page_dir := sym.page_directory
      next := none
      eip := entry }

/-- The C `create_user_process`. -/
def create_user_process (fuel : Nat) (sym : Symbols) (s : Kernel) (name : List Char) :
    Option Kernel :=
  if 16 ≤ s.process_count then some s
  else add_to_list fuel (prepare_slot sym s name) (Ptr.slot s.process_count)

/-- The step `next = next->next; if (next == NULL) next = process_list;` of
`schedule`: the successor of `p` in the cyclic order. -/
def succ (s : Kernel) (p : Ptr) : Option Ptr :=
  match (s.deref p).next with
  | some q => some q
  | none => s.process_list

/-- The `while` loop of `schedule` that looks for a ready process, as a function of
the loop variable `next`; `start` is the pointer the loop began at and `fuel` bounds
the number of executions of the loop body.  The result is `next` at loop exit. -/
def schedule_scan (s : Kernel) (start : Option Ptr) : Nat → Option Ptr → Option (Option Ptr)
  | _, none => some none
  | fuel, some p =>
    if (s.deref p).state = ProcessState.PROCESS_READY then some (some p)
    else
      match fuel with
      | 0 => none
      | fuel + 1 =>
        if succ s p = start then some (succ s p) else schedule_scan s start fuel (succ s p)

/-- The initial value of `next` in `schedule`: the list head when there is no
current process, else the successor of the current process. -/
def schedule_start (s : Kernel) : Option Ptr :=
  match s.current_process with
  | none => s.process_list
  | some c => succ s c

/-- The assignments `current_process = next; current_process->state = PROCESS_RUNNING;`
of `schedule`. -/
def switch_to (s : Kernel) (n : Ptr) : Kernel :=
  let s1 := { s with current_process := some n }
  s1.store n { s1.deref n with state := ProcessState.PROCESS_RUNNING }

/-- The C `schedule`.  The `hlt` and `pause` instructions change none of the
modelled objects. -/
def schedule (fuel : Nat) (s : Kernel) : Option Kernel :=
  match s.process_list with
  | none => some s
  | some _ =>
    let start := schedule_start s
    match schedule_scan s start fuel start with
    | none => none
    | some none => some s
    | some (some n) =>
      if (s.deref n).state ≠ ProcessState.PROCESS_READY then some s
      else if s.current_process ≠ some n then some (switch_to s n)
      else some s

/-- One call from the kernel's scheduler interface. -/
inductive Call where
  | create_idle_thread
  | create_user_process (name : List Char)
  | schedule
  deriving DecidableEq, Repr

/-- Effect of one call. -/
def step (fuel : Nat) (sym : Symbols) (s : Kernel) : Call → Option Kernel
  | Call.create_idle_thread => create_idle_thread fuel sym s
  | Call.create_user_process name => create_user_process fuel sym s name
  | Call.schedule => schedule fuel s

/-- Effect of a sequence of calls, left to right. -/
def run (fuel : Nat) (sym : Symbols) : Kernel → List Call → Option Kernel
  | s, [] => some s
  | s, c :: cs =>
    match step fuel sym s c with
    | none => none
    | some s1 => run fuel sym s1 cs

/-- The pointers met by following `next` from `p`, at most `fuel` of them. -/
def walk (s : Kernel) : Nat → Option Ptr → List Ptr
  | 0, _ => []
  | _ + 1, none => []
  | fuel + 1, some p => p :: walk s fuel (s.deref p).next

/-- The entries of the process list, head first (the table holds 17 control blocks). -/
def Kernel.entries (s : Kernel) : List Ptr := walk s 17 s.process_list

/-- Number of entries of the process list whose state is Running. -/
def Kernel.running_count (s : Kernel) : Nat :=
  (s.entries.filter (fun p => decide ((s.deref p).state = ProcessState.PROCESS_RUNNING))).length

/-- List segment: following `next` from `p` visits exactly the pointers of the list
and arrives at `q`. -/
def lseg (s : Kernel) : Option Ptr → List Ptr → Option Ptr → Prop
  | p, [], q => p = q
  | p, x :: xs, q => p = some x ∧ lseg s (s.deref x).next xs q

instance lseg.decidable (s : Kernel) : ∀ p l q, Decidable (lseg s p l q)
  | p, [], q => inferInstanceAs (Decidable (p = q))
  | p, x :: xs, q =>
    @instDecidableAnd _ _ (inferInstanceAs (Decidable (p = some x)))
      (lseg.decidable s (s.deref x).next xs q)

/-- The process list of `s` is the finite NULL-terminated list `l`. -/
def IsList (s : Kernel) (l : List Ptr) : Prop := lseg s s.process_list l none

instance IsList.decidable (s : Kernel) (l : List Ptr) : Decidable (IsList s l) :=
  lseg.decidable s _ _ _

/-- Whether a pointer addresses an object that exists: `idle_process`, or an element
of `processes`. -/
def Kernel.valid (s : Kernel) : Ptr → Bool
  | Ptr.idle => true
  | Ptr.slot i => decide (i < s.processes.length)

/-- Every pointer of `l` addresses an object that exists. -/
def InBounds (s : Kernel) (l : List Ptr) : Prop :=
  ∀ p ∈ l, s.valid p = true

instance InBounds.decidable (s : Kernel) (l : List Ptr) : Decidable (InBounds s l) :=
  inferInstanceAs (Decidable (∀ p ∈ l, s.valid p = true))

/-- Whether the control block at `p` is Ready. -/
def Kernel.ready (s : Kernel) (p : Ptr) : Bool :=
  decide ((s.deref p).state = ProcessState.PROCESS_READY)

/-- The order in which the specification says the entries are examined: forward from
the successor of the current process, wrapping from the tail to the head, the
current process last; from the head when there is no current process. -/
def scan_order (l : List Ptr) : Option Ptr → List Ptr
  | none => l
  | some c => (l.dropWhile (fun p => p != c)).tail ++ l.takeWhile (fun p => p != c) ++ [c]

/-- Cyclic segment: stepping with `succ` from `p` visits the pointers of the list
and arrives at `q`. -/
def cseg (s : Kernel) : Option Ptr → List Ptr → Option Ptr → Prop
  | p, [], q => p = q
  | p, x :: xs, q => p = some x ∧ cseg s (succ s x) xs q

/-! ### The boot sequence of `kernel_init`, state by state -/

/-- Addresses used in the worked examples. -/
def demo_sym : Symbols := { idle_thread := 0x101000, page_directory := 0x200000 }

/-- A control block as the creation functions leave it in a zero-initialised slot. -/
def demo_pcb (pid : Nat) (name : String) (state : ProcessState) (next : Option Ptr) :
    Process :=
  { pid := pid, name := name.toList ++ List.replicate (32 - name.length) NUL, state := state,
    esp := 0, ebp := 0, eip := demo_sym.idle_thread, page_dir := demo_sym.page_directory,
    next := next }

/-- The calls of `kernel_init` up to the kernel main loop, `wait_for_auth` apart. -/
def boot_calls : List Call :=
  [Call.create_idle_thread, Call.create_user_process "init".toList,
    Call.create_user_process "auth_service".toList,
    Call.create_user_process "desktop_shell".toList]

/-- State after `init_scheduler(); create_idle_thread();`. -/
def boot_idle : Kernel :=
  { idle_process := demo_pcb 0 "idle_thread" ProcessState.PROCESS_READY none,
    processes := List.replicate 16 Process.zero,
    process_count := 0, process_list := some Ptr.idle, current_process := none,
    next_pid := 1 }

/-- State after the further call `create_user_process("init")`. -/
def boot_init : Kernel :=
  { idle_process := demo_pcb 0 "idle_thread" ProcessState.PROCESS_READY (some (Ptr.slot 0)),
    processes := demo_pcb 1 "init" ProcessState.PROCESS_READY none
      :: List.replicate 15 Process.zero,
    process_count := 1, process_list := some Ptr.idle, current_process := none,
    next_pid := 2 }

/-- State after the further call `create_user_process("auth_service")`. -/
def boot_auth : Kernel :=
  { idle_process := demo_pcb 0 "idle_thread" ProcessState.PROCESS_READY (some (Ptr.slot 0)),
    processes := demo_pcb 1 "init" ProcessState.PROCESS_READY (some (Ptr.slot 1))
      :: demo_pcb 2 "auth_service" ProcessState.PROCESS_READY none
      :: List.replicate 14 Process.zero,
    process_count := 2, process_list := some Ptr.idle, current_process := none,
    next_pid := 3 }

/-- The three user control blocks of the boot sequence, the first two in the given
states. -/
def boot_users (st0 st1 : ProcessState) : List Process :=
  demo_pcb 1 "init" st0 (some (Ptr.slot 1))
    :: demo_pcb 2 "auth_service" st1 (some (Ptr.slot 2))
    :: demo_pcb 3 "desktop_shell" ProcessState.PROCESS_READY none
    :: List.replicate 13 Process.zero

/-- State after the further call `create_user_process("desktop_shell")`: the state in
which `kernel_init` enters its main loop. -/
def boot_desktop : Kernel :=
  { idle_process := demo_pcb 0 "idle_thread" ProcessState.PROCESS_READY (some (Ptr.slot 0)),
    processes := boot_users ProcessState.PROCESS_READY ProcessState.PROCESS_READY,
    process_count := 3, process_list := some Ptr.idle, current_process := none,
    next_pid := 4 }

/-- State after the first `schedule()` of the main loop. -/
def boot_run1 : Kernel :=
  { idle_process := demo_pcb 0 "idle_thread" ProcessState.PROCESS_RUNNING (some (Ptr.slot 0)),
    processes := boot_users ProcessState.PROCESS_READY ProcessState.PROCESS_READY,
    process_count := 3, process_list := some Ptr.idle, current_process := some Ptr.idle,
    next_pid := 4 }

/-- State after the second `schedule()` of the main loop. -/
def boot_run2 : Kernel :=
  { idle_process := demo_pcb 0 "idle_thread" ProcessState.PROCESS_RUNNING (some (Ptr.slot 0)),
    processes := boot_users ProcessState.PROCESS_RUNNING ProcessState.PROCESS_READY,
    process_count := 3, process_list := some Ptr.idle,
    current_process := some (Ptr.slot 0), next_pid := 4 }

/-- State after the third `schedule()` of the main loop. -/
def boot_run3 : Kernel :=
  { idle_process := demo_pcb 0 "idle_thread" ProcessState.PROCESS_RUNNING (some (Ptr.slot 0)),
    processes := boot_users ProcessState.PROCESS_RUNNING ProcessState.PROCESS_RUNNING,
    process_count := 3, process_list := some Ptr.idle,
    current_process := some (Ptr.slot 1), next_pid := 4 }

/-- State after the fourth `schedule()` of the main loop: every entry is Running. -/
def boot_run4 : Kernel :=
  { idle_process := demo_pcb 0 "idle_thread" ProcessState.PROCESS_RUNNING (some (Ptr.slot 0)),
    processes :=
      demo_pcb 1 "init" ProcessState.PROCESS_RUNNING (some (Ptr.slot 1))
        :: demo_pcb 2 "auth_service" ProcessState.PROCESS_RUNNING (some (Ptr.slot 2))
        :: demo_pcb 3 "desktop_shell" ProcessState.PROCESS_RUNNING none
        :: List.replicate 13 Process.zero,
    process_count := 3, process_list := some Ptr.idle,
    current_process := some (Ptr.slot 2), next_pid := 4 }

/-- The four entries of the process list after the boot sequence. -/
def boot_list : List Ptr := [Ptr.idle, Ptr.slot 0, Ptr.slot 1, Ptr.slot 2]

/-- The value of `current_process` after each of `k` consecutive calls of `schedule`,
in call order. -/
def schedule_trace (fuel : Nat) : Nat → Kernel → Option (List (Option Ptr))
  | 0, _ => some []
  | k + 1, s =>
    match schedule fuel s with
    | none => none
    | some s1 =>
      match schedule_trace fuel k s1 with
      | none => none
      | some t => some (s1.current_process :: t)

/-- The only process that can run is `P`: either `P` is the only Ready entry of the
list, or `P` is the current process and no entry is Ready. -/
def SoleRunnable (s : Kernel) (l : List Ptr) (P : Ptr) : Prop :=
  (s.ready P = true ∧ ∀ q ∈ l, q ≠ P → s.ready q = false)
    ∨ (s.current_process = some P ∧ ∀ q ∈ l, s.ready q = false)

/-- What `add_to_list` does to a list whose last entry is `last` (`none` for the empty
list): the head is set, or the `next` field of the last entry is. -/
def link_tail (s : Kernel) (last : Option Ptr) (proc : Ptr) : Kernel :=
  match last with
  | none => { s with process_list := some proc }
  | some t => s.store t { s.deref t with next := some proc }

/-- The fields of a control block other than `next`. -/
def Process.payload (p : Process) : Process := { p with next := none }

/-- Whether a pointer addresses an element of `processes` (a user process). -/
def Ptr.isSlot : Ptr → Bool
  | Ptr.idle => false
  | Ptr.slot _ => true

/-- Invariant of the process table in the states built from `init_scheduler` by the
creation functions, `create_idle_thread` being called at most once: the list is
well-formed, its user entries are `processes[0 .. process_count - 1]` in that order,
user `i` has identifier `i + 1`, and the idle entry, if present, has identifier 0. -/
structure TableInv (s : Kernel) (l : List Ptr) : Prop where
  isList : IsList s l
  length : s.processes.length = 16
  count_le : s.process_count ≤ 16
  users : l.filter Ptr.isSlot = (List.range s.process_count).map Ptr.slot
  pids : ∀ i, i < s.process_count → (s.deref (Ptr.slot i)).pid = i + 1
  next_pid : s.next_pid = s.process_count + 1
  idle_pid : Ptr.idle ∈ l → s.idle_process.pid = 0
  size : l.length = s.process_count + (if Ptr.idle ∈ l then 1 else 0)

/-- A full table: sixteen user processes named `p`, linked in creation order. -/
def full_table : Kernel :=
  { idle_process := Process.zero,
    processes := (List.range 16).map (fun i =>
      demo_pcb (i + 1) "p" ProcessState.PROCESS_READY
        (if i < 15 then some (Ptr.slot (i + 1)) else none)),
    process_count := 16, process_list := some (Ptr.slot 0), current_process := none,
    next_pid := 17 }

/-- An execution context: instruction pointer, stack pointer, frame pointer and
address-space handle, either live in the processor or saved in a control block. -/
structure Context where
  eip : Nat
  esp : Nat
  ebp : Nat
  page_dir : Nat
  deriving DecidableEq, Repr

/-- The context saved in a control block. -/
def Process.context (p : Process) : Context :=
  { eip := p.eip, esp := p.esp, ebp := p.ebp, page_dir := p.page_dir }

/-- The C `schedule` seen together with the processor context of its caller.  The
function has no statement that reads a register into a control block or loads one from
it (its inline assembly is `hlt` and `pause` only), so the caller gets its context back
as it was. -/
def schedule_cpu (fuel : Nat) (cpu : Context) (s : Kernel) : Option (Kernel × Context) :=
  match schedule fuel s with
  | none => none
  | some s1 => some (s1, cpu)

/-- A live context of the idle thread: inside `idle_thread`, on a stack of its own. -/
def demo_cpu : Context :=
  { eip := 0x101004, esp := 0x9fff0, ebp := 0x9fff8, page_dir := 0x200000 }

/-! ### Authentication messages, the gate and the authentication service -/

/-- The enumerator `AUTH_VERIFY` of `enum AuthMsgType`. -/
def AUTH_VERIFY : Int := 1

/-- The enumerator `AUTH_SUCCESS` of `enum AuthMsgType`. -/
def AUTH_SUCCESS : Int := 2

/-- The enumerator `AUTH_FAILURE` of `enum AuthMsgType`. -/
def AUTH_FAILURE : Int := 3

/-- The macro `AUTH_CHANNEL` of `sal.h`. -/
def AUTH_CHANNEL : Int := 1

/-- The macro `SAL_MAX_MESSAGE_SIZE` of `sal.h`. -/
def SAL_MAX_MESSAGE_SIZE : Nat := 4096

/-- The C `struct AuthMsg` (packed): two `int`, one `uint32_t` and 32 token bytes. -/
structure AuthMsg where
  type : Int
  user_id : Int
  timestamp : Nat
  security_token : List Nat
  deriving DecidableEq, Repr

/-- The value of `sizeof(struct AuthMsg)`: the struct is packed and `int` has 4 bytes. -/
def sizeof_AuthMsg : Nat := 4 + 4 + 4 + 32

/-- The loop `for (int i = 0; i < 32; i++) msg.security_token[i] = 0;` of
`wait_for_auth`; the first argument counts the iterations that remain. -/
def token_clear : Nat → Nat → List Nat → List Nat
  | 0, _, tok => tok
  | k + 1, i, tok => token_clear k (i + 1) (tok.set i 0)

/-- The `while (1)` loop of `wait_for_auth` on its function-static `counter`; `fuel`
bounds the number of executions of the loop body, `t1` is the value of `timer_ticks`
read when the loop is left.  The result is the local `msg` and `counter` at the
`break`. -/
def wait_for_auth_loop (t1 : Nat) : Nat → AuthMsg → Int → Option (AuthMsg × Int)
  | 0, _, _ => none
  | fuel + 1, msg, counter =>
    let counter1 := counter + 1
    if counter1 > 1000000 then
      some ({ msg with type := AUTH_SUCCESS, timestamp := t1 }, counter1)
    else wait_for_auth_loop t1 fuel msg counter1

/-- The C `wait_for_auth`.  `stack` is what the memory of the local `msg` holds on
entry, `t0` the value of `timer_ticks` read on entry, and `channel` the messages
pending on `AUTH_CHANNEL`, which the function never reads: its `sal_recv` call is
commented out.  The result is `msg` as the function leaves it, and `counter`. -/
def wait_for_auth (fuel : Nat) (t0 t1 : Nat) (_channel : List AuthMsg) (stack : AuthMsg)
    (counter : Int) : Option (AuthMsg × Int) :=
  let msg0 := { stack with type := AUTH_VERIFY, user_id := 1, timestamp := t0 }
  let msg1 := { msg0 with security_token := token_clear 32 0 msg0.security_token }
  wait_for_auth_loop t1 fuel msg1 counter

/-- One call of `sal_send` as its caller makes it: destination, message, length. -/
structure SendCall where
  dest : Int
  msg : AuthMsg
  len : Nat
  deriving DecidableEq, Repr

/-- What the first loop of `auth_service_main` has done when it is left: the value of
`counter`, the number of executions of the loop body, and the `sal_send` calls made,
in order. -/
structure ServiceRun where
  counter : Int
  iterations : Nat
  sends : List SendCall
  deriving DecidableEq, Repr

/-- The first `while (1)` loop of `auth_service_main` on its function-static `counter`;
`fuel` bounds the number of executions of the loop body and the third argument counts
those done so far.  `stack` is what the memory of the local `msg` holds when the block
is entered: the block assigns `type`, `user_id` and `timestamp` (`counter` converted to
`uint32_t`) and nothing else. -/
def auth_service_loop (stack : AuthMsg) : Nat → Int → Nat → Option ServiceRun
  | 0, _, _ => none
  | fuel + 1, counter, n =>
    let counter1 := counter + 1
    if counter1 > 500000 then
      let msg := { stack with
        type := AUTH_SUCCESS, user_id := 1, timestamp := (counter1 % 2 ^ 32).toNat }
      some { counter := counter1, iterations := n + 1,
             sends := [{ dest := AUTH_CHANNEL, msg := msg, len := sizeof_AuthMsg }] }
    else auth_service_loop stack fuel counter1 (n + 1)

/-- What can be observed while `kernel_init` runs, in program order: the scheduler
state after each call that may change it, and the message that `wait_for_auth` holds
when it returns. -/
inductive BootEvent where
  | table (s : Kernel)
  | auth_returned (msg : AuthMsg)
  deriving DecidableEq, Repr

/-- The C `kernel_init` up to the kernel main loop, started on the statics `s` and the
`counter` of `wait_for_auth`: `init_scheduler`, `create_idle_thread`, two
`create_user_process`, `wait_for_auth`, `create_user_process("desktop_shell")`
(`init_syscall_handler` changes none of the modelled objects).  The result lists what
happened, in program order. -/
def kernel_init_boot (fuel loop_fuel : Nat) (sym : Symbols) (t0 t1 : Nat)
    (channel : List AuthMsg) (stack : AuthMsg) (s : Kernel) (counter : Int) :
    Option (List BootEvent) :=
  let s0 := init_scheduler s
  match create_idle_thread fuel sym s0 with
  | none => none
  | some s1 =>
    match create_user_process fuel sym s1 "init".toList with
    | none => none
    | some s2 =>
      match create_user_process fuel sym s2 "auth_service".toList with
      | none => none
      | some s3 =>
        match wait_for_auth loop_fuel t0 t1 channel stack counter with
        | none => none
        | some r =>
          match create_user_process fuel sym s3 "desktop_shell".toList with
          | none => none
          | some s4 =>
            some [BootEvent.table s0, BootEvent.table s1, BootEvent.table s2,
              BootEvent.table s3, BootEvent.auth_returned r.1, BootEvent.table s4]

/-- The name of a control block as a C string: the bytes before the first NUL. -/
def Process.cname (p : Process) : List Char := p.name.takeWhile (fun c => c != NUL)

/-- Whether some entry of the process list has the given name. -/
def Kernel.has_named (s : Kernel) (name : String) : Bool :=
  s.entries.any (fun p => decide ((s.deref p).cname = name.toList))

/-- Whether some slot of the `processes` array has the given name, linked in the
list or not. -/
def Kernel.table_has_named (s : Kernel) (name : String) : Bool :=
  s.processes.any (fun p => decide (p.cname = name.toList))

/-- A control block as the creation functions leave it in a zero-initialised slot,
for the symbol addresses `sym`. -/
def pcb_at (sym : Symbols) (pid : Nat) (name : String) (state : ProcessState)
    (next : Option Ptr) : Process :=
  { pid := pid, name := name.toList ++ List.replicate (32 - name.length) NUL, state := state,
    esp := 0, ebp := 0, eip := sym.idle_thread, page_dir := sym.page_directory,
    next := next }

/-- State of `kernel_init` after `create_idle_thread()`. -/
def booted_idle (sym : Symbols) : Kernel :=
  { idle_process := pcb_at sym 0 "idle_thread" ProcessState.PROCESS_READY none,
    processes := List.replicate 16 Process.zero,
    process_count := 0, process_list := some Ptr.idle, current_process := none,
    next_pid := 1 }

/-- State of `kernel_init` after `create_user_process("init")`. -/
def booted_init (sym : Symbols) : Kernel :=
  { idle_process := pcb_at sym 0 "idle_thread" ProcessState.PROCESS_READY (some (Ptr.slot 0)),
    processes := pcb_at sym 1 "init" ProcessState.PROCESS_READY none
      :: List.replicate 15 Process.zero,
    process_count := 1, process_list := some Ptr.idle, current_process := none,
    next_pid := 2 }

/-- State of `kernel_init` after `create_user_process("auth_service")`. -/
def booted_auth (sym : Symbols) : Kernel :=
  { idle_process := pcb_at sym 0 "idle_thread" ProcessState.PROCESS_READY (some (Ptr.slot 0)),
    processes := pcb_at sym 1 "init" ProcessState.PROCESS_READY (some (Ptr.slot 1))
      :: pcb_at sym 2 "auth_service" ProcessState.PROCESS_READY none
      :: List.replicate 14 Process.zero,
    process_count := 2, process_list := some Ptr.idle, current_process := none,
    next_pid := 3 }

/-- State of `kernel_init` after `create_user_process("desktop_shell")`, when it enters
the kernel main loop. -/
def booted_desktop (sym : Symbols) : Kernel :=
  { idle_process := pcb_at sym 0 "idle_thread" ProcessState.PROCESS_READY (some (Ptr.slot 0)),
    processes := pcb_at sym 1 "init" ProcessState.PROCESS_READY (some (Ptr.slot 1))
      :: pcb_at sym 2 "auth_service" ProcessState.PROCESS_READY (some (Ptr.slot 2))
      :: pcb_at sym 3 "desktop_shell" ProcessState.PROCESS_READY none
      :: List.replicate 13 Process.zero,
    process_count := 3, process_list := some Ptr.idle, current_process := none,
    next_pid := 4 }

/-- The authentication channel delivering three Failure messages and no Success. -/
def three_failures : List AuthMsg :=
  List.replicate 3
    { type := AUTH_FAILURE, user_id := 1, timestamp := 0,
      security_token := List.replicate 32 0 }

/-- Stack memory that holds stale bytes where a local `struct AuthMsg` is placed. -/
def stale_stack : AuthMsg :=
  { type := 0x55555555, user_id := 0x55555555, timestamp := 0xAAAAAAAA,
    security_token := List.replicate 32 0xAA }

/-! ### The kernel side of the message bus (`sal.c`) -/

/-- The C `sys_sal_send`: the body discards its three arguments and returns 0
("for now, just return success"); the file has no queue object. -/
def sys_sal_send (_dest_pid : Int) (_buf : List Nat) (_size : Nat) : Int := 0

/-- The C `sys_sal_recv`: the body discards its three arguments and returns 0; `buf`
is not written.  The result is the return value and the contents of `buf` after the
call. -/
def sys_sal_recv (_src_pid : Int) (buf : List Nat) (_maxlen : Nat) : Int × List Nat :=
  (0, buf)

/-- One call of a subscriber callback: the callback address, the data and the length
handed to it. -/
structure Delivery where
  callback : Nat
  data : List Nat
  len : Nat
  deriving DecidableEq, Repr

/-- The C `sys_sal_subscribe`: the body discards its two arguments and returns 0; the
file has no subscription table. -/
def sys_sal_subscribe (_topic : List Char) (_callback : Nat) : Int := 0

/-- The C `sys_sal_publish`: the body discards its three arguments and returns 0.  The
result is the return value and the callback calls made, in order: none. -/
def sys_sal_publish (_topic : List Char) (_data : List Nat) (_len : Nat) :
    Int × List Delivery :=
  (0, [])


/-! ### The bump allocator (`kmalloc`) -/

/-- The initial value of the static `kernel_heap_ptr`. -/
def kernel_heap_ptr_init : Nat := 0x100000

/-- The C statement `size = (size + 3) & ~3;` on the 32-bit `size_t`: the sum wraps at
`2 ^ 32` and `~3` is the mask `0xFFFFFFFC`. -/
def kmalloc_align (size : Nat) : Nat := ((size + 3) % 2 ^ 32) &&& 0xFFFFFFFC

/-- The C `kmalloc`, as a function of the value of `kernel_heap_ptr` before the call:
the pointer returned (0 for `NULL`) and the value of `kernel_heap_ptr` after the
call.  `kernel_heap_ptr += size` wraps at `2 ^ 32`. -/
def kmalloc (kernel_heap_ptr : Nat) (size : Nat) : Nat × Nat :=
  if size = 0 then (0, kernel_heap_ptr)
  else (kernel_heap_ptr, (kernel_heap_ptr + kmalloc_align size) % 2 ^ 32)

/-- Successive `kmalloc` calls with the given sizes: the pointers returned, in order,
and the final value of `kernel_heap_ptr`. -/
def kmalloc_run : Nat → List Nat → List Nat × Nat
  | heap, [] => ([], heap)
  | heap, size :: sizes =>
    let r := kmalloc heap size
    let rest := kmalloc_run r.2 sizes
    (r.1 :: rest.1, rest.2)


/-! ### The conversion helpers of the test harnesses (`safe_test.c`, `interactive_test.c`) -/

/-- The value an `int` holds after a computation whose mathematical result is `x`:
32-bit two's complement wrap-around. -/
def wrap32 (x : Int) : Int := (x + 2 ^ 31) % 2 ^ 32 - 2 ^ 31

/-- The loop "Convert digits" of `safe_str_to_int`, on the characters from `str[i]`
on (the string reads as NUL at its end): `some result` when the loop is left at a
NUL, newline or carriage return, `none` when it executes `return 0` at a character
that is not a digit. -/
def safe_str_to_int_digits : List Char → Int → Option Int
  | [], result => some result
  | c :: cs, result =>
    if c = NUL ∨ c = '\n' ∨ c = '\r' then some result
    else if '0' ≤ c ∧ c ≤ '9' then
      safe_str_to_int_digits cs (wrap32 (wrap32 (result * 10) + ((c.toNat : Int) - 48)))
    else none

/-- The C `safe_str_to_int`. -/
def safe_str_to_int (str : List Char) : Int :=
  let sign : Int := if str.getD 0 NUL = '-' then -1 else 1
  let i : Nat := if str.getD 0 NUL = '-' then 1 else if str.getD 0 NUL = '+' then 1 else 0
  match safe_str_to_int_digits (str.drop i) 0 with
  | none => 0
  | some result => wrap32 (result * sign)

/-- The C expression `-x` on an `int`: the negated value when it is representable,
`none` when it is not (`x` the smallest `int`).  Signed overflow is undefined in C and
what a build does there is not fixed by the source, so the model gives no result. -/
def int_neg (x : Int) : Option Int := if -x < 2 ^ 31 then some (-x) else none

/-- The loop "Convert digits (reverse order)" of `safe_int_to_str`:
`while (num > 0) { str[i++] = '0' + (num % 10); num /= 10; }`, returning the final
`i` and the buffer; `fuel` bounds the executions of the loop body. -/
def safe_int_to_str_digits : Nat → Int → Nat → List Char → Option (Nat × List Char)
  | 0, num, i, str => if num > 0 then none else some (i, str)
  | fuel + 1, num, i, str =>
    if num > 0 then
      safe_int_to_str_digits fuel (num / 10) (i + 1)
        (str.set i (Char.ofNat (48 + (num % 10).toNat)))
    else some (i, str)

/-- The loop "Reverse the string" of `safe_int_to_str`:
`while (start < end) { swap str[start], str[end]; start++; end--; }`, with `last` for
the C variable `end`. -/
def safe_int_to_str_reverse : Nat → Nat → Int → List Char → Option (List Char)
  | 0, start, last, str => if (start : Int) < last then none else some str
  | fuel + 1, start, last, str =>
    if (start : Int) < last then
      let temp := str.getD start NUL
      let str1 := str.set start (str.getD last.toNat NUL)
      let str2 := str1.set last.toNat temp
      safe_int_to_str_reverse fuel (start + 1) (last - 1) str2
    else some str

/-- The part of `safe_int_to_str` behind the block "Handle negative numbers", from
"Handle zero case" to the end, as a function of the values `is_negative` and `num`
hold there. -/
def safe_int_to_str_rest (fuel : Nat) (is_negative : Bool) (num : Int) (str : List Char) :
    Option (List Char) :=
  if num = 0 then some ((str.set 0 '0').set 1 NUL)
  else
    match safe_int_to_str_digits fuel num 0 str with
    | none => none
    | some (i, str1) =>
      let i1 := if is_negative then i + 1 else i
      let str2 := if is_negative then str1.set i '-' else str1
      let str3 := str2.set i1 NUL
      safe_int_to_str_reverse fuel 0 ((i1 : Int) - 1) str3

/-- The C `safe_int_to_str`: the buffer `str` after the call, as a function of the
buffer before it; `fuel` bounds the executions of each loop body.  The result is
`none` also where C leaves the behaviour undefined: `num = -num` for the smallest
`int` (see `int_neg`). -/
def safe_int_to_str (fuel : Nat) (num : Int) (str : List Char) : Option (List Char) :=
  let is_negative := decide (num < 0)
  match (if num < 0 then int_neg num else some num) with
  | none => none
  | some num1 => safe_int_to_str_rest fuel is_negative num1 str

/-- The loop "Convert digits" of `str_to_int` (`interactive_test.c`). -/
def str_to_int_digits : List Char → Int → Option Int
  | [], result => some result
  | c :: cs, result =>
    if c = NUL ∨ c = '\n' ∨ c = '\r' then some result
    else if '0' ≤ c ∧ c ≤ '9' then
      str_to_int_digits cs (wrap32 (wrap32 (result * 10) + ((c.toNat : Int) - 48)))
    else none

/-- The C `str_to_int` (`interactive_test.c`). -/
def str_to_int (str : List Char) : Int :=
  let sign : Int := if str.getD 0 NUL = '-' then -1 else 1
  let i : Nat := if str.getD 0 NUL = '-' then 1 else if str.getD 0 NUL = '+' then 1 else 0
  match str_to_int_digits (str.drop i) 0 with
  | none => 0
  | some result => wrap32 (result * sign)

/-- The loop "Convert digits (reverse order)" of `int_to_str`. -/
def int_to_str_digits : Nat → Int → Nat → List Char → Option (Nat × List Char)
  | 0, num, i, str => if num > 0 then none else some (i, str)
  | fuel + 1, num, i, str =>
    if num > 0 then
      int_to_str_digits fuel (num / 10) (i + 1)
        (str.set i (Char.ofNat (48 + (num % 10).toNat)))
    else some (i, str)

/-- The loop "Reverse the string" of `int_to_str`. -/
def int_to_str_reverse : Nat → Nat → Int → List Char → Option (List Char)
  | 0, start, last, str => if (start : Int) < last then none else some str
  | fuel + 1, start, last, str =>
    if (start : Int) < last then
      let temp := str.getD start NUL
      let str1 := str.set start (str.getD last.toNat NUL)
      let str2 := str1.set last.toNat temp
      int_to_str_reverse fuel (start + 1) (last - 1) str2
    else some str

/-- The part of `int_to_str` behind the block "Handle negative numbers". -/
def int_to_str_rest (fuel : Nat) (is_negative : Bool) (num : Int) (str : List Char) :
    Option (List Char) :=
  if num = 0 then some ((str.set 0 '0').set 1 NUL)
  else
    match int_to_str_digits fuel num 0 str with
    | none => none
    | some (i, str1) =>
      let i1 := if is_negative then i + 1 else i
      let str2 := if is_negative then str1.set i '-' else str1
      let str3 := str2.set i1 NUL
      int_to_str_reverse fuel 0 ((i1 : Int) - 1) str3

/-- The C `int_to_str` (`interactive_test.c`); `none` also where `num = -num` is
undefined, as in `safe_int_to_str`. -/
def int_to_str (fuel : Nat) (num : Int) (str : List Char) : Option (List Char) :=
  let is_negative := decide (num < 0)
  match (if num < 0 then int_neg num else some num) with
  | none => none
  | some num1 => int_to_str_rest fuel is_negative num1 str

/-- The string a buffer holds: the characters before the first NUL. -/
def cstring (buf : List Char) : List Char := buf.takeWhile (fun c => c != NUL)

/-- The value of a sequence of decimal digits. -/
def decimal_value (ds : List Char) : Nat :=
  ds.foldl (fun v d => v * 10 + (d.toNat - 48)) 0

/-- The 16-byte buffers of `test_simple_input_output`, zero-filled. -/
def buffer16 : List Char := List.replicate 16 NUL


/-! ### Paging (`enable_paging`) -/

def PAGE_SIZE : Nat := 4096
def PAGE_TABLE_ENTRIES : Nat := 1024
def PAGE_DIRECTORY_ENTRIES : Nat := 1024

/-- The addresses of the three static arrays of `enable_paging`. -/
structure PagingSymbols where
  page_directory : Nat
  first_page_table : Nat
  second_page_table : Nat
  deriving DecidableEq, Repr

/-- The objects `enable_paging` writes: the three arrays and the control registers
`cr3` and `cr0`. -/
structure Paging where
  page_directory : List Nat
  first_page_table : List Nat
  second_page_table : List Nat
  cr3 : Nat
  cr0 : Nat
  deriving DecidableEq, Repr

/-- A loop `for (int i = 0; i < n; i++) table[i] = f(i);`. -/
def fill_table (n : Nat) (f : Nat → Nat) (table : List Nat) : List Nat :=
  (List.range n).foldl (fun t i => t.set i (f i)) table

/-- The C `enable_paging`; entries are 32-bit, so each stored value is taken modulo
`2 ^ 32`. -/
def enable_paging (sym : PagingSymbols) (p : Paging) : Paging :=
  let pd1 := fill_table PAGE_DIRECTORY_ENTRIES (fun _ => 0x00000002) p.page_directory
  let pt1 := fill_table PAGE_TABLE_ENTRIES
    (fun i => ((i * PAGE_SIZE) % 2 ^ 32) ||| 3) p.first_page_table
  let pd2 := pd1.set 0 (sym.first_page_table ||| 3)
  let pt2 := fill_table PAGE_TABLE_ENTRIES
    (fun i => (((PAGE_TABLE_ENTRIES + i) * PAGE_SIZE) % 2 ^ 32) ||| 3) p.second_page_table
  let pd3 := pd2.set 1 (sym.second_page_table ||| 3)
  { page_directory := pd3, first_page_table := pt1, second_page_table := pt2,
    cr3 := sym.page_directory, cr0 := p.cr0 ||| 0x80000000 }

/-- The page table a directory entry points to: the array whose address is the
entry's bits 12 to 31. -/
def table_at (sym : PagingSymbols) (p : Paging) (entry : Nat) : Option (List Nat) :=
  if entry &&& 0xFFFFF000 = sym.first_page_table then some p.first_page_table
  else if entry &&& 0xFFFFF000 = sym.second_page_table then some p.second_page_table
  else none

/-- Two-level translation of an address through `page_directory`: directory entry
`a / 4 MB`, table entry `(a / 4096) mod 1024`, offset `a mod 4096`; `none` when an
entry on the way is not present (bit 0 clear) or points to no table. -/
def translate (sym : PagingSymbols) (p : Paging) (a : Nat) : Option Nat :=
  let pde := p.page_directory.getD (a / 0x400000) 0
  if pde &&& 1 = 0 then none
  else
    match table_at sym p pde with
    | none => none
    | some table =>
      let pte := table.getD ((a / 4096) % 1024) 0
      if pte &&& 1 = 0 then none
      else some ((pte &&& 0xFFFFF000) + a % 4096)

/-- Addresses used in the worked example of paging. -/
def demo_paging_sym : PagingSymbols :=
  { page_directory := 0x200000, first_page_table := 0x201000, second_page_table := 0x202000 }

/-- The paging objects at boot: zero-initialised static arrays, registers clear. -/
def Paging.boot : Paging :=
  { page_directory := List.replicate 1024 0, first_page_table := List.replicate 1024 0,
    second_page_table := List.replicate 1024 0, cr3 := 0, cr0 := 0 }


/-! ### The system call handler (`syscall_handler`) -/

def SYS_EXIT : Nat := 1
def SYS_READ : Nat := 3
def SYS_WRITE : Nat := 4
def SYS_GETPID : Nat := 20

/-- The stack memory at and behind the local array `char num[10]` of
`syscall_handler`, `bytes[0]` being `num[0]`, together with the indices of `num` the
handler has assigned to, in program order. -/
structure NumBuffer where
  bytes : List Char
  written : List Nat
  deriving DecidableEq, Repr

/-- The assignment `num[i] = c`. -/
def NumBuffer.put (b : NumBuffer) (i : Nat) (c : Char) : NumBuffer :=
  { bytes := b.bytes.set i c, written := b.written ++ [i] }

/-- The loop `while (n > 0) { num[i++] = '0' + (n % 10); n /= 10; }` of the default
case, returning the final `i` and the buffer; `fuel` bounds the executions of the
loop body. -/
def syscall_digits : Nat → Nat → Nat → NumBuffer → Option (Nat × NumBuffer)
  | 0, n, i, num => if n > 0 then none else some (i, num)
  | fuel + 1, n, i, num =>
    if n > 0 then
      syscall_digits fuel (n / 10) (i + 1) (num.put i (Char.ofNat (48 + n % 10)))
    else some (i, num)

/-- The loop "Reverse the string" of the default case:
`for (int j = 0; j < i/2; j++) { swap num[j], num[i-1-j]; }`. -/
def syscall_reverse (i : Nat) (num : NumBuffer) : NumBuffer :=
  (List.range (i / 2)).foldl
    (fun b j =>
      let temp := b.bytes.getD j NUL
      (b.put j (b.bytes.getD (i - 1 - j) NUL)).put (i - 1 - j) temp)
    num

/-- The C `syscall_handler`: the value returned and the buffer `num` after the call.
`stack` is the memory where `num` is placed, as it was before the call; the cases
other than the default do not touch it.  `return -1` is converted to `uint32_t`. -/
def syscall_handler (fuel : Nat) (syscall_num _arg1 _arg2 arg3 : Nat) (stack : List Char) :
    Option (Nat × NumBuffer) :=
  let num0 : NumBuffer := { bytes := stack, written := [] }
  if syscall_num = SYS_EXIT then some (0, num0)
  else if syscall_num = SYS_READ then some (0, num0)
  else if syscall_num = SYS_WRITE then some (arg3, num0)
  else if syscall_num = SYS_GETPID then some (1, num0)
  else
    let filled :=
      if syscall_num = 0 then some (1, num0.put 0 '0')
      else syscall_digits fuel syscall_num 0 num0
    match filled with
    | none => none
    | some (i, num1) =>
      let num2 := syscall_reverse i num1
      let num3 := num2.put i NUL
      some (((-1 : Int) % 2 ^ 32).toNat, num3)

end AeroOS

namespace AeroOS

/-! ## Reading and writing control blocks -/

@[simp] theorem store_process_list (s : Kernel) (p : Ptr) (v : Process) :
    (s.store p v).process_list = s.process_list := by
  cases p <;> rfl

@[simp] theorem store_current_process (s : Kernel) (p : Ptr) (v : Process) :
    (s.store p v).current_process = s.current_process := by
  cases p <;> rfl

@[simp] theorem store_next_pid (s : Kernel) (p : Ptr) (v : Process) :
    (s.store p v).next_pid = s.next_pid := by
  cases p <;> rfl

@[simp] theorem store_process_count (s : Kernel) (p : Ptr) (v : Process) :
    (s.store p v).process_count = s.process_count := by
  cases p <;> rfl

@[simp] theorem store_processes_length (s : Kernel) (p : Ptr) (v : Process) :
    (s.store p v).processes.length = s.processes.length := by
  cases p <;> simp [Kernel.store]

theorem deref_store_ne (s : Kernel) (p q : Ptr) (v : Process) (h : q ≠ p) :
    (s.store p v).deref q = s.deref q := by
  cases p <;> cases q <;> simp_all [Kernel.store, Kernel.deref]
  rename_i i j
  rw [List.getElem?_set_ne (Ne.symm h)]

theorem deref_store_same (s : Kernel) (p : Ptr) (v : Process)
    (h : ∀ i, p = Ptr.slot i → i < s.processes.length) :
    (s.store p v).deref p = v := by
  cases p with
  | idle => rfl
  | slot i =>
    have hi := h i rfl
    simp [Kernel.store, Kernel.deref, List.getD_eq_getElem?_getD, hi]

/-! ## List segments -/

theorem lseg_append (s : Kernel) (a b : List Ptr) (p q : Option Ptr) :
    lseg s p (a ++ b) q ↔ ∃ m, lseg s p a m ∧ lseg s m b q := by
  induction a generalizing p with
  | nil => simp [lseg]
  | cons x xs ih =>
    rw [List.cons_append]
    simp only [lseg]
    rw [ih]
    constructor
    · rintro ⟨h1, m, h2, h3⟩
      exact ⟨m, ⟨h1, h2⟩, h3⟩
    · rintro ⟨m, ⟨h1, h2⟩, h3⟩
      exact ⟨h1, m, h2, h3⟩

theorem lseg_unique (s : Kernel) (l1 l2 : List Ptr) (p : Option Ptr)
    (h1 : lseg s p l1 none) (h2 : lseg s p l2 none) : l1 = l2 := by
  induction l1 generalizing p l2 with
  | nil =>
    cases l2 with
    | nil => rfl
    | cons y ys =>
      simp only [lseg] at h1 h2
      rw [h1] at h2
      exact absurd h2.1 (by simp)
  | cons x xs ih =>
    cases l2 with
    | nil =>
      simp only [lseg] at h1 h2
      rw [h2] at h1
      exact absurd h1.1 (by simp)
    | cons y ys =>
      simp only [lseg] at h1 h2
      have hxy : x = y := by
        have := h1.1.symm.trans h2.1
        simpa using this
      subst hxy
      rw [ih ys _ h1.2 h2.2]

theorem lseg_nodup (s : Kernel) (l : List Ptr) (p : Option Ptr)
    (h : lseg s p l none) : l.Nodup := by
  induction l generalizing p with
  | nil => exact List.nodup_nil
  | cons x xs ih =>
    simp only [lseg] at h
    refine List.nodup_cons.mpr ⟨?_, ih _ h.2⟩
    intro hx
    obtain ⟨a, b, hab⟩ := List.append_of_mem hx
    have h2 := h.2
    rw [hab, lseg_append] at h2
    obtain ⟨m, _, hm⟩ := h2
    simp only [lseg] at hm
    have := lseg_unique s _ _ _ hm.2 h.2
    have hlen := congrArg List.length this
    rw [hab] at hlen
    simp at hlen
    omega

theorem IsList.nodup {s : Kernel} {l : List Ptr} (h : IsList s l) : l.Nodup :=
  lseg_nodup s l _ h

theorem lseg_congr (s t : Kernel) (l : List Ptr) (p q : Option Ptr)
    (h : ∀ x ∈ l, (t.deref x).next = (s.deref x).next) :
    lseg t p l q ↔ lseg s p l q := by
  induction l generalizing p with
  | nil => simp [lseg]
  | cons x xs ih =>
    simp only [lseg]
    rw [h x (List.mem_cons_self _ _), ih _ (fun y hy => h y (List.mem_cons_of_mem _ hy))]


/-! ## The scan of `schedule` along the cyclic order -/

theorem cseg_append (s : Kernel) (a b : List Ptr) (p q : Option Ptr) :
    cseg s p (a ++ b) q ↔ ∃ m, cseg s p a m ∧ cseg s m b q := by
  induction a generalizing p with
  | nil => simp [cseg]
  | cons x xs ih =>
    rw [List.cons_append]
    simp only [cseg]
    rw [ih]
    constructor
    · rintro ⟨h1, m, h2, h3⟩
      exact ⟨m, ⟨h1, h2⟩, h3⟩
    · rintro ⟨m, ⟨h1, h2⟩, h3⟩
      exact ⟨h1, m, h2, h3⟩

theorem lseg_some_start (s : Kernel) (l : List Ptr) (p : Option Ptr) (q : Ptr)
    (h : lseg s p l (some q)) : ∃ z, p = some z := by
  cases l with
  | nil => exact ⟨q, h⟩
  | cons x xs => exact ⟨x, h.1⟩

theorem lseg_to_cseg_some (s : Kernel) (l : List Ptr) (p : Option Ptr) (q : Ptr)
    (h : lseg s p l (some q)) : cseg s p l (some q) := by
  induction l generalizing p with
  | nil => exact h
  | cons x xs ih =>
    simp only [lseg] at h
    obtain ⟨z, hz⟩ := lseg_some_start s xs _ q h.2
    have hs : succ s x = (s.deref x).next := by simp [succ, hz]
    refine ⟨h.1, ?_⟩
    rw [hs]
    exact ih _ h.2

theorem lseg_to_cseg_none (s : Kernel) (xs : List Ptr) (x : Ptr)
    (h : lseg s (some x) (x :: xs) none) :
    cseg s (some x) (x :: xs) s.process_list := by
  induction xs generalizing x with
  | nil =>
    have hn : (s.deref x).next = none := h.2
    exact ⟨rfl, by simp [succ, hn, cseg]⟩
  | cons y ys ih =>
    have hy : (s.deref x).next = some y := h.2.1
    have hs : succ s x = some y := by simp [succ, hy]
    refine ⟨rfl, ?_⟩
    rw [hs]
    exact ih y ⟨rfl, h.2.2⟩

theorem schedule_scan_ready (s : Kernel) (start : Option Ptr) (fuel : Nat) (p : Ptr)
    (h : (s.deref p).state = ProcessState.PROCESS_READY) :
    schedule_scan s start fuel (some p) = some (some p) := by
  cases fuel <;> simp [schedule_scan, h]

theorem schedule_scan_step (s : Kernel) (start : Option Ptr) (fuel : Nat) (p : Ptr)
    (h : (s.deref p).state ≠ ProcessState.PROCESS_READY) :
    schedule_scan s start (fuel + 1) (some p) =
      if succ s p = start then some (succ s p)
      else schedule_scan s start fuel (succ s p) := by
  simp [schedule_scan, h]

theorem schedule_scan_cseg (s : Kernel) (start : Option Ptr) :
    ∀ (rest : List Ptr) (p : Ptr) (fuel : Nat),
      cseg s (some p) (p :: rest) start → (∀ x ∈ rest, some x ≠ start) →
      rest.length < fuel →
      schedule_scan s start fuel (some p) =
        some (match (p :: rest).find? s.ready with
              | some r => some r
              | none => start) := by
  intro rest
  induction rest with
  | nil =>
    intro p fuel hc _ hf
    by_cases hr : (s.deref p).state = ProcessState.PROCESS_READY
    · rw [schedule_scan_ready s start fuel p hr]
      simp [Kernel.ready, hr]
    · obtain ⟨f, rfl⟩ : ∃ f, fuel = f + 1 := ⟨fuel - 1, by omega⟩
      have hs : succ s p = start := hc.2
      rw [schedule_scan_step s start f p hr]
      simp [Kernel.ready, hr, hs]
  | cons y ys ih =>
    intro p fuel hc hne hf
    by_cases hr : (s.deref p).state = ProcessState.PROCESS_READY
    · rw [schedule_scan_ready s start fuel p hr]
      simp [Kernel.ready, hr]
    · obtain ⟨f, rfl⟩ : ∃ f, fuel = f + 1 := ⟨fuel - 1, by omega⟩
      have hs : succ s p = some y := hc.2.1
      have hy : some y ≠ start := hne y (List.mem_cons_self _ _)
      have hrec := ih y f ⟨rfl, hc.2.2⟩
        (fun x hx => hne x (List.mem_cons_of_mem _ hx))
        (by simp at hf; omega)
      rw [schedule_scan_step s start f p hr, hs, if_neg hy, hrec]
      have hrp : s.ready p = false := by simp [Kernel.ready, hr]
      rw [List.find?_cons_of_neg (l := y :: ys) (a := p) (p := s.ready) (by simp [hrp])]

theorem takeWhile_ne_split (pre post : List Ptr) (c : Ptr) (h : c ∉ pre) :
    (pre ++ c :: post).takeWhile (fun p => p != c) = pre := by
  induction pre with
  | nil => simp [List.takeWhile]
  | cons x xs ih =>
    have hx : (x != c) = true := by
      simp only [bne_iff_ne]
      exact fun e => h (e ▸ List.mem_cons_self _ _)
    rw [List.cons_append, List.takeWhile_cons, hx]
    simp only [if_true]
    rw [ih (fun hc => h (List.mem_cons_of_mem _ hc))]

theorem dropWhile_ne_split (pre post : List Ptr) (c : Ptr) (h : c ∉ pre) :
    (pre ++ c :: post).dropWhile (fun p => p != c) = c :: post := by
  induction pre with
  | nil => simp [List.dropWhile]
  | cons x xs ih =>
    have hx : (x != c) = true := by
      simp only [bne_iff_ne]
      exact fun e => h (e ▸ List.mem_cons_self _ _)
    rw [List.cons_append, List.dropWhile_cons, hx]
    simp only [if_true]
    rw [ih (fun hc => h (List.mem_cons_of_mem _ hc))]

theorem scan_order_split (pre post : List Ptr) (c : Ptr) (h : c ∉ pre) :
    scan_order (pre ++ c :: post) (some c) = post ++ pre ++ [c] := by
  simp only [scan_order, takeWhile_ne_split pre post c h, dropWhile_ne_split pre post c h,
    List.tail_cons]

/-- The scan order of a well-formed list is a cyclic segment that starts and ends at
the initial value of `next`, and it is a rearrangement of the list. -/
theorem scan_order_cseg (s : Kernel) (l : List Ptr) (hl : IsList s l) (hne : l ≠ [])
    (hcur : ∀ c, s.current_process = some c → c ∈ l) :
    cseg s (schedule_start s) (scan_order l s.current_process) (schedule_start s)
      ∧ (scan_order l s.current_process).Perm l := by
  cases hc : s.current_process with
  | none =>
    cases l with
    | nil => exact absurd rfl hne
    | cons x xs =>
      have hx : s.process_list = some x := hl.1
      have h1 : lseg s (some x) (x :: xs) none := ⟨rfl, hl.2⟩
      have := lseg_to_cseg_none s xs x h1
      simp only [schedule_start, hc, scan_order]
      rw [hx] at this ⊢
      exact ⟨this, List.Perm.refl _⟩
  | some c =>
    obtain ⟨pre, post, hsplit⟩ := List.append_of_mem (hcur c hc)
    have hnd : l.Nodup := hl.nodup
    subst hsplit
    have hcpre : c ∉ pre := by
      intro hmem
      have := List.nodup_append.mp hnd
      exact this.2.2 hmem (List.mem_cons_self _ _)
    rw [scan_order_split pre post c hcpre]
    have hl2 : lseg s s.process_list (pre ++ c :: post) none := hl
    rw [lseg_append] at hl2
    obtain ⟨m, hpre, hpost⟩ := hl2
    have hm : m = some c := hpost.1
    subst hm
    have h1 := lseg_to_cseg_none s post c ⟨rfl, hpost.2⟩
    have h2 := lseg_to_cseg_some s pre _ c hpre
    have hstart : schedule_start s = succ s c := by simp [schedule_start, hc]
    rw [hstart]
    refine ⟨?_, ?_⟩
    · rw [List.append_assoc, cseg_append]
      refine ⟨s.process_list, h1.2, ?_⟩
      rw [cseg_append]
      exact ⟨some c, h2, rfl, rfl⟩
    · rw [List.append_assoc]
      refine List.perm_append_comm.trans ?_
      simp


/-! ## What `schedule` computes on a well-formed list -/

/-- On a finite NULL-terminated list, with the current process in it (or none),
`schedule` returns: it switches to the first Ready entry in scan order, and changes
nothing when there is none or when that entry is already current. -/
theorem schedule_eq (s : Kernel) (l : List Ptr) (fuel : Nat) (hl : IsList s l)
    (hcur : ∀ c, s.current_process = some c → c ∈ l) (hfuel : l.length ≤ fuel) :
    schedule fuel s =
      some (match (scan_order l s.current_process).find? s.ready with
            | none => s
            | some r => if s.current_process = some r then s else switch_to s r) := by
  by_cases hne : l = []
  · subst hne
    have hpl : s.process_list = none := hl
    have hc : s.current_process = none := by
      cases h : s.current_process with
      | none => rfl
      | some c => exact absurd (hcur c h) (List.not_mem_nil _)
    simp [schedule, hpl, hc, scan_order]
  · obtain ⟨hcs, hperm⟩ := scan_order_cseg s l hl hne hcur
    obtain ⟨h, hpl⟩ : ∃ h, s.process_list = some h := by
      cases l with
      | nil => exact absurd rfl hne
      | cons x xs => exact ⟨x, hl.1⟩
    generalize hseg : scan_order l s.current_process = seg at hcs hperm
    cases seg with
    | nil => exact absurd hperm.symm.eq_nil hne
    | cons x0 rest =>
      have hstart : schedule_start s = some x0 := hcs.1
      have hnd : (x0 :: rest).Nodup := hperm.nodup_iff.mpr hl.nodup
      have hlen : rest.length + 1 = l.length := by
        simpa using hperm.length_eq
      rw [hstart] at hcs
      have hscan := schedule_scan_cseg s (some x0) rest x0 fuel hcs
        (fun x hx e => (List.nodup_cons.mp hnd).1 (by
          have : x = x0 := by simpa using e
          exact this ▸ hx))
        (by omega)
      simp only [schedule, hpl, hstart, hscan]
      cases hf : (x0 :: rest).find? s.ready with
      | none =>
        have hx0 : s.ready x0 = false := by
          have := List.find?_eq_none.mp hf x0 (List.mem_cons_self _ _)
          simpa using this
        have hx0s : (s.deref x0).state ≠ ProcessState.PROCESS_READY := by
          simpa [Kernel.ready] using hx0
        simp [hx0s]
      | some r =>
        have hr : s.ready r = true := List.find?_some hf
        have hrs : (s.deref r).state = ProcessState.PROCESS_READY := by
          simpa [Kernel.ready] using hr
        by_cases hcr : s.current_process = some r <;> simp [hrs, hcr]


/-! ## The boot sequence, evaluated -/

theorem boot_idle_eq :
    create_idle_thread 17 demo_sym (init_scheduler Kernel.boot) = some boot_idle := by
  decide

theorem boot_init_eq :
    create_user_process 17 demo_sym boot_idle "init".toList = some boot_init := by
  decide

theorem boot_auth_eq :
    create_user_process 17 demo_sym boot_init "auth_service".toList = some boot_auth := by
  decide

theorem boot_desktop_eq :
    create_user_process 17 demo_sym boot_auth "desktop_shell".toList = some boot_desktop := by
  decide

theorem boot_run1_eq : schedule 17 boot_desktop = some boot_run1 := by decide

theorem boot_run2_eq : schedule 17 boot_run1 = some boot_run2 := by decide

theorem boot_calls_eq :
    run 17 demo_sym (init_scheduler Kernel.boot) boot_calls = some boot_desktop := by
  simp only [boot_calls, run, step, boot_idle_eq, boot_init_eq, boot_auth_eq,
    boot_desktop_eq]

theorem boot_loop_eq :
    run 17 demo_sym (init_scheduler Kernel.boot)
      (boot_calls ++ [Call.schedule, Call.schedule]) = some boot_run2 := by
  simp only [boot_calls, List.cons_append, List.nil_append, run, step, boot_idle_eq,
    boot_init_eq, boot_auth_eq, boot_desktop_eq, boot_run1_eq, boot_run2_eq]

/-- C1. On every finite process list with the current process in it (or no current
process), when some entry is Ready, `schedule` returns and makes current the first
Ready entry of the scan order: forward from the successor of the current process
(from the head when there is none), wrapping from the tail to the head, the current
process itself last. -/
theorem schedule_selects_first_ready (s : Kernel) (l : List Ptr) (fuel : Nat)
    (hl : IsList s l) (hcur : ∀ c, s.current_process = some c → c ∈ l)
    (hfuel : l.length ≤ fuel) (hready : ∃ p ∈ l, s.ready p = true) :
    ∃ s1 r, schedule fuel s = some s1
      ∧ (scan_order l s.current_process).find? s.ready = some r
      ∧ s1.current_process = some r := by
  obtain ⟨p, hp, hpr⟩ := hready
  have hne : l ≠ [] := List.ne_nil_of_mem hp
  obtain ⟨_, hperm⟩ := scan_order_cseg s l hl hne hcur
  have hsome : ((scan_order l s.current_process).find? s.ready).isSome = true := by
    rw [List.find?_isSome]
    exact ⟨p, hperm.mem_iff.mpr hp, hpr⟩
  obtain ⟨r, hr⟩ := Option.isSome_iff_exists.mp hsome
  have h := schedule_eq s l fuel hl hcur hfuel
  rw [hr] at h
  refine ⟨_, r, h, hr, ?_⟩
  by_cases hc : s.current_process = some r
  · simp [hc]
  · simp [hc, switch_to]

theorem schedule_selects_first_ready_witness :
    ∃ s1 r, schedule 4 boot_run2 = some s1
      ∧ (scan_order [Ptr.idle, Ptr.slot 0, Ptr.slot 1, Ptr.slot 2]
            boot_run2.current_process).find? boot_run2.ready = some r
      ∧ s1.current_process = some r :=
  schedule_selects_first_ready boot_run2 [Ptr.idle, Ptr.slot 0, Ptr.slot 1, Ptr.slot 2] 4
    (by decide)
    (fun c hc => by
      have h0 : boot_run2.current_process = some (Ptr.slot 0) := rfl
      rw [h0] at hc
      cases hc
      decide)
    (by decide) ⟨Ptr.slot 1, by decide, by decide⟩


/-- C5. `schedule` never selects a process that is not Ready: whenever a call
changes the current process, the new current process had state Ready immediately
before the call (so it was neither Blocked nor Terminated nor Running).  This holds
in every state, well-formed or not. -/
theorem schedule_selects_only_ready (fuel : Nat) (s s1 : Kernel)
    (h : schedule fuel s = some s1) (hchg : s1.current_process ≠ s.current_process) :
    ∃ n, s1.current_process = some n
      ∧ (s.deref n).state = ProcessState.PROCESS_READY
      ∧ (s.deref n).state ≠ ProcessState.PROCESS_BLOCKED
      ∧ (s.deref n).state ≠ ProcessState.PROCESS_TERMINATED := by
  unfold schedule at h
  split at h
  · cases h
    exact absurd rfl hchg
  · simp only at h
    split at h
    · cases h
    · cases h
      exact absurd rfl hchg
    · rename_i n _
      by_cases hr : (s.deref n).state = ProcessState.PROCESS_READY
      · by_cases hc : s.current_process = some n
        · simp [hr, hc] at h
          subst h
          exact absurd rfl hchg
        · simp [hr, hc] at h
          subst h
          refine ⟨n, by simp [switch_to], hr, ?_, ?_⟩ <;> simp [hr]
      · simp [hr] at h
        subst h
        exact absurd rfl hchg

theorem schedule_selects_only_ready_witness :
    ∃ n, boot_run2.current_process = some n
      ∧ (boot_run1.deref n).state = ProcessState.PROCESS_READY
      ∧ (boot_run1.deref n).state ≠ ProcessState.PROCESS_BLOCKED
      ∧ (boot_run1.deref n).state ≠ ProcessState.PROCESS_TERMINATED :=
  schedule_selects_only_ready 17 boot_run1 boot_run2 boot_run2_eq (by decide)

/-- C6. When no entry of the process list is Ready (the empty list included),
`schedule` returns and leaves the whole kernel state as it was: the current-process
reference and every control block are unchanged. -/
theorem schedule_no_ready_unchanged (s : Kernel) (l : List Ptr) (fuel : Nat)
    (hl : IsList s l) (hcur : l ≠ [] → ∀ c, s.current_process = some c → c ∈ l)
    (hfuel : l.length ≤ fuel) (hnone : ∀ p ∈ l, s.ready p = false) :
    schedule fuel s = some s := by
  by_cases hne : l = []
  · subst hne
    have hpl : s.process_list = none := hl
    simp [schedule, hpl]
  · have hcur1 := hcur hne
    obtain ⟨_, hperm⟩ := scan_order_cseg s l hl hne hcur1
    have hfind : (scan_order l s.current_process).find? s.ready = none := by
      rw [List.find?_eq_none]
      intro x hx
      simp [hnone x (hperm.mem_iff.mp hx)]
    rw [schedule_eq s l fuel hl hcur1 hfuel, hfind]


/-! ## The effect of a switch on the control blocks -/

theorem switch_to_process_list (s : Kernel) (n : Ptr) :
    (switch_to s n).process_list = s.process_list := by
  simp [switch_to]

theorem switch_to_current (s : Kernel) (n : Ptr) :
    (switch_to s n).current_process = some n := by
  simp [switch_to]

theorem switch_to_length (s : Kernel) (n : Ptr) :
    (switch_to s n).processes.length = s.processes.length := by
  simp [switch_to]

theorem switch_to_deref_ne (s : Kernel) (n p : Ptr) (h : p ≠ n) :
    (switch_to s n).deref p = s.deref p := by
  unfold switch_to
  rw [deref_store_ne _ _ _ _ h]
  cases p <;> rfl

theorem switch_to_deref_same (s : Kernel) (n : Ptr)
    (h : ∀ i, n = Ptr.slot i → i < s.processes.length) :
    (switch_to s n).deref n = { s.deref n with state := ProcessState.PROCESS_RUNNING } := by
  simp only [switch_to]
  rw [deref_store_same _ _ _ (by simpa using h)]
  cases n <;> rfl

theorem switch_to_next (s : Kernel) (n p : Ptr)
    (h : ∀ i, n = Ptr.slot i → i < s.processes.length) :
    ((switch_to s n).deref p).next = (s.deref p).next := by
  by_cases hp : p = n
  · subst hp
    rw [switch_to_deref_same s p h]
  · rw [switch_to_deref_ne s n p hp]

theorem switch_to_isList (s : Kernel) (n : Ptr) (l : List Ptr)
    (h : ∀ i, n = Ptr.slot i → i < s.processes.length) (hl : IsList s l) :
    IsList (switch_to s n) l := by
  unfold IsList
  rw [switch_to_process_list]
  exact (lseg_congr s (switch_to s n) l _ _ (fun x _ => switch_to_next s n x h)).mpr hl

theorem valid_congr (s s1 : Kernel) (p : Ptr)
    (h : s1.processes.length = s.processes.length) : s1.valid p = s.valid p := by
  cases p with
  | idle => rfl
  | slot i => simp [Kernel.valid, h]

theorem inBounds_congr (s s1 : Kernel) (l : List Ptr)
    (h : s1.processes.length = s.processes.length) (hb : InBounds s l) : InBounds s1 l := by
  intro p hp
  rw [valid_congr s s1 p h]
  exact hb p hp

theorem switch_to_inBounds (s : Kernel) (n : Ptr) (l : List Ptr) (hb : InBounds s l) :
    InBounds (switch_to s n) l :=
  inBounds_congr s _ l (switch_to_length s n) hb

theorem switch_to_ready_ne (s : Kernel) (n p : Ptr) (h : p ≠ n) :
    (switch_to s n).ready p = s.ready p := by
  simp [Kernel.ready, switch_to_deref_ne s n p h]

theorem switch_to_ready_same (s : Kernel) (n : Ptr)
    (h : ∀ i, n = Ptr.slot i → i < s.processes.length) :
    (switch_to s n).ready n = false := by
  simp [Kernel.ready, switch_to_deref_same s n h]

theorem inBounds_valid {s : Kernel} {l : List Ptr} (hb : InBounds s l) {n : Ptr}
    (hn : n ∈ l) : ∀ i, n = Ptr.slot i → i < s.processes.length := by
  intro i hi
  subst hi
  simpa [Kernel.valid] using hb _ hn


/-! ## Consecutive scheduling decisions -/

theorem boot_run3_eq : schedule 17 boot_run2 = some boot_run3 := by decide

theorem boot_run4_eq : schedule 17 boot_run3 = some boot_run4 := by decide

theorem schedule_no_ready_unchanged_witness : schedule 4 boot_run4 = some boot_run4 :=
  schedule_no_ready_unchanged boot_run4 boot_list 4 (by decide)
    (fun _ c hc => by
      have h0 : boot_run4.current_process = some (Ptr.slot 2) := rfl
      rw [h0] at hc
      cases hc
      decide)
    (by decide) (by decide)

/-- First Ready entry in scan order when everything before `x` is not Ready and the
current process is the entry just before `x` (none when `x` is the head). -/
theorem find_ready_after_last (s : Kernel) (pre xs : List Ptr) (x : Ptr)
    (hnd : (pre ++ x :: xs).Nodup) (hx : s.ready x = true) :
    (scan_order (pre ++ x :: xs) pre.getLast?).find? s.ready = some x := by
  rcases List.eq_nil_or_concat pre with hnil | ⟨L, c, hL⟩
  · subst hnil
    simp [scan_order, List.find?, hx]
  · rw [List.concat_eq_append] at hL
    subst hL
    have hc : c ∉ L := by
      intro hmem
      rw [List.append_assoc] at hnd
      have := List.nodup_append.mp hnd
      exact this.2.2 hmem (by simp)
    have hsplit : L ++ [c] ++ x :: xs = L ++ c :: (x :: xs) := by simp
    rw [List.getLast?_concat, hsplit, scan_order_split L (x :: xs) c hc]
    simp [List.find?, hx]

theorem schedule_trace_all_ready (fuel : Nat) :
    ∀ (post pre : List Ptr) (s : Kernel),
      IsList s (pre ++ post) → InBounds s (pre ++ post) →
      (∀ p ∈ post, s.ready p = true) → s.current_process = pre.getLast? →
      (pre ++ post).length ≤ fuel →
      schedule_trace fuel post.length s = some (post.map some) := by
  intro post
  induction post with
  | nil => intro pre s _ _ _ _ _; rfl
  | cons x xs ih =>
    intro pre s hl hb hready hcur hfuel
    have hnd : (pre ++ x :: xs).Nodup := hl.nodup
    have hxr : s.ready x = true := hready x (List.mem_cons_self _ _)
    have hxpre : x ∉ pre := by
      intro hmem
      have := List.nodup_append.mp hnd
      exact this.2.2 hmem (List.mem_cons_self _ _)
    have hcur1 : ∀ c, s.current_process = some c → c ∈ pre ++ x :: xs := by
      intro c hc
      rw [hcur] at hc
      exact List.mem_append_left _ (List.mem_of_mem_getLast? hc)
    have hne : s.current_process ≠ some x := by
      intro hc
      rw [hcur] at hc
      exact hxpre (List.mem_of_mem_getLast? hc)
    have hsched := schedule_eq s (pre ++ x :: xs) fuel hl hcur1 hfuel
    have hfind := find_ready_after_last s pre xs x hnd hxr
    rw [← hcur] at hfind
    rw [hfind] at hsched
    simp only [hne, if_false] at hsched
    have hxv := inBounds_valid hb (n := x) (by simp)
    have hassoc : pre ++ x :: xs = (pre ++ [x]) ++ xs := by simp
    have hrec := ih (pre ++ [x]) (switch_to s x)
      (by rw [← hassoc]; exact switch_to_isList s x _ hxv hl)
      (by rw [← hassoc]; exact switch_to_inBounds s x _ hb)
      (by
        intro p hp
        have hpx : p ≠ x := by
          intro e
          subst e
          exact (List.nodup_cons.mp (List.nodup_append.mp hnd).2.1).1 hp
        rw [switch_to_ready_ne s x p hpx]
        exact hready p (List.mem_cons_of_mem _ hp))
      (by rw [switch_to_current, List.getLast?_concat])
      (by rw [← hassoc]; exact hfuel)
    simp only [List.length_cons, schedule_trace, hsched, hrec, switch_to_current,
      List.map_cons]

/-- C2. Round-robin fairness: on a process list of `n` entries that are all Ready,
with no current process, `n` consecutive calls of `schedule` return, and the process
selected by the `k`-th call is the `k`-th entry of the list; the entries are pairwise
distinct, so each of the `n` processes is selected exactly once and none a second time
before every other has been selected. -/
theorem round_robin_fairness (s : Kernel) (l : List Ptr) (fuel : Nat)
    (hl : IsList s l) (hb : InBounds s l) (hready : ∀ p ∈ l, s.ready p = true)
    (hcur : s.current_process = none) (hfuel : l.length ≤ fuel) :
    schedule_trace fuel l.length s = some (l.map some) ∧ l.Nodup :=
  ⟨schedule_trace_all_ready fuel l [] s hl hb hready hcur hfuel, hl.nodup⟩

theorem round_robin_fairness_witness :
    schedule_trace 4 boot_list.length boot_desktop = some (boot_list.map some)
      ∧ boot_list.Nodup :=
  round_robin_fairness boot_desktop boot_list 4 (by decide) (by decide) (by decide) rfl
    (by decide)


/-- One scheduling decision when `P` is the only process that can run: `P` is current
afterwards, and it is still the only process that can run. -/
theorem schedule_sole_step (s : Kernel) (l : List Ptr) (fuel : Nat) (P : Ptr)
    (hl : IsList s l) (hb : InBounds s l)
    (hcur : ∀ c, s.current_process = some c → c ∈ l) (hfuel : l.length ≤ fuel)
    (hP : P ∈ l) (hsole : SoleRunnable s l P) :
    ∃ s1, schedule fuel s = some s1 ∧ s1.current_process = some P
      ∧ IsList s1 l ∧ InBounds s1 l ∧ (∀ c, s1.current_process = some c → c ∈ l)
      ∧ SoleRunnable s1 l P := by
  have hne : l ≠ [] := List.ne_nil_of_mem hP
  obtain ⟨_, hperm⟩ := scan_order_cseg s l hl hne hcur
  have hsched := schedule_eq s l fuel hl hcur hfuel
  rcases hsole with ⟨hPr, hothers⟩ | ⟨hcP, hnone⟩
  · have hsome : ((scan_order l s.current_process).find? s.ready).isSome = true := by
      rw [List.find?_isSome]
      exact ⟨P, hperm.mem_iff.mpr hP, hPr⟩
    obtain ⟨r, hr⟩ := Option.isSome_iff_exists.mp hsome
    have hrP : r = P := by
      by_contra hne1
      have hmem : r ∈ l := hperm.mem_iff.mp (List.mem_of_find?_eq_some hr)
      have h1 := hothers r hmem hne1
      have h2 : s.ready r = true := List.find?_some hr
      rw [h1] at h2
      exact absurd h2 (by simp)
    subst hrP
    rw [hr] at hsched
    by_cases hc : s.current_process = some r
    · simp only [hc, if_true] at hsched
      exact ⟨s, hsched, hc, hl, hb, hcur, Or.inl ⟨hPr, hothers⟩⟩
    · simp only [hc, if_false] at hsched
      have hv := inBounds_valid hb hP
      refine ⟨switch_to s r, hsched, switch_to_current s r, switch_to_isList s r l hv hl,
        switch_to_inBounds s r l hb, ?_, Or.inr ⟨switch_to_current s r, ?_⟩⟩
      · intro c hc1
        rw [switch_to_current] at hc1
        cases hc1
        exact hP
      · intro q hq
        by_cases hqr : q = r
        · subst hqr
          exact switch_to_ready_same s q hv
        · rw [switch_to_ready_ne s r q hqr]
          exact hothers q hq hqr
  · have hfind : (scan_order l s.current_process).find? s.ready = none := by
      rw [List.find?_eq_none]
      intro x hx
      simp [hnone x (hperm.mem_iff.mp hx)]
    rw [hfind] at hsched
    exact ⟨s, hsched, hcP, hl, hb, hcur, Or.inr ⟨hcP, hnone⟩⟩

/-- C7. Self-reschedule: on a process list in which exactly one process `P` can run
(`P` is the only Ready entry, or `P` is current and nothing is Ready, as for the idle
process alone), every call of `schedule` in a sequence of `k` consecutive calls
returns with `P` as the current process. -/
theorem sole_runnable_reselected (s : Kernel) (l : List Ptr) (fuel : Nat) (P : Ptr)
    (hl : IsList s l) (hb : InBounds s l)
    (hcur : ∀ c, s.current_process = some c → c ∈ l) (hfuel : l.length ≤ fuel)
    (hP : P ∈ l) (hsole : SoleRunnable s l P) (k : Nat) :
    schedule_trace fuel k s = some (List.replicate k (some P)) := by
  induction k generalizing s with
  | zero => rfl
  | succ k ih =>
    obtain ⟨s1, hs, hc1, hl1, hb1, hcur1, hsole1⟩ :=
      schedule_sole_step s l fuel P hl hb hcur hfuel hP hsole
    have := ih s1 hl1 hb1 hcur1 hsole1
    simp only [schedule_trace, hs, this, hc1, List.replicate_succ]

theorem sole_runnable_reselected_witness :
    schedule_trace 1 5 boot_idle = some (List.replicate 5 (some Ptr.idle)) :=
  sole_runnable_reselected boot_idle [Ptr.idle] 1 Ptr.idle (by decide)
    (by decide)
    (fun c hc => by
      have h0 : boot_idle.current_process = none := rfl
      rw [h0] at hc
      cases hc)
    (by decide) (by decide) (Or.inl ⟨by decide, by decide⟩) 5


/-! ## Appending to the process list -/

theorem find_tail_none (s : Kernel) (fuel : Nat) (p : Ptr)
    (h : (s.deref p).next = none) : find_tail s fuel p = some p := by
  unfold find_tail
  simp [h]

theorem find_tail_some (s : Kernel) (fuel : Nat) (p q : Ptr)
    (h : (s.deref p).next = some q) : find_tail s (fuel + 1) p = find_tail s fuel q := by
  rw [find_tail]
  simp [h]

theorem find_tail_lseg (s : Kernel) (t : Ptr) :
    ∀ (pre : List Ptr) (p : Ptr) (fuel : Nat),
      lseg s (some p) (pre ++ [t]) none → pre.length ≤ fuel →
      find_tail s fuel p = some t := by
  intro pre
  induction pre with
  | nil =>
    intro p fuel h _
    have hp : t = p := (Option.some.inj h.1).symm
    subst hp
    exact find_tail_none s fuel t h.2
  | cons y ys ih =>
    intro p fuel h hf
    have hp : p = y := Option.some.inj h.1
    subst hp
    have h2 : lseg s (s.deref p).next (ys ++ [t]) none := h.2
    obtain ⟨z, hz⟩ : ∃ z, (s.deref p).next = some z := by
      cases ys with
      | nil => exact ⟨t, h2.1⟩
      | cons a as => exact ⟨a, h2.1⟩
    obtain ⟨f, rfl⟩ : ∃ f, fuel = f + 1 := ⟨fuel - 1, by simp at hf; omega⟩
    rw [find_tail_some s f p z hz]
    rw [hz] at h2
    exact ih z f h2 (by simp at hf; omega)

/-- On a well-formed list, `add_to_list` returns: it links `proc` behind the last
entry, and the list becomes the old list followed by `proc`. -/
theorem add_to_list_spec (s : Kernel) (l : List Ptr) (proc : Ptr) (fuel : Nat)
    (hl : IsList s l) (hb : InBounds s l) (hnew : proc ∉ l)
    (hnext : (s.deref proc).next = none) (hfuel : l.length ≤ fuel) :
    add_to_list fuel s proc = some (link_tail s l.getLast? proc)
      ∧ IsList (link_tail s l.getLast? proc) (l ++ [proc]) := by
  rcases List.eq_nil_or_concat l with hnil | ⟨pre, t, hL⟩
  · subst hnil
    have hpl : s.process_list = none := hl
    refine ⟨by simp [add_to_list, hpl, link_tail], ?_⟩
    simp only [List.getLast?_nil, link_tail, List.nil_append]
    exact ⟨rfl, hnext⟩
  · rw [List.concat_eq_append] at hL
    subst hL
    have hnd : (pre ++ [t]).Nodup := hl.nodup
    have htpre : t ∉ pre := by
      intro hmem
      exact (List.nodup_append.mp hnd).2.2 hmem (by simp)
    have htv := inBounds_valid hb (n := t) (by simp)
    have hpt : proc ≠ t := by
      intro e
      exact hnew (by simp [e])
    obtain ⟨h, hpl⟩ : ∃ h, s.process_list = some h := by
      cases pre with
      | nil => exact ⟨t, hl.1⟩
      | cons x xs => exact ⟨x, hl.1⟩
    have hl1 : lseg s (some h) (pre ++ [t]) none := by
      have := hl
      unfold IsList at this
      rwa [hpl] at this
    have hft := find_tail_lseg s t pre h fuel hl1 (by simp at hfuel; omega)
    refine ⟨by simp [add_to_list, hpl, hft, link_tail], ?_⟩
    simp only [List.getLast?_concat, link_tail]
    unfold IsList
    rw [store_process_list, lseg_append, hpl]
    rw [lseg_append] at hl1
    obtain ⟨m, hpre, hlast⟩ := hl1
    have hm : m = some t := hlast.1
    subst hm
    refine ⟨some proc, ?_, ?_⟩
    · rw [lseg_append]
      refine ⟨some t, ?_, rfl, ?_⟩
      · refine (lseg_congr s _ pre _ _ ?_).mpr hpre
        intro x hx
        have hxt : x ≠ t := fun e => htpre (e ▸ hx)
        rw [deref_store_ne _ _ _ _ hxt]
      · rw [deref_store_same _ _ _ htv]
        rfl
    · refine ⟨rfl, ?_⟩
      rw [deref_store_ne _ _ _ _ hpt]
      exact hnext

theorem link_tail_payload (s : Kernel) (last : Option Ptr) (proc p : Ptr) :
    ((link_tail s last proc).deref p).payload = (s.deref p).payload := by
  cases last with
  | none => cases p <;> rfl
  | some t =>
    simp only [link_tail]
    by_cases hp : p = t
    · subst hp
      cases p with
      | idle => rfl
      | slot i =>
        simp only [Kernel.store, Kernel.deref, List.getD_eq_getElem?_getD, List.getElem?_set]
        by_cases hi : i < s.processes.length
        · simp [hi, Process.payload]
        · simp [hi, List.getElem?_eq_none (Nat.le_of_not_lt hi)]
    · rw [deref_store_ne _ _ _ _ hp]

theorem link_tail_fields (s : Kernel) (last : Option Ptr) (proc : Ptr) :
    (link_tail s last proc).processes.length = s.processes.length
      ∧ (link_tail s last proc).process_count = s.process_count
      ∧ (link_tail s last proc).next_pid = s.next_pid
      ∧ (link_tail s last proc).current_process = s.current_process := by
  cases last with
  | none => exact ⟨rfl, rfl, rfl, rfl⟩
  | some t => simp [link_tail]


/-! ## Creating a user process -/

theorem prepare_slot_fields (sym : Symbols) (s : Kernel) (name : List Char) :
    (prepare_slot sym s name).process_list = s.process_list
      ∧ (prepare_slot sym s name).current_process = s.current_process
      ∧ (prepare_slot sym s name).process_count = s.process_count + 1
      ∧ (prepare_slot sym s name).next_pid = (s.next_pid + 1) % 2 ^ 32
      ∧ (prepare_slot sym s name).processes.length = s.processes.length := by
  simp [prepare_slot]

theorem prepare_slot_deref_ne (sym : Symbols) (s : Kernel) (name : List Char) (p : Ptr)
    (h : p ≠ Ptr.slot s.process_count) :
    (prepare_slot sym s name).deref p = s.deref p := by
  simp only [prepare_slot]
  rw [deref_store_ne _ _ _ _ h]
  cases p <;> rfl

theorem prepare_slot_deref_same (sym : Symbols) (s : Kernel) (name : List Char)
    (h : s.process_count < s.processes.length) :
    ((prepare_slot sym s name).deref (Ptr.slot s.process_count)).pid = s.next_pid
      ∧ ((prepare_slot sym s name).deref (Ptr.slot s.process_count)).state
          = ProcessState.PROCESS_READY
      ∧ ((prepare_slot sym s name).deref (Ptr.slot s.process_count)).next = none
      ∧ ((prepare_slot sym s name).deref (Ptr.slot s.process_count)).eip = sym.idle_thread
      ∧ ((prepare_slot sym s name).deref (Ptr.slot s.process_count)).page_dir
          = sym.page_directory := by
  simp only [prepare_slot]
  rw [deref_store_same _ _ _ (by intro i hi; cases hi; simpa using h)]
  simp

/-- What `create_user_process` does on a well-formed list with a free slot left. -/
theorem create_user_process_spec (s : Kernel) (l : List Ptr) (fuel : Nat)
    (sym : Symbols) (name : List Char) (hl : IsList s l) (hb : InBounds s l)
    (hcnt : s.process_count < 16) (hlen : s.processes.length = 16)
    (hfree : Ptr.slot s.process_count ∉ l) (hfuel : l.length ≤ fuel) :
    ∃ s1, create_user_process fuel sym s name = some s1
      ∧ IsList s1 (l ++ [Ptr.slot s.process_count])
      ∧ (s1.deref (Ptr.slot s.process_count)).pid = s.next_pid
      ∧ (s1.deref (Ptr.slot s.process_count)).state = ProcessState.PROCESS_READY
      ∧ s1.process_count = s.process_count + 1
      ∧ s1.next_pid = (s.next_pid + 1) % 2 ^ 32
      ∧ s1.current_process = s.current_process
      ∧ s1.processes.length = 16
      ∧ ∀ p, p ≠ Ptr.slot s.process_count → (s1.deref p).payload = (s.deref p).payload := by
  have hnot : ¬ 16 ≤ s.process_count := by omega
  obtain ⟨f1, f2, f3, f4, f5⟩ := prepare_slot_fields sym s name
  have hin : s.process_count < s.processes.length := by omega
  obtain ⟨d1, d2, d3, _, _⟩ := prepare_slot_deref_same sym s name hin
  have hl3 : IsList (prepare_slot sym s name) l := by
    unfold IsList
    rw [f1]
    refine (lseg_congr s _ l _ _ ?_).mpr hl
    intro x hx
    have hxs : x ≠ Ptr.slot s.process_count := fun e => hfree (e ▸ hx)
    rw [prepare_slot_deref_ne sym s name x hxs]
  have hb3 : InBounds (prepare_slot sym s name) l := inBounds_congr s _ l f5 hb
  obtain ⟨a1, a2⟩ := add_to_list_spec (prepare_slot sym s name) l
    (Ptr.slot s.process_count) fuel hl3 hb3 hfree d3 hfuel
  obtain ⟨g1, g2, g3, g4⟩ := link_tail_fields (prepare_slot sym s name) l.getLast?
    (Ptr.slot s.process_count)
  have hpay := link_tail_payload (prepare_slot sym s name) l.getLast?
    (Ptr.slot s.process_count)
  refine ⟨_, by simp only [create_user_process, hnot, if_false]; exact a1, a2, ?_, ?_, ?_,
    ?_, ?_, ?_, ?_⟩
  · have := congrArg Process.pid (hpay (Ptr.slot s.process_count))
    simp only [Process.payload] at this
    rw [this, d1]
  · have := congrArg Process.state (hpay (Ptr.slot s.process_count))
    simp only [Process.payload] at this
    rw [this, d2]
  · rw [g2, f3]
  · rw [g3, f4]
  · rw [g4, f2]
  · rw [g1, f5, hlen]
  · intro p hp
    rw [hpay p, prepare_slot_deref_ne sym s name p hp]

/-- C8. When fewer than 16 user processes have been created, `create_user_process`
returns for every name: it takes the table slot `processes[process_count]`, which is
not yet in the list, gives it the identifier `next_pid` held before the call and state
Ready, and appends it at the tail of the process list, the existing entries keeping
their order and their contents (`next` of the old tail apart); the count and the next
identifier advance by one. -/
theorem create_user_process_appends (s : Kernel) (l : List Ptr) (fuel : Nat)
    (sym : Symbols) (name : List Char) (hl : IsList s l) (hb : InBounds s l)
    (hcnt : s.process_count < 16) (hlen : s.processes.length = 16)
    (hfree : Ptr.slot s.process_count ∉ l) (hfuel : l.length ≤ fuel) :
    ∃ s1, create_user_process fuel sym s name = some s1
      ∧ IsList s1 (l ++ [Ptr.slot s.process_count])
      ∧ (s1.deref (Ptr.slot s.process_count)).pid = s.next_pid
      ∧ (s1.deref (Ptr.slot s.process_count)).state = ProcessState.PROCESS_READY
      ∧ s1.process_count = s.process_count + 1
      ∧ s1.next_pid = (s.next_pid + 1) % 2 ^ 32
      ∧ s1.current_process = s.current_process
      ∧ s1.processes.length = 16
      ∧ ∀ p, p ≠ Ptr.slot s.process_count → (s1.deref p).payload = (s.deref p).payload :=
  create_user_process_spec s l fuel sym name hl hb hcnt hlen hfree hfuel

theorem create_user_process_appends_witness :
    ∃ s1, create_user_process 3 demo_sym boot_auth "desktop_shell".toList = some s1
      ∧ IsList s1 ([Ptr.idle, Ptr.slot 0, Ptr.slot 1] ++ [Ptr.slot boot_auth.process_count])
      ∧ (s1.deref (Ptr.slot boot_auth.process_count)).pid = boot_auth.next_pid
      ∧ (s1.deref (Ptr.slot boot_auth.process_count)).state = ProcessState.PROCESS_READY
      ∧ s1.process_count = boot_auth.process_count + 1
      ∧ s1.next_pid = (boot_auth.next_pid + 1) % 2 ^ 32
      ∧ s1.current_process = boot_auth.current_process
      ∧ s1.processes.length = 16
      ∧ ∀ p, p ≠ Ptr.slot boot_auth.process_count →
          (s1.deref p).payload = (boot_auth.deref p).payload :=
  create_user_process_appends boot_auth [Ptr.idle, Ptr.slot 0, Ptr.slot 1] 3 demo_sym
    "desktop_shell".toList (by decide) (by decide) (by decide) (by decide) (by decide)
    (by decide)


/-! ## The capacity of the table -/

theorem add_to_list_count (fuel : Nat) (s s1 : Kernel) (proc : Ptr)
    (h : add_to_list fuel s proc = some s1) : s1.process_count = s.process_count := by
  unfold add_to_list at h
  split at h
  · cases h
    rfl
  · split at h
    · cases h
    · cases h
      simp

theorem schedule_count (fuel : Nat) (s s1 : Kernel) (h : schedule fuel s = some s1) :
    s1.process_count = s.process_count := by
  unfold schedule at h
  split at h
  · cases h
    rfl
  · simp only at h
    split at h
    · cases h
    · cases h
      rfl
    · split at h
      · cases h
        rfl
      · split at h
        · cases h
          simp [switch_to]
        · cases h
          rfl

theorem step_count_le (fuel : Nat) (sym : Symbols) (s s1 : Kernel) (c : Call)
    (h : step fuel sym s c = some s1) (hs : s.process_count ≤ 16) :
    s1.process_count ≤ 16 := by
  cases c with
  | create_idle_thread =>
    have := add_to_list_count _ _ _ _ h
    rw [this]
    exact hs
  | create_user_process name =>
    simp only [step, create_user_process] at h
    split at h
    · cases h
      exact hs
    · have := add_to_list_count _ _ _ _ h
      rw [this, (prepare_slot_fields sym s name).2.2.1]
      omega
  | schedule =>
    rw [schedule_count fuel s s1 h]
    exact hs

theorem run_count_le (fuel : Nat) (sym : Symbols) (calls : List Call) :
    ∀ (s s1 : Kernel), run fuel sym s calls = some s1 → s.process_count ≤ 16 →
      s1.process_count ≤ 16 := by
  induction calls with
  | nil =>
    intro s s1 h hs
    cases h
    exact hs
  | cons c cs ih =>
    intro s s1 h hs
    simp only [run] at h
    split at h
    · cases h
    · rename_i s2 hstep
      exact ih s2 s1 h (step_count_le fuel sym s s2 c hstep hs)

/-- C9. When 16 user processes already exist, `create_user_process` returns without
changing anything: the whole state (process list, every table slot, `process_count`,
`next_pid`) is the same after the call as before.  Hence in every state reached from
`init_scheduler` by any sequence of calls the number of user-spawned entries,
`process_count`, is at most 16. -/
theorem create_user_process_full (fuel : Nat) (sym : Symbols) :
    (∀ (s : Kernel) (name : List Char), 16 ≤ s.process_count →
        create_user_process fuel sym s name = some s)
      ∧ ∀ (calls : List Call) (s : Kernel),
          run fuel sym (init_scheduler Kernel.boot) calls = some s → s.process_count ≤ 16 := by
  refine ⟨?_, ?_⟩
  · intro s name h
    simp [create_user_process, h]
  · intro calls s h
    exact run_count_le fuel sym calls _ s h (by decide)

theorem create_user_process_full_witness :
    create_user_process 17 demo_sym full_table "desktop_shell".toList = some full_table
      ∧ boot_desktop.process_count ≤ 16 :=
  ⟨(create_user_process_full 17 demo_sym).1 full_table "desktop_shell".toList (by decide),
    (create_user_process_full 17 demo_sym).2 boot_calls boot_desktop boot_calls_eq⟩


/-! ## The table invariant along the creation calls -/

theorem TableInv.slot_mem {s : Kernel} {l : List Ptr} (h : TableInv s l) (i : Nat) :
    Ptr.slot i ∈ l ↔ i < s.process_count := by
  have h1 : Ptr.slot i ∈ l ↔ Ptr.slot i ∈ l.filter Ptr.isSlot := by
    simp [List.mem_filter, Ptr.isSlot]
  rw [h1, h.users]
  simp

theorem TableInv.inBounds {s : Kernel} {l : List Ptr} (h : TableInv s l) : InBounds s l := by
  intro p hp
  cases p with
  | idle => rfl
  | slot i =>
    have := (h.slot_mem i).mp hp
    have := h.count_le
    simp only [Kernel.valid, decide_eq_true_eq, h.length]
    omega

theorem TableInv.length_le {s : Kernel} {l : List Ptr} (h : TableInv s l) :
    l.length ≤ 17 := by
  have h1 := h.size
  have h2 := h.count_le
  split at h1 <;> omega

theorem tableInv_init : TableInv (init_scheduler Kernel.boot) [] where
  isList := rfl
  length := by decide
  count_le := by decide
  users := by decide
  pids := by intro i hi; exact absurd hi (Nat.not_lt_zero i)
  next_pid := rfl
  idle_pid := by intro h; exact absurd h (List.not_mem_nil _)
  size := by decide

theorem payload_pid {a b : Process} (h : a.payload = b.payload) : a.pid = b.pid := by
  have := congrArg Process.pid h
  simpa [Process.payload] using this

/-- One `create_user_process` keeps the invariant: below capacity the new slot is
appended, at capacity nothing changes. -/
theorem tableInv_create_user (fuel : Nat) (sym : Symbols) (name : List Char) (s : Kernel)
    (l : List Ptr) (h : TableInv s l) (hfuel : 17 ≤ fuel) :
    ∃ s1 l1, create_user_process fuel sym s name = some s1 ∧ TableInv s1 l1
      ∧ (Ptr.idle ∈ l1 ↔ Ptr.idle ∈ l)
      ∧ s1.process_count = min (s.process_count + 1) 16 := by
  by_cases hfull : 16 ≤ s.process_count
  · refine ⟨s, l, by simp [create_user_process, hfull], h, Iff.rfl, ?_⟩
    have := h.count_le
    omega
  · have hcnt : s.process_count < 16 := by omega
    have hfree : Ptr.slot s.process_count ∉ l := by
      rw [h.slot_mem]
      omega
    obtain ⟨s1, e1, e2, e3, _, e5, e6, _, e8, e9⟩ :=
      create_user_process_spec s l fuel sym name h.isList h.inBounds hcnt h.length hfree
        (by have := h.length_le; omega)
    have hidle : Ptr.idle ∈ l ++ [Ptr.slot s.process_count] ↔ Ptr.idle ∈ l := by simp
    refine ⟨s1, l ++ [Ptr.slot s.process_count], e1, ?_, hidle, by rw [e5]; omega⟩
    refine
      { isList := e2
        length := e8
        count_le := by rw [e5]; omega
        users := ?_
        pids := ?_
        next_pid := ?_
        idle_pid := ?_
        size := ?_ }
    · rw [List.filter_append, h.users, e5, List.range_succ, List.map_append]
      simp [Ptr.isSlot]
    · intro i hi
      rw [e5] at hi
      by_cases hic : i = s.process_count
      · subst hic
        rw [e3, h.next_pid]
      · have hne : Ptr.slot i ≠ Ptr.slot s.process_count := by
          intro e
          exact hic (Ptr.slot.inj e)
        rw [payload_pid (e9 _ hne)]
        exact h.pids i (by omega)
    · rw [e6, e5, h.next_pid]
      omega
    · intro hmem
      have hi := h.idle_pid (hidle.mp hmem)
      have := payload_pid (e9 Ptr.idle (by simp))
      exact this.trans hi
    · rw [List.length_append, h.size, e5]
      simp only [List.length_singleton, hidle]
      omega

/-- A `create_idle_thread` on a list that does not hold the idle entry keeps the
invariant and appends the idle entry. -/
theorem tableInv_create_idle (fuel : Nat) (sym : Symbols) (s : Kernel) (l : List Ptr)
    (h : TableInv s l) (hidle : Ptr.idle ∉ l) (hfuel : 17 ≤ fuel) :
    ∃ s1, create_idle_thread fuel sym s = some s1 ∧ TableInv s1 (l ++ [Ptr.idle])
      ∧ s1.process_count = s.process_count := by
  generalize hv : ({ s.idle_process with
      pid := 0
      name := idle_name_copy "idle_thread".toList 32 0 s.idle_process.name
      state := ProcessState.PROCESS_READY
      eip := sym.idle_thread
      page_dir := sym.page_directory
      next := none } : Process) = idle1
  have hpid : idle1.pid = 0 := by rw [← hv]
  have hnext : idle1.next = none := by rw [← hv]
  have hcre : create_idle_thread fuel sym s
      = add_to_list fuel { s with idle_process := idle1 } Ptr.idle := by
    rw [← hv]
    rfl
  generalize hs2 : ({ s with idle_process := idle1 } : Kernel) = s2 at hcre
  have hderef : ∀ x, x ≠ Ptr.idle → s2.deref x = s.deref x := by
    intro x hx
    rw [← hs2]
    cases x with
    | idle => exact absurd rfl hx
    | slot i => rfl
  have hl2 : IsList s2 l := by
    have hpl : s2.process_list = s.process_list := by rw [← hs2]
    unfold IsList
    rw [hpl]
    refine (lseg_congr s s2 l _ _ ?_).mpr h.isList
    intro x hx
    rw [hderef x (fun e => hidle (e ▸ hx))]
  have hlen2 : s2.processes.length = s.processes.length := by rw [← hs2]
  have hb2 : InBounds s2 l := inBounds_congr s s2 l hlen2 h.inBounds
  have hn2 : (s2.deref Ptr.idle).next = none := by
    rw [← hs2]
    exact hnext
  obtain ⟨a1, a2⟩ := add_to_list_spec s2 l Ptr.idle fuel hl2 hb2 hidle hn2
    (by have := h.length_le; omega)
  obtain ⟨g1, g2, g3, _⟩ := link_tail_fields s2 l.getLast? Ptr.idle
  have hpay := link_tail_payload s2 l.getLast? Ptr.idle
  have hcount2 : s2.process_count = s.process_count := by rw [← hs2]
  have hnp2 : s2.next_pid = s.next_pid := by rw [← hs2]
  refine ⟨_, hcre.trans a1, ?_, by rw [g2, hcount2]⟩
  refine
    { isList := a2
      length := by rw [g1, hlen2, h.length]
      count_le := by rw [g2, hcount2]; exact h.count_le
      users := ?_
      pids := ?_
      next_pid := by rw [g3, g2, hnp2, hcount2]; exact h.next_pid
      idle_pid := ?_
      size := ?_ }
  · rw [List.filter_append, h.users, g2, hcount2]
    simp [Ptr.isSlot]
  · intro i hi
    rw [g2, hcount2] at hi
    rw [payload_pid (hpay (Ptr.slot i)), hderef _ (by simp)]
    exact h.pids i hi
  · intro _
    have := payload_pid (hpay Ptr.idle)
    have h0 : (s2.deref Ptr.idle).pid = 0 := by
      rw [← hs2]
      exact hpid
    exact this.trans h0
  · rw [List.length_append, h.size, g2, hcount2]
    simp [hidle]


theorem run_append (fuel : Nat) (sym : Symbols) (a b : List Call) :
    ∀ (s s1 : Kernel), run fuel sym s a = some s1 →
      run fuel sym s (a ++ b) = run fuel sym s1 b := by
  induction a with
  | nil =>
    intro s s1 h
    cases h
    rfl
  | cons c cs ih =>
    intro s s1 h
    simp only [run, List.cons_append] at h ⊢
    split at h
    · cases h
    · rename_i s2 hstep
      exact ih s2 s1 h

/-- A run of `create_user_process` calls keeps the invariant and creates one process
per call up to the capacity of 16. -/
theorem tableInv_run_users (fuel : Nat) (sym : Symbols) (hfuel : 17 ≤ fuel) :
    ∀ (names : List (List Char)) (s : Kernel) (l : List Ptr), TableInv s l →
      ∃ s1 l1, run fuel sym s (names.map Call.create_user_process) = some s1
        ∧ TableInv s1 l1 ∧ (Ptr.idle ∈ l1 ↔ Ptr.idle ∈ l)
        ∧ s1.process_count = min (s.process_count + names.length) 16 := by
  intro names
  induction names with
  | nil =>
    intro s l h
    refine ⟨s, l, rfl, h, Iff.rfl, ?_⟩
    have := h.count_le
    simp
    omega
  | cons n ns ih =>
    intro s l h
    obtain ⟨s1, l1, e1, e2, e3, e4⟩ := tableInv_create_user fuel sym n s l h hfuel
    obtain ⟨s2, l2, r1, r2, r3, r4⟩ := ih s1 l1 e2
    refine ⟨s2, l2, ?_, r2, r3.trans e3, ?_⟩
    · simp only [List.map_cons, run, step, e1]
      exact r1
    · rw [r4, e4]
      simp only [List.length_cons]
      omega

/-- In a state that satisfies the invariant the identifiers of the list entries are
pairwise distinct, and those of the user entries increase along the list. -/
theorem tableInv_pids {s : Kernel} {l : List Ptr} (h : TableInv s l) :
    (l.map (fun p => (s.deref p).pid)).Nodup
      ∧ ((l.filter Ptr.isSlot).map (fun p => (s.deref p).pid)).Pairwise (fun a b => a < b) := by
  constructor
  · have hmap : l.map (fun p => (s.deref p).pid)
        = l.map (fun p => match p with
            | Ptr.idle => 0
            | Ptr.slot i => i + 1) := by
      apply List.map_congr_left
      intro p hp
      cases p with
      | idle => exact h.idle_pid hp
      | slot i => exact h.pids i ((h.slot_mem i).mp hp)
    rw [hmap]
    refine List.Nodup.map ?_ h.isList.nodup
    intro a b hab
    cases a <;> cases b <;> simp at hab ⊢
    exact hab
  · rw [h.users, List.map_map]
    have hmap : (List.range s.process_count).map
          ((fun p => (s.deref p).pid) ∘ Ptr.slot)
        = (List.range s.process_count).map (fun i => i + 1) := by
      apply List.map_congr_left
      intro i hi
      exact h.pids i (List.mem_range.mp hi)
    rw [hmap, List.pairwise_map]
    exact (List.pairwise_lt_range s.process_count).imp (fun hab => by omega)

/-- C10. Process identifiers are unique and monotonically assigned: after
`init_scheduler`, one `create_idle_thread` and any `create_user_process` calls before
and after it, the run returns; the list is well-formed, the identifiers of its entries
are pairwise distinct, its user entries are the table slots `0 .. process_count - 1`
in creation order (one per call, up to 16), and their identifiers strictly increase in
that order. -/
theorem pids_unique_monotone (fuel : Nat) (sym : Symbols) (pre post : List (List Char))
    (hfuel : 17 ≤ fuel) :
    ∃ s l, run fuel sym (init_scheduler Kernel.boot)
          (pre.map Call.create_user_process
            ++ Call.create_idle_thread :: post.map Call.create_user_process) = some s
      ∧ IsList s l
      ∧ (l.map (fun p => (s.deref p).pid)).Nodup
      ∧ l.filter Ptr.isSlot = (List.range s.process_count).map Ptr.slot
      ∧ s.process_count = min (pre.length + post.length) 16
      ∧ ((l.filter Ptr.isSlot).map (fun p => (s.deref p).pid)).Pairwise
          (fun a b => a < b) := by
  obtain ⟨s1, l1, r1, i1, m1, c1⟩ :=
    tableInv_run_users fuel sym hfuel pre _ [] tableInv_init
  have hidle : Ptr.idle ∉ l1 := fun hm => absurd (m1.mp hm) (List.not_mem_nil _)
  obtain ⟨s2, r2, i2, c2⟩ := tableInv_create_idle fuel sym s1 l1 i1 hidle hfuel
  obtain ⟨s3, l3, r3, i3, _, c3⟩ :=
    tableInv_run_users fuel sym hfuel post s2 _ i2
  obtain ⟨hnd, hpw⟩ := tableInv_pids i3
  refine ⟨s3, l3, ?_, i3.isList, hnd, i3.users, ?_, hpw⟩
  · rw [run_append fuel sym _ _ _ s1 r1]
    simp only [run, step, r2]
    exact r3
  · have h0 : (init_scheduler Kernel.boot).process_count = 0 := rfl
    rw [c3, c2, c1, h0]
    omega

theorem pids_unique_monotone_witness :
    ∃ s l, run 17 demo_sym (init_scheduler Kernel.boot)
          (([] : List (List Char)).map Call.create_user_process
            ++ Call.create_idle_thread
              :: ["init".toList, "auth_service".toList, "desktop_shell".toList].map
                  Call.create_user_process) = some s
      ∧ IsList s l
      ∧ (l.map (fun p => (s.deref p).pid)).Nodup
      ∧ l.filter Ptr.isSlot = (List.range s.process_count).map Ptr.slot
      ∧ s.process_count
          = min (([] : List (List Char)).length
              + ["init".toList, "auth_service".toList, "desktop_shell".toList].length) 16
      ∧ ((l.filter Ptr.isSlot).map (fun p => (s.deref p).pid)).Pairwise
          (fun a b => a < b) :=
  pids_unique_monotone 17 demo_sym []
    ["init".toList, "auth_service".toList, "desktop_shell".toList] (by decide)


/-! ## More than one Running entry, and the context that is never saved -/

/-- C3. The boot sequence of `kernel_init` followed by two passes of its main loop
(`schedule(); schedule();`) leaves two entries of the process list in state Running:
the idle process, selected first, is never set back to Ready when `processes[0]` is
selected. -/
theorem two_running_after_two_schedules :
    (run 17 demo_sym (init_scheduler Kernel.boot)
        (boot_calls ++ [Call.schedule, Call.schedule])).map
      (fun s => (s.running_count, (s.deref Ptr.idle).state, (s.deref (Ptr.slot 0)).state,
        s.current_process))
      = some (2, ProcessState.PROCESS_RUNNING, ProcessState.PROCESS_RUNNING,
          some (Ptr.slot 0)) := by
  rw [boot_loop_eq]
  decide

/-- Storing a control block that keeps the saved context keeps every saved context. -/
theorem store_context (s : Kernel) (p q : Ptr) (v : Process)
    (h : v.context = (s.deref p).context) :
    ((s.store p v).deref q).context = (s.deref q).context := by
  by_cases hq : q = p
  · subst hq
    cases q with
    | idle => exact h
    | slot i =>
      simp only [Kernel.store, Kernel.deref, List.getD_eq_getElem?_getD, List.getElem?_set]
      by_cases hi : i < s.processes.length
      · simp only [if_true, hi, Option.getD_some]
        simpa [Kernel.deref, List.getD_eq_getElem?_getD, hi] using h
      · simp [hi, List.getElem?_eq_none (Nat.le_of_not_lt hi)]
  · rw [deref_store_ne _ _ _ _ hq]

/-- In every state, `schedule` leaves the saved context of every control block as it
was: nothing is saved for the outgoing process. -/
theorem schedule_keeps_contexts (fuel : Nat) (s s1 : Kernel)
    (h : schedule fuel s = some s1) (p : Ptr) :
    (s1.deref p).context = (s.deref p).context := by
  unfold schedule at h
  split at h
  · cases h
    rfl
  · simp only at h
    split at h
    · cases h
    · cases h
      rfl
    · split at h
      · cases h
        rfl
      · split at h
        · cases h
          rename_i n _ _ _
          have h1 := store_context { s with current_process := some n } n p
            { ({ s with current_process := some n } : Kernel).deref n with
              state := ProcessState.PROCESS_RUNNING } rfl
          have h2 : (({ s with current_process := some n } : Kernel).deref p).context
              = (s.deref p).context := by cases p <;> rfl
          exact h1.trans h2
        · cases h
          rfl

/-- C4. The second `schedule()` of the boot sequence, called with the processor
context `demo_cpu` of the running idle thread, switches from the idle process to
`processes[0]` and saves and restores nothing: afterwards the control block of the
outgoing idle process holds the context it held before the call (stack and frame
pointer 0, never written), not the live one, and the processor context is returned as it
was, not the one saved for the incoming process. -/
theorem schedule_switch_saves_nothing :
    schedule_cpu 17 demo_cpu boot_run1 = some (boot_run2, demo_cpu)
      ∧ boot_run1.current_process = some Ptr.idle
      ∧ boot_run2.current_process = some (Ptr.slot 0)
      ∧ (boot_run2.deref Ptr.idle).context = (boot_run1.deref Ptr.idle).context
      ∧ (boot_run2.deref Ptr.idle).context ≠ demo_cpu
      ∧ demo_cpu ≠ (boot_run2.deref (Ptr.slot 0)).context := by
  refine ⟨?_, rfl, rfl, ?_, ?_, ?_⟩
  · simp only [schedule_cpu, boot_run2_eq]
  · decide
  · decide
  · decide

/-! ## Fuel is monotone in the creation functions -/

theorem find_tail_mono (s : Kernel) (t : Ptr) :
    ∀ (f f1 : Nat) (p : Ptr), find_tail s f p = some t → f ≤ f1 →
      find_tail s f1 p = some t := by
  intro f
  induction f with
  | zero =>
    intro f1 p h _
    cases hn : (s.deref p).next with
    | none =>
      rw [find_tail_none s 0 p hn] at h
      rw [find_tail_none s f1 p hn]
      exact h
    | some q =>
      unfold find_tail at h
      simp [hn] at h
  | succ f ih =>
    intro f1 p h hle
    cases hn : (s.deref p).next with
    | none =>
      rw [find_tail_none s (f + 1) p hn] at h
      rw [find_tail_none s f1 p hn]
      exact h
    | some q =>
      obtain ⟨g, rfl⟩ : ∃ g, f1 = g + 1 := ⟨f1 - 1, by omega⟩
      rw [find_tail_some s f p q hn] at h
      rw [find_tail_some s g p q hn]
      exact ih g q h (by omega)

theorem add_to_list_mono (s s1 : Kernel) (proc : Ptr) (f f1 : Nat)
    (h : add_to_list f s proc = some s1) (hle : f ≤ f1) :
    add_to_list f1 s proc = some s1 := by
  unfold add_to_list at h ⊢
  cases hpl : s.process_list with
  | none =>
    simp only [hpl] at h ⊢
    exact h
  | some head =>
    simp only [hpl] at h ⊢
    cases hft : find_tail s f head with
    | none => simp [hft] at h
    | some t =>
      rw [find_tail_mono s t f f1 head hft hle]
      simp only [hft] at h
      exact h

theorem create_idle_thread_mono (sym : Symbols) (s s1 : Kernel) (f f1 : Nat)
    (h : create_idle_thread f sym s = some s1) (hle : f ≤ f1) :
    create_idle_thread f1 sym s = some s1 :=
  add_to_list_mono _ s1 Ptr.idle f f1 h hle

theorem create_user_process_mono (sym : Symbols) (s s1 : Kernel) (name : List Char)
    (f f1 : Nat) (h : create_user_process f sym s name = some s1) (hle : f ≤ f1) :
    create_user_process f1 sym s name = some s1 := by
  unfold create_user_process at h ⊢
  split
  · rename_i hfull
    simp only [hfull, if_true] at h
    exact h
  · rename_i hfull
    simp only [hfull, if_false] at h
    exact add_to_list_mono _ s1 _ f f1 h hle

/-! ## The boot sequence of `kernel_init` for every symbol address -/

theorem booted_idle_eq (sym : Symbols) :
    create_idle_thread 17 sym (init_scheduler Kernel.boot) = some (booted_idle sym) := rfl

theorem booted_init_eq (sym : Symbols) :
    create_user_process 17 sym (booted_idle sym) "init".toList = some (booted_init sym) := rfl

theorem booted_auth_eq (sym : Symbols) :
    create_user_process 17 sym (booted_init sym) "auth_service".toList
      = some (booted_auth sym) := rfl

set_option maxHeartbeats 1000000 in
theorem booted_desktop_eq (sym : Symbols) :
    create_user_process 17 sym (booted_auth sym) "desktop_shell".toList
      = some (booted_desktop sym) := rfl

/-! ## The gate loop and the service loop terminate -/

theorem wait_for_auth_loop_returns (t1 : Nat) (msg : AuthMsg) :
    ∀ (fuel : Nat) (counter : Int), counter ≤ 1000000 → 1000001 - counter ≤ fuel →
      wait_for_auth_loop t1 fuel msg counter
        = some ({ msg with type := AUTH_SUCCESS, timestamp := t1 }, 1000001) := by
  intro fuel
  induction fuel with
  | zero =>
    intro counter h1 h2
    omega
  | succ fuel ih =>
    intro counter h1 h2
    by_cases hc : counter + 1 > 1000000
    · have hc1 : counter + 1 = 1000001 := by omega
      simp only [wait_for_auth_loop, hc, if_true]
      rw [hc1]
    · simp only [wait_for_auth_loop, hc, if_false]
      exact ih (counter + 1) (by omega) (by omega)

/-- Whenever the gate loop is left, the message has kind Success. -/
theorem wait_for_auth_loop_success (t1 : Nat) (msg : AuthMsg) :
    ∀ (fuel : Nat) (counter : Int) (r : AuthMsg × Int),
      wait_for_auth_loop t1 fuel msg counter = some r → r.1.type = AUTH_SUCCESS := by
  intro fuel
  induction fuel with
  | zero =>
    intro counter r h
    simp [wait_for_auth_loop] at h
  | succ fuel ih =>
    intro counter r h
    by_cases hc : counter + 1 > 1000000
    · simp only [wait_for_auth_loop, hc, if_true] at h
      cases h
      rfl
    · simp only [wait_for_auth_loop, hc, if_false] at h
      exact ih (counter + 1) r h

theorem auth_service_loop_returns (stack : AuthMsg) :
    ∀ (fuel : Nat) (counter : Int) (n : Nat), counter ≤ 500000 → 500001 - counter ≤ fuel →
      auth_service_loop stack fuel counter n
        = some { counter := 500001, iterations := n + (500001 - counter).toNat,
                 sends := [{ dest := AUTH_CHANNEL,
                             msg := { stack with
                               type := AUTH_SUCCESS, user_id := 1, timestamp := 500001 },
                             len := sizeof_AuthMsg }] } := by
  intro fuel
  induction fuel with
  | zero =>
    intro counter n h1 h2
    omega
  | succ fuel ih =>
    intro counter n h1 h2
    by_cases hc : counter + 1 > 500000
    · have hc1 : counter = 500000 := by omega
      subst hc1
      simp only [auth_service_loop]
      rfl
    · simp only [auth_service_loop, hc, if_false]
      rw [ih (counter + 1) (n + 1) (by omega) (by omega)]
      have : n + 1 + (500001 - (counter + 1)).toNat = n + (500001 - counter).toNat := by
        omega
      rw [this]


/-! ## Identifier zero -/

/-- C11. Identifier zero belongs to the idle process only: after `init_scheduler` and
any `create_user_process` calls, with or without one `create_idle_thread` among them,
the run returns; every process created by `create_user_process` is in the list and an
entry of the list has identifier 0 exactly when it is the idle process, which is in
the list when `create_idle_thread` was called. -/
theorem pid_zero_idle_only (fuel : Nat) (sym : Symbols) (pre post : List (List Char))
    (with_idle : Bool) (hfuel : 17 ≤ fuel) :
    ∃ s l, run fuel sym (init_scheduler Kernel.boot)
          (pre.map Call.create_user_process
            ++ (if with_idle then [Call.create_idle_thread] else [])
            ++ post.map Call.create_user_process) = some s
      ∧ IsList s l
      ∧ s.process_count = min (pre.length + post.length) 16
      ∧ (∀ i, i < s.process_count → Ptr.slot i ∈ l)
      ∧ (∀ p ∈ l, (s.deref p).pid = 0 ↔ p = Ptr.idle)
      ∧ (with_idle = true → Ptr.idle ∈ l) := by
  obtain ⟨s1, l1, r1, i1, m1, c1⟩ :=
    tableInv_run_users fuel sym hfuel pre _ [] tableInv_init
  have hidle : Ptr.idle ∉ l1 := fun hm => absurd (m1.mp hm) (List.not_mem_nil _)
  have h0 : (init_scheduler Kernel.boot).process_count = 0 := rfl
  have key : ∀ (s : Kernel) (l : List Ptr), TableInv s l →
      (∀ i, i < s.process_count → Ptr.slot i ∈ l)
        ∧ (∀ p ∈ l, (s.deref p).pid = 0 ↔ p = Ptr.idle) := by
    intro s l h
    refine ⟨fun i hi => (h.slot_mem i).mpr hi, ?_⟩
    intro p hp
    cases p with
    | idle => exact ⟨fun _ => rfl, fun _ => h.idle_pid hp⟩
    | slot i =>
      have := h.pids i ((h.slot_mem i).mp hp)
      constructor
      · intro hz
        rw [hz] at this
        omega
      · intro e
        cases e
  cases with_idle with
  | false =>
    obtain ⟨s3, l3, r3, i3, _, c3⟩ := tableInv_run_users fuel sym hfuel post s1 l1 i1
    obtain ⟨k1, k2⟩ := key s3 l3 i3
    refine ⟨s3, l3, ?_, i3.isList, ?_, k1, k2, fun h => absurd h (by simp)⟩
    · simp only [Bool.false_eq_true, if_false, List.append_nil]
      rw [run_append fuel sym _ _ _ s1 r1]
      exact r3
    · rw [c3, c1, h0]
      omega
  | true =>
    obtain ⟨s2, r2, i2, c2⟩ := tableInv_create_idle fuel sym s1 l1 i1 hidle hfuel
    obtain ⟨s3, l3, r3, i3, m3, c3⟩ := tableInv_run_users fuel sym hfuel post s2 _ i2
    obtain ⟨k1, k2⟩ := key s3 l3 i3
    refine ⟨s3, l3, ?_, i3.isList, ?_, k1, k2, fun _ => m3.mpr (by simp)⟩
    · simp only [if_true, List.append_assoc, List.singleton_append]
      rw [run_append fuel sym _ _ _ s1 r1]
      simp only [run, step, r2]
      exact r3
    · rw [c3, c2, c1, h0]
      omega

theorem pid_zero_idle_only_witness :
    ∃ s l, run 17 demo_sym (init_scheduler Kernel.boot)
          (([] : List (List Char)).map Call.create_user_process
            ++ (if true then [Call.create_idle_thread] else [])
            ++ ["init".toList, "auth_service".toList].map Call.create_user_process) = some s
      ∧ IsList s l
      ∧ s.process_count
          = min (([] : List (List Char)).length
              + ["init".toList, "auth_service".toList].length) 16
      ∧ (∀ i, i < s.process_count → Ptr.slot i ∈ l)
      ∧ (∀ p ∈ l, (s.deref p).pid = 0 ↔ p = Ptr.idle)
      ∧ (true = true → Ptr.idle ∈ l) :=
  pid_zero_idle_only 17 demo_sym [] ["init".toList, "auth_service".toList] true
    (by decide)

/-! ## The token clearing loop -/

theorem token_clear_getElem? :
    ∀ (k i : Nat) (tok : List Nat) (j : Nat),
      (token_clear k i tok)[j]? =
        if i ≤ j ∧ j < i + k ∧ j < tok.length then some 0 else tok[j]? := by
  intro k
  induction k with
  | zero =>
    intro i tok j
    have : ¬ (i ≤ j ∧ j < i + 0 ∧ j < tok.length) := by omega
    simp only [token_clear, this, if_false]
  | succ k ih =>
    intro i tok j
    simp only [token_clear]
    rw [ih (i + 1) (tok.set i 0) j, List.getElem?_set, List.length_set]
    by_cases hij : i = j
    · subst hij
      by_cases hlen : i < tok.length
      · have h1 : ¬ (i + 1 ≤ i ∧ i < i + 1 + k ∧ i < tok.length) := by omega
        have h2 : i ≤ i ∧ i < i + (k + 1) ∧ i < tok.length := by omega
        simp only [h1, h2, hlen, if_true, if_false]
        simp
      · have h1 : ¬ (i + 1 ≤ i ∧ i < i + 1 + k ∧ i < tok.length) := by omega
        have h2 : ¬ (i ≤ i ∧ i < i + (k + 1) ∧ i < tok.length) := by omega
        simp only [h1, h2, hlen, if_false]
        simp [List.getElem?_eq_none (Nat.le_of_not_lt hlen)]
    · by_cases hc : i + 1 ≤ j ∧ j < i + 1 + k ∧ j < tok.length
      · have h2 : i ≤ j ∧ j < i + (k + 1) ∧ j < tok.length := by omega
        simp only [hc, h2, if_true, and_self]
      · have h2 : ¬ (i ≤ j ∧ j < i + (k + 1) ∧ j < tok.length) := by omega
        simp only [hc, h2, hij, if_false]

theorem token_clear_length : ∀ (k i : Nat) (tok : List Nat),
    (token_clear k i tok).length = tok.length := by
  intro k
  induction k with
  | zero => intro i tok; rfl
  | succ k ih =>
    intro i tok
    simp only [token_clear]
    rw [ih, List.length_set]

/-- The clearing loop of `wait_for_auth` leaves a 32-byte token all zero, whatever
it held before. -/
theorem token_clear_all (tok : List Nat) (h : tok.length = 32) :
    token_clear 32 0 tok = List.replicate 32 0 := by
  apply List.ext_getElem?
  intro j
  rw [token_clear_getElem?]
  by_cases hj : j < 32
  · have : 0 ≤ j ∧ j < 0 + 32 ∧ j < tok.length := by omega
    simp only [this, and_self, if_true]
    rw [List.getElem?_replicate]
    simp [hj]
  · have : ¬ (0 ≤ j ∧ j < 0 + 32 ∧ j < tok.length) := by omega
    simp only [this, if_false]
    rw [List.getElem?_eq_none (by omega), List.getElem?_eq_none (by simp; omega)]

/-! ## `kernel_init` up to the main loop -/

/-- The boot part of `kernel_init` returns, and this is what happens, in order. -/
theorem kernel_init_boot_eq (fuel loop_fuel : Nat) (sym : Symbols) (t0 t1 : Nat)
    (channel : List AuthMsg) (stack : AuthMsg) (hfuel : 17 ≤ fuel)
    (hloop : 1000001 ≤ loop_fuel) :
    kernel_init_boot fuel loop_fuel sym t0 t1 channel stack Kernel.boot 0
      = some [BootEvent.table (init_scheduler Kernel.boot),
          BootEvent.table (booted_idle sym), BootEvent.table (booted_init sym),
          BootEvent.table (booted_auth sym),
          BootEvent.auth_returned
            { type := AUTH_SUCCESS, user_id := 1, timestamp := t1,
              security_token := token_clear 32 0 stack.security_token },
          BootEvent.table (booted_desktop sym)] := by
  have h1 := create_idle_thread_mono sym _ _ 17 fuel (booted_idle_eq sym) hfuel
  have h2 := create_user_process_mono sym _ _ _ 17 fuel (booted_init_eq sym) hfuel
  have h3 := create_user_process_mono sym _ _ _ 17 fuel (booted_auth_eq sym) hfuel
  have h4 := create_user_process_mono sym _ _ _ 17 fuel (booted_desktop_eq sym) hfuel
  have hw : wait_for_auth loop_fuel t0 t1 channel stack 0
      = some ({ type := AUTH_SUCCESS, user_id := 1, timestamp := t1,
                security_token := token_clear 32 0 stack.security_token }, 1000001) := by
    simp only [wait_for_auth]
    rw [wait_for_auth_loop_returns t1 _ loop_fuel 0 (by omega) (by omega)]
  simp only [kernel_init_boot, h1, h2, h3, h4, hw]

/-- C12. Boot scenario: for every symbol address, timer reading, channel content and
stack content, the boot part of `kernel_init` returns, and the state it reaches after
`wait_for_auth` and before the first `schedule()` has the process list idle,
`processes[0]`, `processes[1]`, `processes[2]`, in this order, with identifiers 0, 1,
2, 3, names `idle_thread`, `init`, `auth_service`, `desktop_shell`, every one in state
Ready, and no current process. -/
theorem boot_scenario (fuel loop_fuel : Nat) (sym : Symbols) (t0 t1 : Nat)
    (channel : List AuthMsg) (stack : AuthMsg) (hfuel : 17 ≤ fuel)
    (hloop : 1000001 ≤ loop_fuel) :
    ∃ events s,
      kernel_init_boot fuel loop_fuel sym t0 t1 channel stack Kernel.boot 0
        = some (events ++ [BootEvent.table s])
      ∧ IsList s [Ptr.idle, Ptr.slot 0, Ptr.slot 1, Ptr.slot 2]
      ∧ [Ptr.idle, Ptr.slot 0, Ptr.slot 1, Ptr.slot 2].map
          (fun p => ((s.deref p).pid, (s.deref p).cname, (s.deref p).state))
        = [(0, "idle_thread".toList, ProcessState.PROCESS_READY),
           (1, "init".toList, ProcessState.PROCESS_READY),
           (2, "auth_service".toList, ProcessState.PROCESS_READY),
           (3, "desktop_shell".toList, ProcessState.PROCESS_READY)]
      ∧ s.current_process = none := by
  refine ⟨[BootEvent.table (init_scheduler Kernel.boot),
      BootEvent.table (booted_idle sym), BootEvent.table (booted_init sym),
      BootEvent.table (booted_auth sym),
      BootEvent.auth_returned
        { type := AUTH_SUCCESS, user_id := 1, timestamp := t1,
          security_token := token_clear 32 0 stack.security_token }],
    booted_desktop sym, ?_, ?_, rfl, rfl⟩
  · rw [kernel_init_boot_eq fuel loop_fuel sym t0 t1 channel stack hfuel hloop]
    rfl
  · exact ⟨rfl, rfl, rfl, rfl, rfl⟩

theorem boot_scenario_witness :
    ∃ events s,
      kernel_init_boot 17 1000001 demo_sym 0 0 [] ⟨0, 0, 0, List.replicate 32 0⟩
          Kernel.boot 0
        = some (events ++ [BootEvent.table s])
      ∧ IsList s [Ptr.idle, Ptr.slot 0, Ptr.slot 1, Ptr.slot 2]
      ∧ [Ptr.idle, Ptr.slot 0, Ptr.slot 1, Ptr.slot 2].map
          (fun p => ((s.deref p).pid, (s.deref p).cname, (s.deref p).state))
        = [(0, "idle_thread".toList, ProcessState.PROCESS_READY),
           (1, "init".toList, ProcessState.PROCESS_READY),
           (2, "auth_service".toList, ProcessState.PROCESS_READY),
           (3, "desktop_shell".toList, ProcessState.PROCESS_READY)]
      ∧ s.current_process = none :=
  boot_scenario 17 1000001 demo_sym 0 0 [] ⟨0, 0, 0, List.replicate 32 0⟩ (by decide)
    (by decide)

/-- C14. Gate ordering: whenever `wait_for_auth` returns, from any counter value, its
message has kind Success; and every execution of the boot part of `kernel_init`
returns and consists of scheduler states none of which has an entry named
`desktop_shell`, in the list or in the `processes` array, then the return of
`wait_for_auth` with kind Success, then the state in which `desktop_shell` has been
created. -/
theorem gate_ordering (fuel loop_fuel : Nat) (sym : Symbols) (t0 t1 : Nat)
    (channel : List AuthMsg) (stack : AuthMsg) (hfuel : 17 ≤ fuel)
    (hloop : 1000001 ≤ loop_fuel) :
    (∀ (f : Nat) (c : Int) (r : AuthMsg × Int),
        wait_for_auth f t0 t1 channel stack c = some r → r.1.type = AUTH_SUCCESS)
      ∧ ∃ (before : List Kernel) (msg : AuthMsg) (s : Kernel),
          kernel_init_boot fuel loop_fuel sym t0 t1 channel stack Kernel.boot 0
            = some (before.map BootEvent.table
                ++ [BootEvent.auth_returned msg, BootEvent.table s])
          ∧ (∀ b ∈ before, b.has_named "desktop_shell" = false
              ∧ b.table_has_named "desktop_shell" = false)
          ∧ msg.type = AUTH_SUCCESS
          ∧ s.has_named "desktop_shell" = true := by
  refine ⟨?_, ?_⟩
  · intro f c r h
    exact wait_for_auth_loop_success t1 _ f c r h
  · refine ⟨[init_scheduler Kernel.boot, booted_idle sym, booted_init sym,
      booted_auth sym],
      { type := AUTH_SUCCESS, user_id := 1, timestamp := t1,
        security_token := token_clear 32 0 stack.security_token },
      booted_desktop sym, ?_, ?_, rfl, rfl⟩
    · rw [kernel_init_boot_eq fuel loop_fuel sym t0 t1 channel stack hfuel hloop]
      rfl
    · intro b hb
      simp only [List.mem_cons, List.mem_singleton, List.not_mem_nil, or_false] at hb
      rcases hb with rfl | rfl | rfl | rfl <;> exact ⟨rfl, rfl⟩

theorem gate_ordering_witness :
    (∀ (f : Nat) (c : Int) (r : AuthMsg × Int),
        wait_for_auth f 0 0 [] ⟨0, 0, 0, List.replicate 32 0⟩ c = some r →
          r.1.type = AUTH_SUCCESS)
      ∧ ∃ (before : List Kernel) (msg : AuthMsg) (s : Kernel),
          kernel_init_boot 17 1000001 demo_sym 0 0 [] ⟨0, 0, 0, List.replicate 32 0⟩
              Kernel.boot 0
            = some (before.map BootEvent.table
                ++ [BootEvent.auth_returned msg, BootEvent.table s])
          ∧ (∀ b ∈ before, b.has_named "desktop_shell" = false
              ∧ b.table_has_named "desktop_shell" = false)
          ∧ msg.type = AUTH_SUCCESS
          ∧ s.has_named "desktop_shell" = true :=
  gate_ordering 17 1000001 demo_sym 0 0 [] ⟨0, 0, 0, List.replicate 32 0⟩ (by decide)
    (by decide)

/-! ## The gate fails open, and the service's token -/

/-- C13. With the authentication channel delivering three Failure messages and no
Success, the boot part of `kernel_init` still returns and its last state has an entry
named `desktop_shell`: `wait_for_auth` never reads the channel and simulates a Success
once its counter passes 1000000. -/
theorem gate_fails_open :
    (∀ m ∈ three_failures, m.type = AUTH_FAILURE)
      ∧ ∃ (events : List BootEvent) (msg : AuthMsg) (s : Kernel),
          kernel_init_boot 17 1000001 demo_sym 0 0 three_failures stale_stack Kernel.boot 0
            = some (events ++ [BootEvent.auth_returned msg, BootEvent.table s])
          ∧ msg.type = AUTH_SUCCESS
          ∧ s.has_named "desktop_shell" = true := by
  refine ⟨by decide, [BootEvent.table (init_scheduler Kernel.boot),
      BootEvent.table (booted_idle demo_sym), BootEvent.table (booted_init demo_sym),
      BootEvent.table (booted_auth demo_sym)],
    { type := AUTH_SUCCESS, user_id := 1, timestamp := 0,
      security_token := token_clear 32 0 stale_stack.security_token },
    booted_desktop demo_sym, ?_, rfl, rfl⟩
  rw [kernel_init_boot_eq 17 1000001 demo_sym 0 0 three_failures stale_stack (by decide)
    (by decide)]
  rfl

/-- C15. Started on stack memory that holds stale bytes, `auth_service_main` hands to
`sal_send` a message whose 32 token bytes are those stale bytes, none of them zero: the
block assigns `type`, `user_id` and `timestamp` only.  The message of `wait_for_auth`,
built on the same memory, has all 32 token bytes zero. -/
theorem service_token_not_initialised :
    (auth_service_loop stale_stack 500001 0 0).map
        (fun r => r.sends.map (fun c => c.msg.security_token))
      = some [List.replicate 32 0xAA]
      ∧ (wait_for_auth 1000001 0 0 [] stale_stack 0).map (fun r => r.1.security_token)
        = some (List.replicate 32 0) := by
  constructor
  · rw [auth_service_loop_returns stale_stack 500001 0 0 (by decide) (by decide)]
    rfl
  · simp only [wait_for_auth]
    rw [wait_for_auth_loop_returns 0 _ 1000001 0 (by decide) (by decide)]
    decide

theorem auth_service_loop_running (stack : AuthMsg) :
    ∀ (fuel : Nat) (counter : Int) (n : Nat), counter + fuel ≤ 500000 →
      auth_service_loop stack fuel counter n = none := by
  intro fuel
  induction fuel with
  | zero => intro counter n _; rfl
  | succ fuel ih =>
    intro counter n h
    have hc : ¬ counter + 1 > 500000 := by push_cast at h; omega
    simp only [auth_service_loop, hc, if_false]
    exact ih (counter + 1) (n + 1) (by push_cast at h ⊢; omega)

/-- C16. Started with its counter at 0, the first loop of `auth_service_main` is left
after exactly 500001 executions of its body (no fewer suffice), with the counter at
500001 and exactly one `sal_send` call made: destination 1 (`AUTH_CHANNEL`), length 44
(`sizeof(struct AuthMsg)`), a message of kind 2 (`AUTH_SUCCESS`) for user 1. -/
theorem auth_service_sends_once (stack : AuthMsg) (fuel : Nat) (hfuel : 500001 ≤ fuel) :
    auth_service_loop stack fuel 0 0
        = some { counter := 500001, iterations := 500001,
                 sends := [{ dest := 1,
                             msg := { stack with type := 2, user_id := 1,
                                                 timestamp := 500001 },
                             len := 44 }] }
      ∧ (∀ f, f < 500001 → auth_service_loop stack f 0 0 = none)
      ∧ AUTH_CHANNEL = 1 ∧ sizeof_AuthMsg = 44 ∧ AUTH_SUCCESS = 2 := by
  refine ⟨?_, ?_, rfl, rfl, rfl⟩
  · rw [auth_service_loop_returns stack fuel 0 0 (by decide) (by omega)]
    rfl
  · intro f hf
    exact auth_service_loop_running stack f 0 0 (by omega)

theorem auth_service_sends_once_witness :
    auth_service_loop stale_stack 500001 0 0
        = some { counter := 500001, iterations := 500001,
                 sends := [{ dest := 1,
                             msg := { stale_stack with type := 2, user_id := 1,
                                                       timestamp := 500001 },
                             len := 44 }] }
      ∧ (∀ f, f < 500001 → auth_service_loop stale_stack f 0 0 = none)
      ∧ AUTH_CHANNEL = 1 ∧ sizeof_AuthMsg = 44 ∧ AUTH_SUCCESS = 2 :=
  auth_service_sends_once stale_stack 500001 (by decide)

/-! ## The kernel side of the message bus -/

/-- C17. A send followed by a receive does not return the payload: `sys_sal_send`
returns 0 for every destination and payload, and `sys_sal_recv` returns 0 and leaves
the receive buffer as it was, for every source, buffer and length; after sending the
one byte 0x41 to process 2, a receive from 2 into a zeroed one-byte buffer does not
yield that byte with length 1. -/
theorem sal_round_trip_lost (dest : Int) (payload buf : List Nat) (maxlen : Nat) :
    sys_sal_send dest payload payload.length = 0
      ∧ sys_sal_recv dest buf maxlen = (0, buf)
      ∧ sys_sal_send 2 [0x41] 1 = 0
      ∧ sys_sal_recv 2 [0] 1 ≠ (1, [0x41]) :=
  ⟨rfl, rfl, rfl, by decide⟩

/-- C18. No send returns an error: of any number of consecutive `sys_sal_send` calls,
to any destinations and with any payloads, every one returns 0, so no queue capacity
is ever reported as reached. -/
theorem sal_send_never_full (sends : List (Int × List Nat)) :
    sends.map (fun c => sys_sal_send c.1 c.2 c.2.length)
      = List.replicate sends.length 0 := by
  induction sends with
  | nil => rfl
  | cons c sends ih =>
    rw [List.map_cons, ih]
    rfl

/-- C19. A payload longer than `SAL_MAX_MESSAGE_SIZE` is not rejected: the limit is
4096 and `sys_sal_send` returns 0 for every destination, buffer and size, in
particular for a payload of 4097 bytes. -/
theorem sal_send_accepts_oversize (dest : Int) (buf : List Nat) (size : Nat) :
    SAL_MAX_MESSAGE_SIZE = 4096
      ∧ sys_sal_send dest buf size = 0
      ∧ sys_sal_send 2 (List.replicate 4097 0) 4097 = 0 :=
  ⟨rfl, rfl, rfl⟩

/-- C20. A publish calls no subscriber: `sys_sal_subscribe` returns 0 for every topic
and every callback, and `sys_sal_publish` then returns 0 having called no callback,
whatever callbacks were subscribed to the topic. -/
theorem sal_publish_calls_nobody (topic : List Char) (callbacks : List Nat)
    (data : List Nat) :
    callbacks.map (sys_sal_subscribe topic) = List.replicate callbacks.length 0
      ∧ sys_sal_publish topic data data.length = (0, []) := by
  refine ⟨?_, rfl⟩
  induction callbacks with
  | nil => rfl
  | cons c callbacks ih =>
    rw [List.map_cons, ih]
    rfl


/-! ## The bump allocator -/

theorem land_high_mask (y k : Nat) (hy : y < 2 ^ 32) (hk : k ≤ 32) :
    y &&& (2 ^ 32 - 2 ^ k) = 2 ^ k * (y / 2 ^ k) := by
  apply Nat.eq_of_testBit_eq
  intro i
  have hpos : 0 < 2 ^ k := Nat.pow_pos (by decide)
  have hm : 2 ^ 32 - 2 ^ k = 2 ^ 32 - ((2 ^ k - 1) + 1) := by omega
  have hlt : 2 ^ k - 1 < 2 ^ 32 := by
    have : 2 ^ k ≤ 2 ^ 32 := Nat.pow_le_pow_right (by decide) hk
    omega
  rw [Nat.testBit_and, hm, Nat.testBit_two_pow_sub_succ hlt, Nat.testBit_two_pow_sub_one,
    Nat.testBit_mul_pow_two, ← Nat.shiftRight_eq_div_pow, Nat.testBit_shiftRight]
  by_cases hik : i < k
  · simp [hik, Nat.not_le.mpr hik]
  · have hki : k ≤ i := Nat.le_of_not_lt hik
    have e : k + (i - k) = i := by omega
    rw [e]
    by_cases hi : i < 32
    · simp [hik, hi, hki]
    · have : y.testBit i = false :=
        Nat.testBit_lt_two_pow (lt_of_lt_of_le hy (Nat.pow_le_pow_right (by decide)
          (Nat.le_of_not_lt hi)))
      simp [this]

/-- The rounding of `kmalloc`: a multiple of 4, computed modulo `2 ^ 32`. -/
theorem kmalloc_align_eq (size : Nat) :
    kmalloc_align size = 4 * (((size + 3) % 2 ^ 32) / 4) := by
  unfold kmalloc_align
  have h := land_high_mask ((size + 3) % 2 ^ 32) 2 (Nat.mod_lt _ (by decide)) (by decide)
  have e : (2 : Nat) ^ 32 - 2 ^ 2 = 0xFFFFFFFC := by decide
  rw [e] at h
  rw [h]
  rfl

/-- For sizes from 1 to `2 ^ 32 - 4` the rounding is the next multiple of 4. -/
theorem kmalloc_align_small (size : Nat) (h : size ≤ 2 ^ 32 - 4) :
    kmalloc_align size = 4 * ((size + 3) / 4) := by
  rw [kmalloc_align_eq, Nat.mod_eq_of_lt (by omega)]

theorem kmalloc_align_zero : kmalloc_align 0 = 0 := by decide

theorem kmalloc_align_dvd (size : Nat) : 4 ∣ kmalloc_align size := by
  rw [kmalloc_align_eq]
  exact Dvd.intro _ rfl

theorem kmalloc_pos (heap size : Nat) (h : 0 < size) :
    kmalloc heap size = (heap, (heap + kmalloc_align size) % 2 ^ 32) := by
  have : size ≠ 0 := by omega
  simp only [kmalloc, this, if_false]

/-- While the rounded sizes do not exhaust the address space, the heap pointer is the
start plus their sum, and every pointer returned for a non-zero size is not `NULL`. -/
theorem kmalloc_run_bounded : ∀ (sizes : List Nat) (heap : Nat), heap ≠ 0 →
    heap + (sizes.map kmalloc_align).sum < 2 ^ 32 →
    (kmalloc_run heap sizes).2 = heap + (sizes.map kmalloc_align).sum
      ∧ ∀ x ∈ (kmalloc_run heap sizes).1.zip sizes, 0 < x.2 → x.1 ≠ 0 := by
  intro sizes
  induction sizes with
  | nil => intro heap _ _; exact ⟨rfl, fun x hx => absurd hx (List.not_mem_nil _)⟩
  | cons size sizes ih =>
    intro heap h0 hsum
    simp only [List.map_cons, List.sum_cons] at hsum
    by_cases hz : size = 0
    · subst hz
      rw [kmalloc_align_zero] at hsum
      obtain ⟨a, b⟩ := ih heap h0 (by omega)
      simp only [kmalloc_run, kmalloc, if_true, List.map_cons, List.sum_cons,
        kmalloc_align_zero, List.zip_cons_cons, List.mem_cons]
      refine ⟨by rw [a]; omega, ?_⟩
      rintro x (rfl | hx) hpos
      · exact absurd hpos (by decide)
      · exact b x hx hpos
    · have hp : 0 < size := by omega
      have e : (heap + kmalloc_align size) % 2 ^ 32 = heap + kmalloc_align size :=
        Nat.mod_eq_of_lt (by omega)
      obtain ⟨a, b⟩ := ih (heap + kmalloc_align size) (by omega) (by omega)
      simp only [kmalloc_run, kmalloc_pos heap size hp, e, List.map_cons, List.sum_cons,
        List.zip_cons_cons, List.mem_cons]
      refine ⟨by rw [a]; omega, ?_⟩
      rintro x (rfl | hx) hpos
      · exact h0
      · exact b x hx hpos

/-- Every pointer `kmalloc` returns is a multiple of 4 when the heap pointer starts
as one, whatever the sizes. -/
theorem kmalloc_run_aligned : ∀ (sizes : List Nat) (heap : Nat), 4 ∣ heap →
    (∀ p ∈ (kmalloc_run heap sizes).1, 4 ∣ p) ∧ 4 ∣ (kmalloc_run heap sizes).2 := by
  intro sizes
  induction sizes with
  | nil => intro heap h; exact ⟨fun p hp => absurd hp (List.not_mem_nil _), h⟩
  | cons size sizes ih =>
    intro heap h
    have h2 : 4 ∣ (kmalloc heap size).2 := by
      unfold kmalloc
      split
      · exact h
      · exact (Nat.dvd_mod_iff (by decide : 4 ∣ 2 ^ 32)).mpr
          (Nat.dvd_add h (kmalloc_align_dvd size))
    have h1 : 4 ∣ (kmalloc heap size).1 := by
      unfold kmalloc
      split
      · exact Nat.dvd_zero 4
      · exact h
    obtain ⟨a, b⟩ := ih _ h2
    simp only [kmalloc_run, List.mem_cons]
    refine ⟨?_, b⟩
    rintro p (rfl | hp)
    · exact h1
    · exact a p hp

/-- C22 as stated fails: after `kmalloc(0xFFF00000)` from the initial heap pointer the
heap pointer has wrapped to 0, and `kmalloc(1)` then returns `NULL` for a size greater
than 0. -/
theorem kmalloc_positive_size_null :
    kmalloc_run kernel_heap_ptr_init [0xFFF00000, 1] = ([0x100000, 0], 4)
      ∧ ¬ (0 < 1 → (kmalloc (kmalloc kernel_heap_ptr_init 0xFFF00000).2 1).1 ≠ 0) := by
  decide

/-- C22, amended. `kmalloc(0)` returns `NULL` and leaves the heap pointer unchanged;
for every size greater than 0 `kmalloc` returns the heap pointer held before the call,
which is not `NULL` when the heap pointer is not 0, as it is from the initial heap
pointer after any allocations whose rounded sizes sum to less than
`2 ^ 32 - 0x100000`. -/
theorem kmalloc_null_only_at_zero (heap size : Nat) (sizes : List Nat) (hsize : 0 < size)
    (hsum : (sizes.map kmalloc_align).sum < 2 ^ 32 - kernel_heap_ptr_init) :
    kmalloc heap 0 = (0, heap)
      ∧ (kmalloc heap size).1 = heap
      ∧ (heap ≠ 0 → (kmalloc heap size).1 ≠ 0)
      ∧ (kmalloc (kmalloc_run kernel_heap_ptr_init sizes).2 size).1 ≠ 0 := by
  have hi : kernel_heap_ptr_init = 0x100000 := rfl
  refine ⟨rfl, by rw [kmalloc_pos heap size hsize], ?_, ?_⟩
  · intro h
    rw [kmalloc_pos heap size hsize]
    exact h
  · rw [kmalloc_pos _ size hsize]
    rw [(kmalloc_run_bounded sizes kernel_heap_ptr_init (by decide) (by omega)).1]
    show kernel_heap_ptr_init + _ ≠ 0
    omega

theorem kmalloc_null_only_at_zero_witness :
    kmalloc 0x100000 0 = (0, 0x100000)
      ∧ (kmalloc 0x100000 64).1 = 0x100000
      ∧ (0x100000 ≠ 0 → (kmalloc 0x100000 64).1 ≠ 0)
      ∧ (kmalloc (kmalloc_run kernel_heap_ptr_init [64, 128]).2 64).1 ≠ 0 :=
  kmalloc_null_only_at_zero 0x100000 64 [64, 128] (by decide) (by decide)

/-- C23 as stated fails: `kmalloc(0xFFFFFFFF)` rounds its size to 0, so it and the
following `kmalloc(1)` return the same address. -/
theorem kmalloc_same_address :
    kmalloc_run kernel_heap_ptr_init [0xFFFFFFFF, 1] = ([0x100000, 0x100000], 0x100004)
      ∧ ¬ ((kmalloc kernel_heap_ptr_init 0xFFFFFFFF).1
            ≠ (kmalloc (kmalloc kernel_heap_ptr_init 0xFFFFFFFF).2 1).1) := by
  decide

/-- C23, amended. For every heap state and every pair of non-zero sizes of which the
first is at most `2 ^ 32 - 4`, two successive `kmalloc` calls return different
addresses. -/
theorem kmalloc_different_addresses (heap s1 s2 : Nat) (hheap : heap < 2 ^ 32)
    (h1 : 0 < s1) (h1max : s1 ≤ 2 ^ 32 - 4) (h2 : 0 < s2) :
    (kmalloc heap s1).1 ≠ (kmalloc (kmalloc heap s1).2 s2).1 := by
  rw [kmalloc_pos heap s1 h1, kmalloc_pos _ s2 h2, kmalloc_align_small s1 h1max]
  show heap ≠ (heap + 4 * ((s1 + 3) / 4)) % 2 ^ 32
  by_cases hw : heap + 4 * ((s1 + 3) / 4) < 2 ^ 32
  · rw [Nat.mod_eq_of_lt hw]
    omega
  · have e : (heap + 4 * ((s1 + 3) / 4)) % 2 ^ 32 = heap + 4 * ((s1 + 3) / 4) - 2 ^ 32 := by
      rw [Nat.mod_eq_sub_mod (by omega), Nat.mod_eq_of_lt (by omega)]
    rw [e]
    omega

theorem kmalloc_different_addresses_witness :
    (kmalloc 0x100000 64).1 ≠ (kmalloc (kmalloc 0x100000 64).2 128).1 :=
  kmalloc_different_addresses 0x100000 64 128 (by decide) (by decide) (by decide)
    (by decide)

/-- C28 as stated fails: from the initial heap pointer, `kmalloc(0xFFFFFFFC)` returns
0x100000 and wraps the heap pointer to 0xFFFFC, below the address returned; the next
`kmalloc(8)` returns 0xFFFFC, and the address 0x100000 lies in both regions. -/
theorem kmalloc_regions_overlap :
    kmalloc_run kernel_heap_ptr_init [0xFFFFFFFC, 8] = ([0x100000, 0xFFFFC], 0x100004)
      ∧ (0x100000 ≤ 0x100000 ∧ 0x100000 < 0x100000 + 0xFFFFFFFC)
      ∧ (0xFFFFC ≤ 0x100000 ∧ 0x100000 < 0xFFFFC + 8)
      ∧ (0 < 0xFFFFFFFC ∧ 4 < 8 ∧ (0x100000 + 0) % 2 ^ 32 = (0xFFFFC + 4) % 2 ^ 32) := by
  decide

/-- C28, amended. For every size `s` with `0 < s ≤ 2 ^ 32 - 4`, `kmalloc(s)` returns the
heap pointer held before the call and advances the heap pointer by `s` rounded up to
the next multiple of 4, modulo `2 ^ 32`; every address `kmalloc` returns, starting from
the initial heap pointer, is a multiple of 4, whatever the sizes; and the bytes of the
allocation, at the addresses `(p + k) mod 2 ^ 32` for `k < s`, are disjoint from the
bytes of the next allocation, of any 32-bit size `s2`, exactly when the rounded size
plus `s2` is at most `2 ^ 32`. -/
theorem kmalloc_bump (heap s : Nat) (hs : 0 < s) (hmax : s ≤ 2 ^ 32 - 4) :
    (kmalloc heap s).1 = heap
      ∧ (kmalloc heap s).2 = (heap + 4 * ((s + 3) / 4)) % 2 ^ 32
      ∧ s ≤ 4 * ((s + 3) / 4) ∧ 4 * ((s + 3) / 4) < s + 4
      ∧ (∀ sizes, ∀ p ∈ (kmalloc_run kernel_heap_ptr_init sizes).1, 4 ∣ p)
      ∧ (∀ s2, s2 < 2 ^ 32 →
          (4 * ((s + 3) / 4) + s2 ≤ 2 ^ 32 ↔
            ∀ k1 k2, k1 < s → k2 < s2 →
              ((kmalloc heap s).1 + k1) % 2 ^ 32
                ≠ ((kmalloc (kmalloc heap s).2 s2).1 + k2) % 2 ^ 32)) := by
  have e1 := kmalloc_pos heap s hs
  rw [kmalloc_align_small s hmax] at e1
  refine ⟨by rw [e1], by rw [e1], by omega, by omega, ?_, ?_⟩
  · intro sizes
    exact (kmalloc_run_aligned sizes kernel_heap_ptr_init (by decide)).1
  · intro s2 hs2
    rw [e1]
    show (4 * ((s + 3) / 4) + s2 ≤ 2 ^ 32 ↔
      ∀ k1 k2, k1 < s → k2 < s2 →
        (heap + k1) % 2 ^ 32
          ≠ ((kmalloc ((heap + 4 * ((s + 3) / 4)) % 2 ^ 32) s2).1 + k2) % 2 ^ 32)
    constructor
    · intro hle k1 k2 h1 h2
      rw [kmalloc_pos _ s2 (by omega)]
      show (heap + k1) % 2 ^ 32 ≠ ((heap + 4 * ((s + 3) / 4)) % 2 ^ 32 + k2) % 2 ^ 32
      omega
    · intro hdis
      by_contra hgt
      have h2 : 2 ^ 32 - 4 * ((s + 3) / 4) < s2 := by omega
      have := hdis 0 (2 ^ 32 - 4 * ((s + 3) / 4)) hs h2
      rw [kmalloc_pos _ s2 (by omega)] at this
      apply this
      show (heap + 0) % 2 ^ 32
        = ((heap + 4 * ((s + 3) / 4)) % 2 ^ 32 + (2 ^ 32 - 4 * ((s + 3) / 4))) % 2 ^ 32
      omega

theorem kmalloc_bump_witness :
    (kmalloc 0x100000 61).1 = 0x100000
      ∧ (kmalloc 0x100000 61).2 = (0x100000 + 4 * ((61 + 3) / 4)) % 2 ^ 32
      ∧ 61 ≤ 4 * ((61 + 3) / 4) ∧ 4 * ((61 + 3) / 4) < 61 + 4
      ∧ (∀ sizes, ∀ p ∈ (kmalloc_run kernel_heap_ptr_init sizes).1, 4 ∣ p)
      ∧ (∀ s2, s2 < 2 ^ 32 →
          (4 * ((61 + 3) / 4) + s2 ≤ 2 ^ 32 ↔
            ∀ k1 k2, k1 < 61 → k2 < s2 →
              ((kmalloc 0x100000 61).1 + k1) % 2 ^ 32
                ≠ ((kmalloc (kmalloc 0x100000 61).2 s2).1 + k2) % 2 ^ 32)) :=
  kmalloc_bump 0x100000 61 (by decide) (by decide)


/-! ## The name copy of `create_user_process` -/

/-- Reading a C string by index: below its length the characters before the first
NUL, at its length the NUL (the string reads as NUL past the end of the list). -/
theorem cstr_getD : ∀ (src : List Char) (i : Nat),
    (i < (src.takeWhile (fun c => c != NUL)).length →
        src.getD i NUL ≠ NUL
          ∧ (src.takeWhile (fun c => c != NUL))[i]? = some (src.getD i NUL))
      ∧ (i = (src.takeWhile (fun c => c != NUL)).length → src.getD i NUL = NUL) := by
  intro src
  induction src with
  | nil =>
    intro i
    refine ⟨fun h => absurd h (by simp), fun _ => by simp⟩
  | cons c cs ih =>
    intro i
    by_cases hc : c = NUL
    · have e : (c :: cs).takeWhile (fun c => c != NUL) = [] := by
        simp [List.takeWhile, hc]
      rw [e]
      refine ⟨fun h => absurd h (by simp), fun h => ?_⟩
      simp only [List.length_nil] at h
      subst h
      simpa using hc
    · have e : (c :: cs).takeWhile (fun c => c != NUL)
          = c :: cs.takeWhile (fun c => c != NUL) :=
        List.takeWhile_cons_of_pos (by simpa using hc)
      rw [e]
      cases i with
      | zero =>
        refine ⟨fun _ => ⟨by simpa using hc, by simp⟩, fun h => absurd h (by simp)⟩
      | succ i =>
        obtain ⟨a, b⟩ := ih i
        refine ⟨fun h => ?_, fun h => ?_⟩
        · have := a (by simpa using h)
          simpa using this
        · have := b (by simpa using h)
          simpa using this

/-- The copy loop writes `name[j]` at the indices `j` from `i` up to the smaller of the
string length and `i + k`, and nothing else; it returns that bound as the final `i`. -/
theorem user_name_copy_spec (src : List Char) :
    ∀ (k i : Nat) (buf : List Char) (j : Nat),
      i ≤ (src.takeWhile (fun c => c != NUL)).length →
      (user_name_copy src k i buf).1
          = min (src.takeWhile (fun c => c != NUL)).length (i + k)
        ∧ (user_name_copy src k i buf).2.length = buf.length
        ∧ (user_name_copy src k i buf).2[j]? =
            if i ≤ j ∧ j < min (src.takeWhile (fun c => c != NUL)).length (i + k)
                ∧ j < buf.length
            then some (src.getD j NUL) else buf[j]? := by
  intro k
  induction k with
  | zero =>
    intro i buf j hi
    have : ¬ (i ≤ j ∧ j < min (src.takeWhile (fun c => c != NUL)).length (i + 0)
        ∧ j < buf.length) := by omega
    have e : user_name_copy src 0 i buf = (i, buf) := rfl
    rw [e, if_neg this]
    exact ⟨by omega, rfl, rfl⟩
  | succ k ih =>
    intro i buf j hi
    by_cases hL : i = (src.takeWhile (fun c => c != NUL)).length
    · have hn := (cstr_getD src i).2 hL
      have : ¬ (i ≤ j ∧ j < min (src.takeWhile (fun c => c != NUL)).length (i + (k + 1))
          ∧ j < buf.length) := by omega
      have e : user_name_copy src (k + 1) i buf = (i, buf) := by
        simp only [user_name_copy, hn, if_true]
      rw [e, if_neg this]
      exact ⟨by omega, rfl, rfl⟩
    · have hlt : i < (src.takeWhile (fun c => c != NUL)).length := by omega
      have hn := ((cstr_getD src i).1 hlt).1
      simp only [user_name_copy, hn, if_false]
      obtain ⟨a, b, c⟩ := ih (i + 1) (buf.set i (src.getD i NUL)) j (by omega)
      refine ⟨by rw [a]; omega, by rw [b, List.length_set], ?_⟩
      rw [c, List.length_set, List.getElem?_set]
      by_cases hij : i = j
      · subst hij
        by_cases hlen : i < buf.length
        · have h1 : ¬ (i + 1 ≤ i ∧ i < min (src.takeWhile (fun c => c != NUL)).length
              (i + 1 + k) ∧ i < buf.length) := by omega
          have h2 : i ≤ i ∧ i < min (src.takeWhile (fun c => c != NUL)).length
              (i + (k + 1)) ∧ i < buf.length := by omega
          rw [if_neg h1, if_pos h2]
          simp [hlen]
        · have h1 : ¬ (i + 1 ≤ i ∧ i < min (src.takeWhile (fun c => c != NUL)).length
              (i + 1 + k) ∧ i < buf.length) := by omega
          have h2 : ¬ (i ≤ i ∧ i < min (src.takeWhile (fun c => c != NUL)).length
              (i + (k + 1)) ∧ i < buf.length) := by omega
          rw [if_neg h1, if_neg h2]
          simp [hlen, List.getElem?_eq_none (Nat.le_of_not_lt hlen)]
      · by_cases hc : i + 1 ≤ j ∧ j < min (src.takeWhile (fun c => c != NUL)).length
            (i + 1 + k) ∧ j < buf.length
        · have h2 : i ≤ j ∧ j < min (src.takeWhile (fun c => c != NUL)).length
              (i + (k + 1)) ∧ j < buf.length := by omega
          rw [if_pos hc, if_pos h2]
        · have h2 : ¬ (i ≤ j ∧ j < min (src.takeWhile (fun c => c != NUL)).length
              (i + (k + 1)) ∧ j < buf.length) := by omega
          rw [if_neg hc, if_neg h2, if_neg hij]

/-- The name field after the copy loop and the terminator: the first `min L 31`
characters of the string, a NUL, and the bytes that were there before from index
`min L 31 + 1` on. -/
theorem user_name_stored (src buf : List Char) (hbuf : 32 ≤ buf.length) :
    (user_name_copy src 31 0 buf).1 = min (src.takeWhile (fun c => c != NUL)).length 31
      ∧ (user_name_copy src 31 0 buf).2.set (user_name_copy src 31 0 buf).1 NUL
          = (src.takeWhile (fun c => c != NUL)).take 31
              ++ NUL :: buf.drop (min (src.takeWhile (fun c => c != NUL)).length 31 + 1) := by
  have h1 := (user_name_copy_spec src 31 0 buf 0 (Nat.zero_le _)).1
  simp only [Nat.zero_add] at h1
  refine ⟨h1, ?_⟩
  rw [h1]
  apply List.ext_getElem?
  intro j
  obtain ⟨_, hlen, hj⟩ := user_name_copy_spec src 31 0 buf j (Nat.zero_le _)
  simp only [Nat.zero_add] at hj
  rw [List.getElem?_set, hlen]
  have htl : ((src.takeWhile (fun c => c != NUL)).take 31).length
      = min (src.takeWhile (fun c => c != NUL)).length 31 := by
    rw [List.length_take]
    omega
  by_cases hjm : min (src.takeWhile (fun c => c != NUL)).length 31 = j
  · have hjb : j < buf.length := by omega
    simp only [hjm, if_true, hjb]
    rw [List.getElem?_append_right (by omega), htl, hjm]
    simp
  · simp only [hjm, if_false]
    rw [hj]
    by_cases hlt : j < min (src.takeWhile (fun c => c != NUL)).length 31
    · have hc : 0 ≤ j ∧ j < min (src.takeWhile (fun c => c != NUL)).length 31
          ∧ j < buf.length := by omega
      simp only [hc, and_self, if_true]
      rw [List.getElem?_append_left (by omega), List.getElem?_take_of_lt (by omega)]
      exact (((cstr_getD src j).1 (by omega)).2).symm
    · have hc : ¬ (0 ≤ j ∧ j < min (src.takeWhile (fun c => c != NUL)).length 31
          ∧ j < buf.length) := by omega
      simp only [hc, if_false]
      rw [List.getElem?_append_right (by omega), htl]
      have : j - min (src.takeWhile (fun c => c != NUL)).length 31
          = (j - (min (src.takeWhile (fun c => c != NUL)).length 31 + 1)) + 1 := by omega
      rw [this, List.getElem?_cons_succ, List.getElem?_drop]
      congr 1
      omega

theorem takeWhile_terminated : ∀ (l rest : List Char), (∀ c ∈ l, c ≠ NUL) →
    (l ++ NUL :: rest).takeWhile (fun c => c != NUL) = l := by
  intro l
  induction l with
  | nil =>
    intro rest _
    exact List.takeWhile_cons_of_neg (by simp)
  | cons c cs ih =>
    intro rest h
    have hc : c ≠ NUL := h c (List.mem_cons_self _ _)
    rw [List.cons_append, List.takeWhile_cons_of_pos (by simpa using hc),
      ih rest (fun x hx => h x (List.mem_cons_of_mem _ hx))]

theorem prepare_slot_name (sym : Symbols) (s : Kernel) (name : List Char)
    (h : s.process_count < s.processes.length) :
    ((prepare_slot sym s name).deref (Ptr.slot s.process_count)).name
      = (user_name_copy name 31 0 (s.deref (Ptr.slot s.process_count)).name).2.set
          (user_name_copy name 31 0 (s.deref (Ptr.slot s.process_count)).name).1 NUL := by
  simp only [prepare_slot]
  rw [deref_store_same _ _ _ (by intro i hi; cases hi; simpa using h)]
  rfl

/-- The state `create_user_process` returns on a well-formed list with a free slot. -/
theorem create_user_process_eq (s : Kernel) (l : List Ptr) (fuel : Nat)
    (sym : Symbols) (name : List Char) (hl : IsList s l) (hb : InBounds s l)
    (hcnt : s.process_count < 16) (hlen : s.processes.length = 16)
    (hfree : Ptr.slot s.process_count ∉ l) (hfuel : l.length ≤ fuel) :
    create_user_process fuel sym s name
      = some (link_tail (prepare_slot sym s name) l.getLast? (Ptr.slot s.process_count)) := by
  have hnot : ¬ 16 ≤ s.process_count := by omega
  obtain ⟨f1, f2, f3, f4, f5⟩ := prepare_slot_fields sym s name
  have hin : s.process_count < s.processes.length := by omega
  obtain ⟨d1, d2, d3, _, _⟩ := prepare_slot_deref_same sym s name hin
  have hl3 : IsList (prepare_slot sym s name) l := by
    unfold IsList
    rw [f1]
    refine (lseg_congr s _ l _ _ ?_).mpr hl
    intro x hx
    have hxs : x ≠ Ptr.slot s.process_count := fun e => hfree (e ▸ hx)
    rw [prepare_slot_deref_ne sym s name x hxs]
  have hb3 : InBounds (prepare_slot sym s name) l := inBounds_congr s _ l f5 hb
  simp only [create_user_process, hnot, if_false]
  exact (add_to_list_spec (prepare_slot sym s name) l
    (Ptr.slot s.process_count) fuel hl3 hb3 hfree d3 hfuel).1

/-- C21. The display name stored by `create_user_process` is bounded and terminated:
on a well-formed list with a free slot whose name field has its 32 bytes, the call
returns and the name field of the new entry holds the first `min L 31` characters of
the given string (`L` its length up to the first NUL), then a NUL, then the bytes it
held before from index `min L 31 + 1` on; read as a C string the field is those
`min L 31` characters; the field keeps its length and every byte at index 32 or beyond
is as before. -/
theorem create_user_process_name (s : Kernel) (l : List Ptr) (fuel : Nat)
    (sym : Symbols) (name : List Char) (hl : IsList s l) (hb : InBounds s l)
    (hcnt : s.process_count < 16) (hlen : s.processes.length = 16)
    (hfree : Ptr.slot s.process_count ∉ l) (hfuel : l.length ≤ fuel)
    (hname : 32 ≤ (s.deref (Ptr.slot s.process_count)).name.length) :
    ∃ s1, create_user_process fuel sym s name = some s1
      ∧ (s1.deref (Ptr.slot s.process_count)).name
          = (name.takeWhile (fun c => c != NUL)).take
                (min (name.takeWhile (fun c => c != NUL)).length 31)
              ++ NUL :: (s.deref (Ptr.slot s.process_count)).name.drop
                  (min (name.takeWhile (fun c => c != NUL)).length 31 + 1)
      ∧ (s1.deref (Ptr.slot s.process_count)).cname
          = (name.takeWhile (fun c => c != NUL)).take
              (min (name.takeWhile (fun c => c != NUL)).length 31)
      ∧ (s1.deref (Ptr.slot s.process_count)).name.length
          = (s.deref (Ptr.slot s.process_count)).name.length
      ∧ ∀ j, 32 ≤ j → (s1.deref (Ptr.slot s.process_count)).name[j]?
          = (s.deref (Ptr.slot s.process_count)).name[j]? := by
  have hin : s.process_count < s.processes.length := by omega
  have hpay := congrArg Process.name
    (link_tail_payload (prepare_slot sym s name) l.getLast? (Ptr.slot s.process_count)
      (Ptr.slot s.process_count))
  simp only [Process.payload] at hpay
  have hst := (user_name_stored name (s.deref (Ptr.slot s.process_count)).name hname).2
  have hnm : ((link_tail (prepare_slot sym s name) l.getLast?
      (Ptr.slot s.process_count)).deref (Ptr.slot s.process_count)).name
      = (name.takeWhile (fun c => c != NUL)).take 31
          ++ NUL :: (s.deref (Ptr.slot s.process_count)).name.drop
              (min (name.takeWhile (fun c => c != NUL)).length 31 + 1) := by
    rw [hpay, prepare_slot_name sym s name hin, hst]
  have htl : ((name.takeWhile (fun c => c != NUL)).take 31).length
      = min (name.takeWhile (fun c => c != NUL)).length 31 := by
    rw [List.length_take]
    omega
  have e31 : (name.takeWhile (fun c => c != NUL)).take
      (min (name.takeWhile (fun c => c != NUL)).length 31)
      = (name.takeWhile (fun c => c != NUL)).take 31 := by
    by_cases h31 : (name.takeWhile (fun c => c != NUL)).length ≤ 31
    · rw [Nat.min_eq_left h31, List.take_of_length_le (Nat.le_refl _),
        List.take_of_length_le h31]
    · rw [Nat.min_eq_right (by omega)]
  rw [e31]
  refine ⟨_, create_user_process_eq s l fuel sym name hl hb hcnt hlen hfree hfuel, hnm,
    ?_, ?_, ?_⟩
  · unfold Process.cname
    rw [hnm, takeWhile_terminated]
    · intro c hc
      have := List.mem_takeWhile_imp (List.mem_of_mem_take hc)
      simpa using this
  · rw [hnm, List.length_append, htl, List.length_cons, List.length_drop]
    omega
  · intro j hj
    rw [hnm, List.getElem?_append_right (by omega), htl]
    have : j - min (name.takeWhile (fun c => c != NUL)).length 31
        = (j - (min (name.takeWhile (fun c => c != NUL)).length 31 + 1)) + 1 := by omega
    rw [this, List.getElem?_cons_succ, List.getElem?_drop]
    congr 1
    omega

theorem create_user_process_name_witness :
    ∃ s1, create_user_process 3 demo_sym boot_auth
        "a_display_name_longer_than_31_characters".toList = some s1
      ∧ (s1.deref (Ptr.slot boot_auth.process_count)).name
          = ("a_display_name_longer_than_31_characters".toList.takeWhile
                (fun c => c != NUL)).take
                (min ("a_display_name_longer_than_31_characters".toList.takeWhile
                    (fun c => c != NUL)).length 31)
              ++ NUL :: (boot_auth.deref (Ptr.slot boot_auth.process_count)).name.drop
                  (min ("a_display_name_longer_than_31_characters".toList.takeWhile
                      (fun c => c != NUL)).length 31 + 1)
      ∧ (s1.deref (Ptr.slot boot_auth.process_count)).cname
          = ("a_display_name_longer_than_31_characters".toList.takeWhile
                (fun c => c != NUL)).take
              (min ("a_display_name_longer_than_31_characters".toList.takeWhile
                  (fun c => c != NUL)).length 31)
      ∧ (s1.deref (Ptr.slot boot_auth.process_count)).name.length
          = (boot_auth.deref (Ptr.slot boot_auth.process_count)).name.length
      ∧ ∀ j, 32 ≤ j → (s1.deref (Ptr.slot boot_auth.process_count)).name[j]?
          = (boot_auth.deref (Ptr.slot boot_auth.process_count)).name[j]? :=
  create_user_process_name boot_auth [Ptr.idle, Ptr.slot 0, Ptr.slot 1] 3 demo_sym
    "a_display_name_longer_than_31_characters".toList (by decide) (by decide) (by decide)
    (by decide) (by decide) (by decide) (by decide)

/-! ## Termination of the scan loop -/

/-- C27. On every finite NULL-terminated process list of `n` entries, with the current
process in it (or none), the loop of `schedule` that looks for a Ready process stops
within `n` executions of its body, and `schedule` returns. -/
theorem schedule_scan_terminates (s : Kernel) (l : List Ptr) (hl : IsList s l)
    (hcur : ∀ c, s.current_process = some c → c ∈ l) :
    (∃ r, schedule_scan s (schedule_start s) l.length (schedule_start s) = some r)
      ∧ ∃ s1, schedule l.length s = some s1 := by
  have hs := schedule_eq s l l.length hl hcur (Nat.le_refl _)
  refine ⟨?_, _, hs⟩
  cases hp : s.process_list with
  | none =>
    have hnil : l = [] := by
      cases l with
      | nil => rfl
      | cons x xs =>
        unfold IsList at hl
        rw [hp] at hl
        exact absurd hl.1 (by simp)
    subst hnil
    have hc : s.current_process = none := by
      cases hcc : s.current_process with
      | none => rfl
      | some c => exact absurd (hcur c hcc) (List.not_mem_nil _)
    have hst : schedule_start s = none := by
      simp only [schedule_start, hc, hp]
    rw [hst]
    exact ⟨none, by simp [schedule_scan]⟩
  | some head =>
    simp only [schedule, hp] at hs
    cases hr : schedule_scan s (schedule_start s) l.length (schedule_start s) with
    | none =>
      rw [hr] at hs
      cases hs
    | some r => exact ⟨r, rfl⟩

theorem schedule_scan_terminates_witness :
    (∃ r, schedule_scan boot_run2 (schedule_start boot_run2)
        [Ptr.idle, Ptr.slot 0, Ptr.slot 1, Ptr.slot 2].length (schedule_start boot_run2)
          = some r)
      ∧ ∃ s1, schedule [Ptr.idle, Ptr.slot 0, Ptr.slot 1, Ptr.slot 2].length boot_run2
          = some s1 :=
  schedule_scan_terminates boot_run2 [Ptr.idle, Ptr.slot 0, Ptr.slot 1, Ptr.slot 2]
    (by decide)
    (fun c hc => by
      have h0 : boot_run2.current_process = some (Ptr.slot 0) := rfl
      rw [h0] at hc
      cases hc
      decide)


/-! ## The conversion helpers -/

theorem wrap32_id (x : Int) (h1 : -2 ^ 31 ≤ x) (h2 : x < 2 ^ 31) : wrap32 x = x := by
  unfold wrap32
  omega

theorem wrap32_step (x d : Int) : wrap32 (wrap32 (wrap32 x * 10) + d) = wrap32 (x * 10 + d) := by
  unfold wrap32
  omega

theorem wrap32_neg (x : Int) : wrap32 (wrap32 x * -1) = wrap32 (-x) := by
  unfold wrap32
  omega

theorem wrap32_one (x : Int) : wrap32 (wrap32 x * 1) = wrap32 x := by
  unfold wrap32
  omega

theorem digit_toNat (d : Char) (h : '0' ≤ d ∧ d ≤ '9') : 48 ≤ d.toNat ∧ d.toNat ≤ 57 :=
  ⟨h.1, h.2⟩

theorem digit_not_special (d : Char) (h : '0' ≤ d ∧ d ≤ '9') :
    d ≠ NUL ∧ d ≠ '\n' ∧ d ≠ '\r' ∧ d ≠ '-' ∧ d ≠ '+' := by
  refine ⟨?_, ?_, ?_, ?_, ?_⟩ <;> intro e <;> subst e <;> exact absurd h (by decide)

/-- On digits followed by the end of the string or by a NUL, newline or carriage
return, the digit loop returns the wrapped decimal value. -/
theorem safe_str_to_int_digits_value (rest : List Char)
    (hrest : rest = [] ∨ ∃ t tl, rest = t :: tl ∧ (t = NUL ∨ t = '\n' ∨ t = '\r')) :
    ∀ (ds : List Char) (a : Nat), (∀ d ∈ ds, '0' ≤ d ∧ d ≤ '9') →
      safe_str_to_int_digits (ds ++ rest) (wrap32 a)
        = some (wrap32 ((ds.foldl (fun v d => v * 10 + (d.toNat - 48)) a : Nat) : Int)) := by
  intro ds
  induction ds with
  | nil =>
    intro a _
    rcases hrest with rfl | ⟨t, tl, rfl, ht⟩
    · rfl
    · simp only [List.nil_append, safe_str_to_int_digits, ht, if_true, List.foldl_nil]
  | cons d ds ih =>
    intro a h
    have hd := h d (List.mem_cons_self _ _)
    obtain ⟨n1, n2, n3, _, _⟩ := digit_not_special d hd
    have hn : ¬ (d = NUL ∨ d = '\n' ∨ d = '\r') := by
      rintro (e | e | e)
      · exact n1 e
      · exact n2 e
      · exact n3 e
    have h48 := (digit_toNat d hd).1
    have e : wrap32 (wrap32 (wrap32 (a : Int) * 10) + ((d.toNat : Int) - 48))
        = wrap32 ((a * 10 + (d.toNat - 48) : Nat) : Int) := by
      rw [wrap32_step]
      congr 1
      omega
    simp only [List.cons_append, safe_str_to_int_digits, hn, if_false, hd, and_self, if_true,
      List.foldl_cons]
    rw [e]
    exact ih _ (fun x hx => h x (List.mem_cons_of_mem _ hx))

/-- On digits followed by a character that is neither a digit nor a NUL, newline or
carriage return, the digit loop executes `return 0`. -/
theorem safe_str_to_int_digits_invalid (c : Char) (rest : List Char)
    (hc : ¬ ('0' ≤ c ∧ c ≤ '9') ∧ c ≠ NUL ∧ c ≠ '\n' ∧ c ≠ '\r') :
    ∀ (ds : List Char) (r : Int), (∀ d ∈ ds, '0' ≤ d ∧ d ≤ '9') →
      safe_str_to_int_digits (ds ++ c :: rest) r = none := by
  intro ds
  induction ds with
  | nil =>
    intro r _
    have hn : ¬ (c = NUL ∨ c = '\n' ∨ c = '\r') := by
      rintro (e | e | e)
      · exact hc.2.1 e
      · exact hc.2.2.1 e
      · exact hc.2.2.2 e
    simp only [List.nil_append, safe_str_to_int_digits, hn, if_false, hc.1]
  | cons d ds ih =>
    intro r h
    have hd := h d (List.mem_cons_self _ _)
    obtain ⟨n1, n2, n3, _, _⟩ := digit_not_special d hd
    have hn : ¬ (d = NUL ∨ d = '\n' ∨ d = '\r') := by
      rintro (e | e | e)
      · exact n1 e
      · exact n2 e
      · exact n3 e
    simp only [List.cons_append, safe_str_to_int_digits, hn, if_false, hd, and_self, if_true]
    exact ih _ (fun x hx => h x (List.mem_cons_of_mem _ hx))

/-- The sign handling of `safe_str_to_int`: an optional leading sign is skipped and a
minus sign negates the result of the digit loop. -/
theorem safe_str_to_int_signed (sgn body : List Char)
    (hsgn : sgn = [] ∨ sgn = ['+'] ∨ sgn = ['-'])
    (hbody : sgn = [] → body.getD 0 NUL ≠ '-' ∧ body.getD 0 NUL ≠ '+') :
    safe_str_to_int (sgn ++ body)
      = match safe_str_to_int_digits body 0 with
        | none => 0
        | some result => wrap32 (result * (if sgn = ['-'] then -1 else 1)) := by
  rcases hsgn with rfl | rfl | rfl
  · obtain ⟨h1, h2⟩ := hbody rfl
    simp only [safe_str_to_int, List.nil_append, h1, h2, if_false, List.drop_zero]
    rfl
  · have e : (['+'] ++ body).getD 0 NUL = '+' := rfl
    have n : ¬ ('+' = '-') := by decide
    simp only [safe_str_to_int, e, n, if_false, if_true]
    rfl
  · have e : (['-'] ++ body).getD 0 NUL = '-' := rfl
    simp only [safe_str_to_int, e, if_true]
    rfl

/-- C26. `safe_str_to_int` rejects malformed input and converts well-formed input: for
an optional sign `sgn` and digits `ds`, a string that continues with a character that
is neither a digit nor a NUL, newline or carriage return gives 0; a string that ends
there, or continues with a NUL, newline or carriage return, gives the signed decimal
value of the digits when that value is in the range of `int`. -/
theorem safe_str_to_int_spec (sgn ds rest : List Char) (c : Char)
    (hsgn : sgn = [] ∨ sgn = ['+'] ∨ sgn = ['-'])
    (hds : ∀ d ∈ ds, '0' ≤ d ∧ d ≤ '9') :
    ((¬ ('0' ≤ c ∧ c ≤ '9') ∧ c ≠ NUL ∧ c ≠ '\n' ∧ c ≠ '\r') →
        (sgn = [] → ds = [] → c ≠ '-' ∧ c ≠ '+') →
        safe_str_to_int (sgn ++ (ds ++ c :: rest)) = 0)
      ∧ ((rest = [] ∨ ∃ t tl, rest = t :: tl ∧ (t = NUL ∨ t = '\n' ∨ t = '\r')) →
          -2 ^ 31 ≤ (if sgn = ['-'] then -(decimal_value ds : Int) else decimal_value ds) →
          (if sgn = ['-'] then -(decimal_value ds : Int) else decimal_value ds) < 2 ^ 31 →
          safe_str_to_int (sgn ++ (ds ++ rest))
            = if sgn = ['-'] then -(decimal_value ds : Int) else decimal_value ds) := by
  constructor
  · intro hc hfirst
    rw [safe_str_to_int_signed sgn _ hsgn, safe_str_to_int_digits_invalid c rest hc ds 0 hds]
    intro hs
    cases ds with
    | nil => exact hfirst hs rfl
    | cons d ds =>
      obtain ⟨_, _, _, n4, n5⟩ := digit_not_special d (hds d (List.mem_cons_self _ _))
      exact ⟨n4, n5⟩
  · intro hrest hlo hhi
    have hv := safe_str_to_int_digits_value rest hrest ds 0 hds
    have h0 : wrap32 ((0 : Nat) : Int) = 0 := by decide
    rw [h0] at hv
    rw [safe_str_to_int_signed sgn _ hsgn, hv]
    · show wrap32 (wrap32 ((decimal_value ds : Nat) : Int) * _) = _
      by_cases hm : sgn = ['-']
      · simp only [hm, if_true] at hlo hhi ⊢
        rw [wrap32_neg, wrap32_id _ hlo hhi]
      · simp only [hm, if_false] at hlo hhi ⊢
        rw [wrap32_one, wrap32_id _ hlo hhi]
    · intro hs
      cases ds with
      | nil =>
        rcases hrest with rfl | ⟨t, tl, rfl, ht⟩
        · exact ⟨by decide, by decide⟩
        · have e : ([] ++ t :: tl).getD 0 NUL = t := rfl
          rw [e]
          rcases ht with rfl | rfl | rfl <;> exact ⟨by decide, by decide⟩
      | cons d ds =>
        obtain ⟨_, _, _, n4, n5⟩ := digit_not_special d (hds d (List.mem_cons_self _ _))
        exact ⟨n4, n5⟩

theorem safe_str_to_int_spec_witness :
    safe_str_to_int "-45a\n".toList = 0 ∧ safe_str_to_int "-45\n".toList = -45 :=
  ⟨(safe_str_to_int_spec ['-'] ['4', '5'] ['\n'] 'a' (by decide) (by decide)).1
      (by decide) (fun h => absurd h (by decide)),
    (safe_str_to_int_spec ['-'] ['4', '5'] ['\n'] 'a' (by decide) (by decide)).2
      (Or.inr ⟨'\n', [], rfl, Or.inr (Or.inl rfl)⟩) (by decide) (by decide)⟩

theorem str_to_int_digits_eq : ∀ (cs : List Char) (result : Int),
    str_to_int_digits cs result = safe_str_to_int_digits cs result := by
  intro cs
  induction cs with
  | nil => intro result; rfl
  | cons c cs ih =>
    intro result
    simp only [str_to_int_digits, safe_str_to_int_digits, ih]

theorem int_to_str_digits_eq : ∀ (fuel : Nat) (num : Int) (i : Nat) (str : List Char),
    int_to_str_digits fuel num i str = safe_int_to_str_digits fuel num i str := by
  intro fuel
  induction fuel with
  | zero => intro num i str; rfl
  | succ fuel ih =>
    intro num i str
    simp only [int_to_str_digits, safe_int_to_str_digits, ih]

theorem int_to_str_reverse_eq : ∀ (fuel start : Nat) (last : Int) (str : List Char),
    int_to_str_reverse fuel start last str = safe_int_to_str_reverse fuel start last str := by
  intro fuel
  induction fuel with
  | zero => intro start last str; rfl
  | succ fuel ih =>
    intro start last str
    simp only [int_to_str_reverse, safe_int_to_str_reverse, ih]

/-- C30. The two copies of the conversion helpers are equivalent: for every string
`str_to_int` and `safe_str_to_int` return the same value, and for every `int`, every
buffer and every bound on the loop iterations `int_to_str` and `safe_int_to_str` leave
the same buffer (or both exceed the bound). -/
theorem conversion_copies_equal :
    (∀ str, str_to_int str = safe_str_to_int str)
      ∧ ∀ fuel num buf, int_to_str fuel num buf = safe_int_to_str fuel num buf := by
  constructor
  · intro str
    simp only [str_to_int, safe_str_to_int, str_to_int_digits_eq]
  · intro fuel num buf
    simp only [int_to_str, safe_int_to_str, int_to_str_rest, safe_int_to_str_rest,
      int_to_str_digits_eq, int_to_str_reverse_eq]



/-! ## The identity mapping of `enable_paging` -/

theorem fill_table_spec (f : Nat → Nat) : ∀ (n : Nat) (table : List Nat),
    (fill_table n f table).length = table.length
      ∧ ∀ i, (fill_table n f table)[i]? =
          if i < n ∧ i < table.length then some (f i) else table[i]? := by
  intro n
  induction n with
  | zero =>
    intro table
    refine ⟨rfl, fun i => ?_⟩
    have : ¬ (i < 0 ∧ i < table.length) := by omega
    rw [if_neg this]
    rfl
  | succ n ih =>
    intro table
    have e : fill_table (n + 1) f table = (fill_table n f table).set n (f n) := by
      simp only [fill_table, List.range_succ, List.foldl_append, List.foldl_cons,
        List.foldl_nil]
    obtain ⟨a, b⟩ := ih table
    rw [e]
    refine ⟨by rw [List.length_set, a], fun i => ?_⟩
    rw [List.getElem?_set, a, b i]
    by_cases hin : n = i
    · subst hin
      by_cases hl : n < table.length
      · have h2 : n < n + 1 ∧ n < table.length := ⟨by omega, hl⟩
        rw [if_pos rfl, if_pos hl, if_pos h2]
      · have h1 : ¬ (n < n ∧ n < table.length) := by omega
        have h2 : ¬ (n < n + 1 ∧ n < table.length) := by omega
        rw [if_pos rfl, if_neg hl, if_neg h2, List.getElem?_eq_none (by omega)]
    · rw [if_neg hin]
      by_cases hc : i < n ∧ i < table.length
      · have h2 : i < n + 1 ∧ i < table.length := by omega
        rw [if_pos hc, if_pos h2]
      · have h2 : ¬ (i < n + 1 ∧ i < table.length) := by omega
        rw [if_neg hc, if_neg h2]

theorem fill_table_getD (f : Nat → Nat) (n : Nat) (table : List Nat) (i : Nat)
    (hi : i < n) (hl : i < table.length) : (fill_table n f table).getD i 0 = f i := by
  rw [List.getD_eq_getElem?_getD, (fill_table_spec f n table).2 i, if_pos ⟨hi, hl⟩]
  rfl

/-- A page-aligned 32-bit address with the flags 3 or-ed in: the address is
recovered by the frame mask, and the present and writable bits are set. -/
theorem entry_bits (x : Nat) (hal : x % 4096 = 0) (hx : x < 2 ^ 32) :
    (x ||| 3) &&& 0xFFFFF000 = x ∧ (x ||| 3) &&& 3 = 3 ∧ (x ||| 3) &&& 1 = 1 := by
  have hq : x = 2 ^ 12 * (x / 4096) := by
    have : (2 : Nat) ^ 12 = 4096 := by decide
    omega
  have hor : x ||| 3 = x + 3 := by
    have h := Nat.mul_add_lt_is_or (by decide : 3 < 2 ^ 12) (x / 4096)
    rw [← hq] at h
    exact h.symm
  have hm := land_high_mask (x + 3) 12 (by omega) (by decide)
  have e1 : (2 : Nat) ^ 32 - 2 ^ 12 = 0xFFFFF000 := by decide
  have h3 := Nat.and_pow_two_sub_one_eq_mod (x + 3) 2
  have h1 := Nat.and_pow_two_sub_one_eq_mod (x + 3) 1
  have e3 : (2 : Nat) ^ 2 - 1 = 3 := by decide
  have e2 : (2 : Nat) ^ 1 - 1 = 1 := by decide
  rw [e1] at hm
  rw [e3] at h3
  rw [e2] at h1
  rw [hor, hm, h3, h1]
  have p12 : (2 : Nat) ^ 12 = 4096 := by decide
  have p2 : (2 : Nat) ^ 2 = 4 := by decide
  have p1 : (2 : Nat) ^ 1 = 2 := by decide
  rw [p12, p2, p1]
  omega

theorem set_getD_same (l : List Nat) (i v : Nat) (h : i < l.length) :
    (l.set i v).getD i 0 = v := by
  rw [List.getD_eq_getElem?_getD, List.getElem?_set, if_pos rfl, if_pos h]
  rfl

theorem set_getD_ne (l : List Nat) (i j v : Nat) (h : i ≠ j) :
    (l.set i v).getD j 0 = l.getD j 0 := by
  rw [List.getD_eq_getElem?_getD, List.getElem?_set, if_neg h, List.getD_eq_getElem?_getD]

/-- The page directory `enable_paging` leaves: entries 0 and 1 point to the two page
tables with flags 3, every other entry is 2. -/
theorem enable_paging_directory (sym : PagingSymbols) (p : Paging)
    (hpd : p.page_directory.length = 1024) :
    (enable_paging sym p).page_directory.getD 0 0 = sym.first_page_table ||| 3
      ∧ (enable_paging sym p).page_directory.getD 1 0 = sym.second_page_table ||| 3
      ∧ ∀ i, 2 ≤ i → i < 1024 → (enable_paging sym p).page_directory.getD i 0 = 2 := by
  have hl := (fill_table_spec (fun _ => 0x00000002) PAGE_DIRECTORY_ENTRIES
    p.page_directory).1
  simp only [enable_paging]
  refine ⟨?_, ?_, ?_⟩
  · rw [set_getD_ne _ 1 0 _ (by decide), set_getD_same _ 0 _ (by rw [hl, hpd]; decide)]
  · rw [set_getD_same _ 1 _ (by rw [List.length_set, hl, hpd]; decide)]
  · intro i h2 hi
    rw [set_getD_ne _ 1 i _ (by omega), set_getD_ne _ 0 i _ (by omega)]
    exact fill_table_getD _ PAGE_DIRECTORY_ENTRIES _ i hi (by omega)

/-- C25. After `enable_paging`, with the two page tables at distinct page-aligned
32-bit addresses, the first 8 MB are identity mapped: every address below 0x800000
translates to itself, its directory entry and its table entry both have the present
and writable bits set, and every directory entry other than 0 and 1 is not present. -/
theorem identity_mapping (sym : PagingSymbols) (p : Paging)
    (h1 : sym.first_page_table % 4096 = 0) (h1lt : sym.first_page_table < 2 ^ 32)
    (h2 : sym.second_page_table % 4096 = 0) (h2lt : sym.second_page_table < 2 ^ 32)
    (hne : sym.first_page_table ≠ sym.second_page_table)
    (hpd : p.page_directory.length = 1024) (hpt1 : p.first_page_table.length = 1024)
    (hpt2 : p.second_page_table.length = 1024) :
    (∀ a, a < 0x800000 →
        translate sym (enable_paging sym p) a = some a
          ∧ (enable_paging sym p).page_directory.getD (a / 0x400000) 0 &&& 3 = 3
          ∧ ∃ table, table_at sym (enable_paging sym p)
                ((enable_paging sym p).page_directory.getD (a / 0x400000) 0) = some table
              ∧ table.getD ((a / 4096) % 1024) 0 &&& 3 = 3)
      ∧ ∀ i, 2 ≤ i → i < 1024 →
          (enable_paging sym p).page_directory.getD i 0 &&& 1 = 0 := by
  obtain ⟨d0, d1, drest⟩ := enable_paging_directory sym p hpd
  obtain ⟨f1, f2, f3⟩ := entry_bits sym.first_page_table h1 h1lt
  obtain ⟨s1, s2, s3⟩ := entry_bits sym.second_page_table h2 h2lt
  have ht1 : (enable_paging sym p).first_page_table
      = fill_table PAGE_TABLE_ENTRIES (fun i => ((i * PAGE_SIZE) % 2 ^ 32) ||| 3)
          p.first_page_table := by
    simp only [enable_paging]
  have ht2 : (enable_paging sym p).second_page_table
      = fill_table PAGE_TABLE_ENTRIES
          (fun i => (((PAGE_TABLE_ENTRIES + i) * PAGE_SIZE) % 2 ^ 32) ||| 3)
          p.second_page_table := by
    simp only [enable_paging]
  have hP : PAGE_SIZE = 4096 := rfl
  have hE : PAGE_TABLE_ENTRIES = 1024 := rfl
  refine ⟨?_, ?_⟩
  · intro a ha
    by_cases hlow : a < 0x400000
    · have hdir : a / 0x400000 = 0 := by omega
      have hidx : (a / 4096) % 1024 = a / 4096 := by omega
      have hta : table_at sym (enable_paging sym p) (sym.first_page_table ||| 3)
          = some (enable_paging sym p).first_page_table := by
        simp only [table_at, f1, if_true]
      have hpte : (enable_paging sym p).first_page_table.getD (a / 4096) 0
          = (a / 4096 * 4096) ||| 3 := by
        rw [ht1, fill_table_getD _ _ _ _ (by rw [hE]; omega) (by omega), hP,
          Nat.mod_eq_of_lt (by omega)]
      obtain ⟨e1, e2, e3⟩ := entry_bits (a / 4096 * 4096) (by omega) (by omega)
      refine ⟨?_, ?_, ⟨(enable_paging sym p).first_page_table, ?_, ?_⟩⟩
      · have n1 : ¬ ((1 : Nat) = 0) := by decide
        have e : translate sym (enable_paging sym p) a
            = some (a / 4096 * 4096 + a % 4096) := by
          simp only [translate, hdir, d0, f3, n1, if_false, hta, hidx, hpte, e3, e1]
        rw [e]
        exact congrArg some (by omega)
      · rw [hdir, d0, f2]
      · rw [hdir, d0]
        exact hta
      · rw [hidx, hpte, e2]
    · have hdir : a / 0x400000 = 1 := by omega
      have hidx : (a / 4096) % 1024 = a / 4096 - 1024 := by omega
      have hta : table_at sym (enable_paging sym p) (sym.second_page_table ||| 3)
          = some (enable_paging sym p).second_page_table := by
        have : ¬ (sym.second_page_table = sym.first_page_table) := fun e => hne e.symm
        simp only [table_at, s1, this, if_false, if_true]
      have hpte : (enable_paging sym p).second_page_table.getD (a / 4096 - 1024) 0
          = (a / 4096 * 4096) ||| 3 := by
        have e : (1024 + (a / 4096 - 1024)) * 4096 = a / 4096 * 4096 := by omega
        rw [ht2, fill_table_getD _ _ _ _ (by rw [hE]; omega) (by omega), hP, hE,
          Nat.mod_eq_of_lt (by omega), e]
      obtain ⟨e1, e2, e3⟩ := entry_bits (a / 4096 * 4096) (by omega) (by omega)
      refine ⟨?_, ?_, ⟨(enable_paging sym p).second_page_table, ?_, ?_⟩⟩
      · have n1 : ¬ ((1 : Nat) = 0) := by decide
        have e : translate sym (enable_paging sym p) a
            = some (a / 4096 * 4096 + a % 4096) := by
          simp only [translate, hdir, d1, s3, n1, if_false, hta, hidx, hpte, e3, e1]
        rw [e]
        exact congrArg some (by omega)
      · rw [hdir, d1, s2]
      · rw [hdir, d1]
        exact hta
      · rw [hidx, hpte, e2]
  · intro i hi2 hi
    rw [drest i hi2 hi]
    decide

theorem identity_mapping_witness :
    (∀ a, a < 0x800000 →
        translate demo_paging_sym (enable_paging demo_paging_sym Paging.boot) a = some a
          ∧ (enable_paging demo_paging_sym Paging.boot).page_directory.getD
              (a / 0x400000) 0 &&& 3 = 3
          ∧ ∃ table, table_at demo_paging_sym (enable_paging demo_paging_sym Paging.boot)
                ((enable_paging demo_paging_sym Paging.boot).page_directory.getD
                  (a / 0x400000) 0) = some table
              ∧ table.getD ((a / 4096) % 1024) 0 &&& 3 = 3)
      ∧ ∀ i, 2 ≤ i → i < 1024 →
          (enable_paging demo_paging_sym Paging.boot).page_directory.getD i 0 &&& 1 = 0 :=
  identity_mapping demo_paging_sym Paging.boot (by decide) (by decide) (by decide)
    (by decide) (by decide) (List.length_replicate _ _) (List.length_replicate _ _)
    (List.length_replicate _ _)


/-! ## The system call handler -/

theorem syscall_digits_returns : ∀ (fuel n i : Nat) (num : NumBuffer), n < 10 ^ fuel →
    ∃ r, syscall_digits fuel n i num = some r := by
  intro fuel
  induction fuel with
  | zero =>
    intro n i num h
    have h0 : ¬ n > 0 := by
      simp only [Nat.pow_zero] at h
      omega
    exact ⟨(i, num), by simp only [syscall_digits, h0, if_false]⟩
  | succ fuel ih =>
    intro n i num h
    by_cases hn : n > 0
    · have hlt : n / 10 < 10 ^ fuel := by
        rw [Nat.pow_succ] at h
        exact Nat.div_lt_of_lt_mul (by rw [Nat.mul_comm]; exact h)
      obtain ⟨r, hr⟩ := ih (n / 10) (i + 1) (num.put i (Char.ofNat (48 + n % 10))) hlt
      exact ⟨r, by simp only [syscall_digits, hn, if_true, hr]⟩
    · exact ⟨(i, num), by simp only [syscall_digits, hn, if_false]⟩

/-- For every 32-bit system call number other than the four known ones the handler
returns, with the 32-bit value of -1. -/
theorem syscall_handler_unknown (fuel syscall_num arg1 arg2 arg3 : Nat) (stack : List Char)
    (hfuel : 10 ≤ fuel) (hnum : syscall_num < 2 ^ 32)
    (hunknown : syscall_num ≠ SYS_EXIT ∧ syscall_num ≠ SYS_READ ∧ syscall_num ≠ SYS_WRITE
      ∧ syscall_num ≠ SYS_GETPID) :
    ∃ num, syscall_handler fuel syscall_num arg1 arg2 arg3 stack = some (0xFFFFFFFF, num) := by
  obtain ⟨u1, u2, u3, u4⟩ := hunknown
  have hret : ((-1 : Int) % 2 ^ 32).toNat = 0xFFFFFFFF := by decide
  by_cases h0 : syscall_num = 0
  · simp only [syscall_handler, u1, u2, u3, u4, if_false, h0, if_true, hret]
    exact ⟨_, rfl⟩
  · have hlt : syscall_num < 10 ^ fuel :=
      lt_of_lt_of_le (lt_of_lt_of_le hnum (by decide : 2 ^ 32 ≤ 10 ^ 10))
        (Nat.pow_le_pow_right (by decide) hfuel)
    obtain ⟨r, hr⟩ := syscall_digits_returns fuel syscall_num 0
      { bytes := stack, written := [] } hlt
    simp only [syscall_handler, u1, u2, u3, u4, if_false, h0, hr, hret]
    exact ⟨_, rfl⟩

theorem syscall_digits_written : ∀ (fuel n i : Nat) (num : NumBuffer) (r : Nat × NumBuffer),
    syscall_digits fuel n i num = some r →
      i ≤ r.1
        ∧ (0 < n → i < r.1)
        ∧ (∀ x ∈ r.2.written, x ∈ num.written ∨ x < r.1)
        ∧ (∀ k, n < 10 ^ k → r.1 ≤ i + k)
        ∧ (∀ k, 10 ^ k ≤ n → i + k < r.1) := by
  intro fuel
  induction fuel with
  | zero =>
    intro n i num r h
    by_cases hn : n > 0
    · simp only [syscall_digits, hn, if_true] at h
      cases h
    · simp only [syscall_digits, hn, if_false, Option.some.injEq] at h
      subst h
      refine ⟨Nat.le_refl _, fun h0 => absurd h0 hn, fun x hx => Or.inl hx,
        fun k _ => by simp, fun k hk => ?_⟩
      have : 0 < 10 ^ k := Nat.pow_pos (by decide)
      omega
  | succ fuel ih =>
    intro n i num r h
    by_cases hn : n > 0
    · simp only [syscall_digits, hn, if_true] at h
      obtain ⟨a, _, c, d, e⟩ := ih _ _ _ _ h
      refine ⟨by omega, fun _ => by omega, ?_, ?_, ?_⟩
      · intro x hx
        rcases c x hx with hw | hw
        · simp only [NumBuffer.put, List.mem_append, List.mem_singleton] at hw
          rcases hw with hw | hw
          · exact Or.inl hw
          · exact Or.inr (by omega)
        · exact Or.inr hw
      · intro k hk
        cases k with
        | zero =>
          simp only [Nat.pow_zero] at hk
          omega
        | succ k =>
          have : n / 10 < 10 ^ k := by
            rw [Nat.pow_succ] at hk
            exact Nat.div_lt_of_lt_mul (by rw [Nat.mul_comm]; exact hk)
          have := d k this
          omega
      · intro k hk
        cases k with
        | zero => omega
        | succ k =>
          have : 10 ^ k ≤ n / 10 := by
            rw [Nat.pow_succ] at hk
            exact (Nat.le_div_iff_mul_le (by decide)).mpr hk
          have := e k this
          omega
    · simp only [syscall_digits, hn, if_false, Option.some.injEq] at h
      subst h
      refine ⟨Nat.le_refl _, fun h0 => absurd h0 hn, fun x hx => Or.inl hx,
        fun k _ => by simp, fun k hk => ?_⟩
      have : 0 < 10 ^ k := Nat.pow_pos (by decide)
      omega

theorem syscall_reverse_written (i : Nat) : ∀ (l : List Nat) (b : NumBuffer),
    (∀ j ∈ l, j < i / 2) →
    ∀ x ∈ (l.foldl
        (fun b j =>
          let temp := b.bytes.getD j NUL
          (b.put j (b.bytes.getD (i - 1 - j) NUL)).put (i - 1 - j) temp) b).written,
      x ∈ b.written ∨ x < i := by
  intro l
  induction l with
  | nil => intro b _ x hx; exact Or.inl hx
  | cons j l ih =>
    intro b hl x hx
    have hj := hl j (List.mem_cons_self _ _)
    simp only [List.foldl_cons] at hx
    rcases ih _ (fun y hy => hl y (List.mem_cons_of_mem _ hy)) x hx with hw | hw
    · simp only [NumBuffer.put, List.mem_append, List.mem_singleton] at hw
      rcases hw with (hw | hw) | hw
      · exact Or.inl hw
      · exact Or.inr (by omega)
      · exact Or.inr (by omega)
    · exact Or.inr hw

/-- Which unknown system call numbers stay inside `num`: below 10^9 every index
written is below 10; from 10^9 on the terminating NUL is written at index 10. -/
theorem syscall_handler_writes (fuel syscall_num arg1 arg2 arg3 : Nat) (stack : List Char)
    (r : Nat × NumBuffer) (hnum : syscall_num < 2 ^ 32)
    (hunknown : syscall_num ≠ SYS_EXIT ∧ syscall_num ≠ SYS_READ ∧ syscall_num ≠ SYS_WRITE
      ∧ syscall_num ≠ SYS_GETPID)
    (h : syscall_handler fuel syscall_num arg1 arg2 arg3 stack = some r) :
    (syscall_num < 10 ^ 9 → ∀ x ∈ r.2.written, x < 10)
      ∧ (10 ^ 9 ≤ syscall_num → 10 ∈ r.2.written) := by
  obtain ⟨u1, u2, u3, u4⟩ := hunknown
  by_cases h0 : syscall_num = 0
  · subst h0
    have e : syscall_handler fuel 0 arg1 arg2 arg3 stack
        = some (((-1 : Int) % 2 ^ 32).toNat,
            (syscall_reverse 1 (({ bytes := stack, written := [] } : NumBuffer).put 0 '0')).put
              1 NUL) := rfl
    rw [e] at h
    simp only [Option.some.injEq] at h
    subst h
    refine ⟨fun _ x hx => ?_, fun hge => absurd hge (by decide)⟩
    have hw : ((syscall_reverse 1
        (({ bytes := stack, written := [] } : NumBuffer).put 0 '0')).put 1 NUL).written
        = [0, 1] := rfl
    rw [hw] at hx
    simp only [List.mem_cons, List.mem_singleton, List.not_mem_nil, or_false] at hx
    omega
  · simp only [syscall_handler, u1, u2, u3, u4, if_false, h0] at h
    cases hd : syscall_digits fuel syscall_num 0 { bytes := stack, written := [] } with
    | none =>
      rw [hd] at h
      cases h
    | some q =>
      rw [hd] at h
      simp only [Option.some.injEq] at h
      subst h
      obtain ⟨_, _, c, d, e⟩ := syscall_digits_written _ _ _ _ _ hd
      have hrev := syscall_reverse_written q.1 (List.range (q.1 / 2)) q.2
        (fun j hj => List.mem_range.mp hj)
      constructor
      · intro hlt x hx
        have hq := d 9 hlt
        simp only [NumBuffer.put, List.mem_append, List.mem_singleton] at hx
        rcases hx with hx | hx
        · rcases hrev x hx with hw | hw
          · rcases c x hw with hv | hv
            · exact absurd hv (List.not_mem_nil _)
            · omega
          · omega
        · omega
      · intro hge
        have h1 := e 9 hge
        have h2 := d 10 (lt_of_lt_of_le hnum (by decide))
        have : q.1 = 10 := by omega
        simp only [NumBuffer.put, List.mem_append, List.mem_singleton]
        exact Or.inr this.symm

/-- C29. For the unknown system call number 4294967295 the handler returns the 32-bit
value of -1, but its last assignment to `num`, the terminating NUL, is at index 10,
one past the end of the 10-byte array: the ten digits fill `num[0..9]` and the byte
behind the array is overwritten. -/
theorem syscall_handler_overruns_num :
    syscall_handler 10 4294967295 0 0 0 (List.replicate 12 'x')
        = some (0xFFFFFFFF,
            { bytes := "4294967295".toList ++ [NUL, 'x'],
              written := [0, 1, 2, 3, 4, 5, 6, 7, 8, 9, 0, 9, 1, 8, 2, 7, 3, 6, 4, 5, 10] })
      ∧ 4294967295 ≠ SYS_EXIT ∧ 4294967295 ≠ SYS_READ ∧ 4294967295 ≠ SYS_WRITE
      ∧ 4294967295 ≠ SYS_GETPID
      ∧ ¬ (∀ i ∈ [0, 1, 2, 3, 4, 5, 6, 7, 8, 9, 0, 9, 1, 8, 2, 7, 3, 6, 4, 5, 10], i < 10) := by
  decide


/-! ### The round trip away from the smallest `int` -/

theorem set_at_length (pre post : List Char) (x c : Char) :
    (pre ++ x :: post).set pre.length c = pre ++ c :: post := by
  induction pre with
  | nil => rfl
  | cons p pre ih => simp only [List.cons_append, List.length_cons, List.set_cons_succ, ih]

theorem getD_at_length (pre post : List Char) (x : Char) :
    (pre ++ x :: post).getD pre.length NUL = x := by
  induction pre with
  | nil => rfl
  | cons p pre ih => simpa using ih

/-- The digit loop writes the decimal digits of `m`, least significant first, over
the bytes from index `i` on. -/
theorem safe_int_to_str_digits_spec : ∀ (fuel m : Nat) (pre blanks post : List Char),
    m < 10 ^ fuel → blanks.length = (Nat.digits 10 m).length →
    safe_int_to_str_digits fuel (m : Int) pre.length (pre ++ blanks ++ post)
      = some (pre.length + (Nat.digits 10 m).length,
          pre ++ (Nat.digits 10 m).map (fun d => Char.ofNat (48 + d)) ++ post) := by
  intro fuel
  induction fuel with
  | zero =>
    intro m pre blanks post hm hb
    have h0 : m = 0 := by
      simp only [Nat.pow_zero] at hm
      omega
    subst h0
    simp only [Nat.digits_zero, List.length_nil, List.length_eq_zero] at hb
    subst hb
    simp [safe_int_to_str_digits]
  | succ fuel ih =>
    intro m pre blanks post hm hb
    by_cases h0 : m = 0
    · subst h0
      simp only [Nat.digits_zero, List.length_nil, List.length_eq_zero] at hb
      subst hb
      simp [safe_int_to_str_digits]
    · have hpos : 0 < m := Nat.pos_of_ne_zero h0
      have hd : Nat.digits 10 m = (m % 10) :: Nat.digits 10 (m / 10) :=
        Nat.digits_def' (by decide) hpos
      rw [hd] at hb ⊢
      cases blanks with
      | nil => simp at hb
      | cons b blanks =>
        have hlt : m / 10 < 10 ^ fuel := by
          rw [Nat.pow_succ] at hm
          exact Nat.div_lt_of_lt_mul (by rw [Nat.mul_comm]; exact hm)
        have hgt : (m : Int) > 0 := by exact_mod_cast hpos
        have e1 : (m : Int) / 10 = ((m / 10 : Nat) : Int) := by norm_cast
        have e2 : ((m : Int) % 10).toNat = m % 10 := by
          have : (m : Int) % 10 = ((m % 10 : Nat) : Int) := by norm_cast
          rw [this, Int.toNat_ofNat]
        have e3 : (pre ++ b :: blanks ++ post).set pre.length (Char.ofNat (48 + m % 10))
            = (pre ++ [Char.ofNat (48 + m % 10)]) ++ blanks ++ post := by
          rw [List.append_assoc, List.cons_append, set_at_length]
          simp
        have hi := ih (m / 10) (pre ++ [Char.ofNat (48 + m % 10)]) blanks post hlt
          (by simpa using hb)
        simp only [List.length_append, List.length_singleton] at hi
        simp only [safe_int_to_str_digits, hgt, if_true, e1, e2, e3, hi, List.length_cons,
          List.map_cons]
        simp only [List.append_assoc, List.singleton_append, List.cons_append,
          List.nil_append, Option.some.injEq, Prod.mk.injEq, and_true]
        omega

/-- The reversal loop reverses the bytes between `start` and `end` in place. -/
theorem safe_int_to_str_reverse_spec : ∀ (fuel : Nat) (mid a b : List Char),
    mid.length ≤ 2 * fuel + 1 →
    safe_int_to_str_reverse fuel a.length ((a.length : Int) + mid.length - 1) (a ++ mid ++ b)
      = some (a ++ mid.reverse ++ b) := by
  intro fuel
  induction fuel with
  | zero =>
    intro mid a b h
    have hn : ¬ ((a.length : Int) < (a.length : Int) + mid.length - 1) := by omega
    simp only [safe_int_to_str_reverse, hn, if_false]
    match mid, h with
    | [], _ => rfl
    | [x], _ => rfl
  | succ fuel ih =>
    intro mid a b h
    match mid, h with
    | [], _ =>
      have hn : ¬ ((a.length : Int) < (a.length : Int) + ([] : List Char).length - 1) := by
        simp
      simp only [safe_int_to_str_reverse, hn, if_false]
      rfl
    | [x], _ =>
      have hn : ¬ ((a.length : Int) < (a.length : Int) + [x].length - 1) := by
        simp
      simp only [safe_int_to_str_reverse, hn, if_false]
      rfl
    | x :: y :: rest, h =>
      obtain ⟨mid2, z, hz⟩ : ∃ mid2 z, y :: rest = mid2 ++ [z] := by
        rcases List.eq_nil_or_concat (y :: rest) with e | ⟨l, c, e⟩
        · cases e
        · exact ⟨l, c, by rw [e, List.concat_eq_append]⟩
      rw [hz]
      have hlen : mid2.length + 1 = rest.length + 1 := by
        have := congrArg List.length hz
        simpa using this.symm
      have hy : ((a.length : Int) < (a.length : Int) + (x :: (mid2 ++ [z])).length - 1) := by
        simp only [List.length_cons, List.length_append, List.length_nil]
        push_cast
        omega
      have hlast : ((a.length : Int) + (x :: (mid2 ++ [z])).length - 1).toNat
          = (a ++ x :: mid2).length := by
        simp only [List.length_cons, List.length_append, List.length_nil]
        push_cast
        omega
      have hbuf : a ++ x :: (mid2 ++ [z]) ++ b = (a ++ x :: mid2) ++ z :: b := by simp
      have hbuf0 : a ++ x :: (mid2 ++ [z]) ++ b = a ++ x :: (mid2 ++ z :: b) := by simp
      have g1 : (a ++ x :: (mid2 ++ [z]) ++ b).getD a.length NUL = x := by
        rw [hbuf0, getD_at_length]
      have g2 : (a ++ x :: (mid2 ++ [z]) ++ b).getD (a ++ x :: mid2).length NUL = z := by
        rw [hbuf, getD_at_length]
      have s1 : (a ++ x :: (mid2 ++ [z]) ++ b).set a.length z
          = (a ++ z :: mid2) ++ z :: b := by
        rw [hbuf0, set_at_length]
        simp
      have hl2 : (a ++ x :: mid2).length = (a ++ z :: mid2).length := by simp
      have s2 : ((a ++ z :: mid2) ++ z :: b).set (a ++ x :: mid2).length x
          = (a ++ [z]) ++ mid2 ++ (x :: b) := by
        rw [hl2, set_at_length]
        simp
      have hnext : (a.length : Int) + (x :: (mid2 ++ [z])).length - 1 - 1
          = ((a ++ [z]).length : Int) + mid2.length - 1 := by
        simp only [List.length_cons, List.length_append, List.length_nil]
        push_cast
        omega
      have hstart : a.length + 1 = (a ++ [z]).length := by simp
      simp only [safe_int_to_str_reverse, hy, if_true, hlast, g1, g2, s1, s2, hnext, hstart]
      rw [ih mid2 (a ++ [z]) (x :: b) (by
        simp only [List.length_cons] at h
        omega)]
      simp

theorem digit_char (d : Nat) (h : d < 10) :
    ('0' ≤ Char.ofNat (48 + d) ∧ Char.ofNat (48 + d) ≤ '9')
      ∧ (Char.ofNat (48 + d)).toNat - 48 = d := by
  interval_cases d <;> decide

/-- The characters the digit loop writes, read from the last to the first, have the
number as their decimal value. -/
theorem decimal_value_reverse : ∀ (L : List Nat), (∀ d ∈ L, d < 10) →
    decimal_value ((L.map (fun d => Char.ofNat (48 + d))).reverse) = Nat.ofDigits 10 L := by
  intro L
  unfold decimal_value
  rw [List.foldl_reverse]
  induction L with
  | nil => intro _; rfl
  | cons d L ih =>
    intro h
    have hd := (digit_char d (h d (List.mem_cons_self _ _))).2
    simp only [List.map_cons, List.foldr_cons, Nat.ofDigits_cons]
    rw [ih (fun x hx => h x (List.mem_cons_of_mem _ hx)), hd]
    omega

/-- On an optional sign, digits and a NUL, `safe_str_to_int` returns the signed
decimal value when it is in the range of `int`. -/
theorem safe_str_to_int_accepts (sgn ds tail : List Char)
    (hsgn : sgn = [] ∨ sgn = ['-']) (hds : ∀ d ∈ ds, '0' ≤ d ∧ d ≤ '9')
    (hlo : -2 ^ 31 ≤ (if sgn = ['-'] then -(decimal_value ds : Int) else decimal_value ds))
    (hhi : (if sgn = ['-'] then -(decimal_value ds : Int) else decimal_value ds) < 2 ^ 31) :
    safe_str_to_int (sgn ++ (ds ++ NUL :: tail))
      = if sgn = ['-'] then -(decimal_value ds : Int) else decimal_value ds := by
  have hv := safe_str_to_int_digits_value (NUL :: tail)
    (Or.inr ⟨NUL, tail, rfl, Or.inl rfl⟩) ds 0 hds
  have h0 : wrap32 ((0 : Nat) : Int) = 0 := by decide
  rw [h0] at hv
  rw [safe_str_to_int_signed sgn _ (by
    rcases hsgn with e | e
    · exact Or.inl e
    · exact Or.inr (Or.inr e)), hv]
  · show wrap32 (wrap32 ((decimal_value ds : Nat) : Int) * _) = _
    by_cases hm : sgn = ['-']
    · simp only [hm, if_true] at hlo hhi ⊢
      rw [wrap32_neg, wrap32_id _ hlo hhi]
    · simp only [hm, if_false] at hlo hhi ⊢
      rw [wrap32_one, wrap32_id _ hlo hhi]
  · intro _
    cases ds with
    | nil =>
      have e : ([] ++ NUL :: tail).getD 0 NUL = NUL := rfl
      rw [e]
      exact ⟨by decide, by decide⟩
    | cons d ds =>
      obtain ⟨_, _, _, n4, n5⟩ := digit_not_special d (hds d (List.mem_cons_self _ _))
      exact ⟨n4, n5⟩

theorem split_buffer (buf : List Char) (k : Nat) (h : k + 2 ≤ buf.length) :
    ∃ blanks p q rest, buf = blanks ++ p :: q :: rest ∧ blanks.length = k := by
  have e : buf = buf.take k ++ buf.drop k := (List.take_append_drop k buf).symm
  have hl : (buf.drop k).length = buf.length - k := List.length_drop k buf
  match hd : buf.drop k, hl with
  | [], hl => simp at hl; omega
  | [_], hl => simp at hl; omega
  | p :: q :: rest, _ =>
    exact ⟨buf.take k, p, q, rest, by rw [← hd]; exact e, by
      rw [List.length_take]; omega⟩

/-- C24 as stated fails at the smallest `int`: there `num = -num` overflows, which C
leaves undefined, so for no bound on the loop iterations does `safe_int_to_str` give a
buffer whose string `safe_str_to_int` converts back to the number.  Where the negation
wraps, as two's complement arithmetic does, `num` stays -2147483648, the digit loop
does not run, and the rest of the function writes the string "-", which
`safe_str_to_int` converts to 0. -/
theorem round_trip_undefined_at_int_min :
    (¬ ∃ fuel out, safe_int_to_str fuel (-2147483648) buffer16 = some out
        ∧ safe_str_to_int out = -2147483648)
      ∧ int_neg (-2147483648) = none
      ∧ wrap32 (-(-2147483648)) = -2147483648
      ∧ (safe_int_to_str_rest 11 true (wrap32 (-(-2147483648))) buffer16).map
          (fun out => (cstring out, safe_str_to_int out)) = some ("-".toList, 0) := by
  refine ⟨?_, by decide, by decide, by decide⟩
  rintro ⟨fuel, out, h, _⟩
  have hn : safe_int_to_str fuel (-2147483648) buffer16 = none := by
    have e : int_neg (-2147483648) = none := by decide
    have hlt : (-2147483648 : Int) < 0 := by decide
    simp only [safe_int_to_str, hlt, if_true, e]
  rw [hn] at h
  cases h

/-- C24, amended. Integer/string round trip for every `int` other than the smallest:
with a buffer of at least 12 bytes and at least 10 iterations allowed to each loop,
`safe_int_to_str` returns, and `safe_str_to_int` applied to the buffer it leaves
returns the number. -/
theorem round_trip_except_int_min (fuel : Nat) (n : Int) (buf : List Char) (hfuel : 10 ≤ fuel)
    (hlo : -2 ^ 31 < n) (hhi : n < 2 ^ 31) (hbuf : 12 ≤ buf.length) :
    ∃ out, safe_int_to_str fuel n buf = some out ∧ safe_str_to_int out = n := by
  by_cases hz : n = 0
  · subst hz
    obtain ⟨blanks, p, q, rest, hb, hk⟩ := split_buffer buf 0 (by omega)
    have hnil : blanks = [] := List.length_eq_zero.mp hk
    subst hnil
    subst hb
    refine ⟨'0' :: NUL :: rest, rfl, ?_⟩
    exact safe_str_to_int_accepts [] ['0'] rest (Or.inl rfl) (by decide) (by decide)
      (by decide)
  · have hm0 : 0 < n.natAbs := Int.natAbs_pos.mpr hz
    have hm31 : n.natAbs < 2 ^ 31 := by omega
    have hL10 : ∀ d ∈ Nat.digits 10 n.natAbs, d < 10 :=
      fun d hd => Nat.digits_lt_base (by decide) hd
    have hlen : (Nat.digits 10 n.natAbs).length ≤ 10 := by
      by_contra hc
      have h1 : 10 ^ 11 ≤ 10 ^ (Nat.digits 10 n.natAbs).length :=
        Nat.pow_le_pow_right (by decide) (by omega)
      have h2 := Nat.base_pow_length_digits_le 10 n.natAbs (by decide) (by omega)
      have h3 : (10 : Nat) ^ 11 = 100000000000 := by decide
      omega
    have hfuelm : n.natAbs < 10 ^ fuel :=
      lt_of_lt_of_le (lt_of_lt_of_le hm31 (by decide : 2 ^ 31 ≤ 10 ^ 10))
        (Nat.pow_le_pow_right (by decide) hfuel)
    obtain ⟨blanks, p, q, rest, hb, hk⟩ :=
      split_buffer buf (Nat.digits 10 n.natAbs).length (by omega)
    subst hb
    have hcl : ((Nat.digits 10 n.natAbs).map (fun d => Char.ofNat (48 + d))).length
        = (Nat.digits 10 n.natAbs).length := List.length_map _ _
    have hdig : safe_int_to_str_digits fuel (n.natAbs : Int) 0 (blanks ++ p :: q :: rest)
        = some ((Nat.digits 10 n.natAbs).length,
            (Nat.digits 10 n.natAbs).map (fun d => Char.ofNat (48 + d)) ++ p :: q :: rest) := by
      have := safe_int_to_str_digits_spec fuel n.natAbs [] blanks (p :: q :: rest) hfuelm hk
      simpa using this
    have hds : ∀ c ∈ ((Nat.digits 10 n.natAbs).map (fun d => Char.ofNat (48 + d))).reverse,
        '0' ≤ c ∧ c ≤ '9' := by
      intro c hc
      rw [List.mem_reverse, List.mem_map] at hc
      obtain ⟨d, hd, rfl⟩ := hc
      exact (digit_char d (hL10 d hd)).1
    have hval : decimal_value
        ((Nat.digits 10 n.natAbs).map (fun d => Char.ofNat (48 + d))).reverse = n.natAbs := by
      rw [decimal_value_reverse _ hL10, Nat.ofDigits_digits]
    have hnz : ¬ ((n.natAbs : Int) = 0) := by omega
    by_cases hneg : n < 0
    · have hnum : int_neg n = some (n.natAbs : Int) := by
        unfold int_neg
        rw [if_pos (by omega)]
        exact congrArg some (by omega)
      have hs1 : ((Nat.digits 10 n.natAbs).map (fun d => Char.ofNat (48 + d))
            ++ p :: q :: rest).set (Nat.digits 10 n.natAbs).length '-'
          = (Nat.digits 10 n.natAbs).map (fun d => Char.ofNat (48 + d)) ++ '-' :: q :: rest := by
        rw [← hcl, set_at_length]
      have hs2 : ((Nat.digits 10 n.natAbs).map (fun d => Char.ofNat (48 + d))
            ++ '-' :: q :: rest).set ((Nat.digits 10 n.natAbs).length + 1) NUL
          = ((Nat.digits 10 n.natAbs).map (fun d => Char.ofNat (48 + d)) ++ ['-'])
              ++ NUL :: rest := by
        have e : (Nat.digits 10 n.natAbs).map (fun d => Char.ofNat (48 + d)) ++ '-' :: q :: rest
            = ((Nat.digits 10 n.natAbs).map (fun d => Char.ofNat (48 + d)) ++ ['-'])
                ++ q :: rest := by simp
        have l : (Nat.digits 10 n.natAbs).length + 1
            = ((Nat.digits 10 n.natAbs).map (fun d => Char.ofNat (48 + d)) ++ ['-']).length := by
          simp
        rw [e, l, set_at_length]
      have hrev := safe_int_to_str_reverse_spec fuel
        ((Nat.digits 10 n.natAbs).map (fun d => Char.ofNat (48 + d)) ++ ['-']) []
        (NUL :: rest) (by simp; omega)
      have hlast : (([] : List Char).length : Int)
          + (((Nat.digits 10 n.natAbs).map (fun d => Char.ofNat (48 + d)) ++ ['-']).length : Nat)
          - 1 = (((Nat.digits 10 n.natAbs).length + 1 : Nat) : Int) - 1 := by
        simp
      rw [hlast] at hrev
      simp only [List.length_nil, List.nil_append] at hrev
      have hout : safe_int_to_str fuel n (blanks ++ p :: q :: rest)
          = some (((Nat.digits 10 n.natAbs).map (fun d => Char.ofNat (48 + d))
              ++ ['-']).reverse ++ NUL :: rest) := by
        simp only [safe_int_to_str, safe_int_to_str_rest, hneg, if_true, hnum, hnz, if_false,
          hdig, decide_True, hs1, hs2]
        exact hrev
      refine ⟨_, hout, ?_⟩
      · rw [List.reverse_append, List.reverse_singleton, List.append_assoc]
        rw [safe_str_to_int_accepts ['-'] _ rest (Or.inr rfl) hds
          (by rw [hval]; simp only [if_true]; omega)
          (by rw [hval]; simp only [if_true]; omega), hval]
        simp only [if_true]
        omega
    · have hnum : n = (n.natAbs : Int) := by omega
      have hs2 : ((Nat.digits 10 n.natAbs).map (fun d => Char.ofNat (48 + d))
            ++ p :: q :: rest).set (Nat.digits 10 n.natAbs).length NUL
          = (Nat.digits 10 n.natAbs).map (fun d => Char.ofNat (48 + d)) ++ NUL :: q :: rest := by
        rw [← hcl, set_at_length]
      have hrev := safe_int_to_str_reverse_spec fuel
        ((Nat.digits 10 n.natAbs).map (fun d => Char.ofNat (48 + d))) []
        (NUL :: q :: rest) (by simp; omega)
      have hlast : (([] : List Char).length : Int)
          + (((Nat.digits 10 n.natAbs).map (fun d => Char.ofNat (48 + d))).length : Nat)
          - 1 = (((Nat.digits 10 n.natAbs).length : Nat) : Int) - 1 := by
        simp
      rw [hlast] at hrev
      simp only [List.length_nil, List.nil_append] at hrev
      have hdig2 : safe_int_to_str_digits fuel n 0 (blanks ++ p :: q :: rest)
          = some ((Nat.digits 10 n.natAbs).length,
            (Nat.digits 10 n.natAbs).map (fun d => Char.ofNat (48 + d)) ++ p :: q :: rest) := by
        rw [← hdig]
        congr 1
      have hnz2 : ¬ (n = 0) := hz
      have hout : safe_int_to_str fuel n (blanks ++ p :: q :: rest)
          = some (((Nat.digits 10 n.natAbs).map (fun d => Char.ofNat (48 + d))).reverse
              ++ NUL :: q :: rest) := by
        simp only [safe_int_to_str, safe_int_to_str_rest, hneg, if_false, hnz2, hdig2,
          decide_False, Bool.false_eq_true, hs2]
        exact hrev
      refine ⟨_, hout, ?_⟩
      · have := safe_str_to_int_accepts [] _ (q :: rest) (Or.inl rfl) hds
          (by rw [hval]; simp only [List.nil_eq, reduceCtorEq, if_false]; omega)
          (by rw [hval]; simp only [List.nil_eq, reduceCtorEq, if_false]; omega)
        rw [List.nil_append] at this
        rw [this, hval]
        simp only [List.nil_eq, reduceCtorEq, if_false]
        omega

theorem round_trip_except_int_min_witness :
    ∃ out, safe_int_to_str 10 (-45) buffer16 = some out ∧ safe_str_to_int out = -45 :=
  round_trip_except_int_min 10 (-45) buffer16 (by decide) (by decide) (by decide)
    (by decide)

end AeroOS
